import Mathlib

/-!
# OOP_lab5: a FIFO queue over a block-reusing memory resource

A shallow embedding of `include/queue.hpp` (class `BlockMemoryResource`,
`QueueNode<T>`, `QueueIterator<T>`, `Queue<T>`), and of the variant of
`BlockMemoryResource` in `include/block_memory_resource.hpp` and in `src/iterator.cpp`.

* Pointers are `Option Addr` (`none` is `nullptr`), the node objects live in an
  explicit heap `World.nodes`.
* Exceptions are values of `Error`; every mutating member function returns the
  state it leaves behind together with the exception it raised, if any.
* `::operator new` is an external oracle: each operation that may call it takes
  the address the system allocator answers with, and `World.live` records the
  addresses that are handed out and not yet passed to `::operator delete`.
* `size_t` arithmetic is arithmetic modulo `2 ^ 64`.
-/

set_option autoImplicit false

namespace OOPLab5

/-! ## Addresses, errors -/

/-- Machine addresses (`void*`, `QueueNode<T>*`). The null pointer is `none : Option Addr`. -/
abbrev Addr := Nat

/-- The modulus of `size_t` arithmetic; addresses of objects lie strictly between `0` and it. -/
def SIZE_MOD : Nat := 2 ^ 64

/-- The exceptions of the program, and the one undefined behaviour the embedding makes explicit. -/
inductive Error
  /-- Source: `std::runtime_error("Queue is empty")`, the spec's `EmptyQueue`. -/
  | EmptyQueue
  /-- Source: `std::invalid_argument("Attempt to deallocate unknown block")`, the spec's `UnknownBlock`. -/
  | UnknownBlock
  /-- The exception thrown by the element constructor inside `push`. -/
  | ConstructFailure
  /-- Dereference of a non-null pointer at which no node is constructed (undefined behaviour). -/
  | InvalidAccess
  deriving DecidableEq, Repr

/-! ## BlockMemoryResource (include/queue.hpp, lines 8-64) -/

/-- The record `struct Block { void* ptr; size_t size; }`. -/
structure Block where
  ptr : Addr
  size : Nat
  deriving DecidableEq, Repr

/-- The two vectors of `class BlockMemoryResource`. -/
structure BlockMemoryResource where
  allocated_blocks : List Block
  free_blocks : List Block
  deriving DecidableEq, Repr

/-- The scan `while (it != v.end()) { if (hit(*it)) { ...; v.erase(it); ... } ++it; }`:
the first element that satisfies `hit`, and the vector with exactly that element erased. -/
def takeFirst (hit : Block → Bool) : List Block → Option (Block × List Block)
  | [] => none
  | b :: rest =>
    if hit b then some (b, rest)
    else
      match takeFirst hit rest with
      | none => none
      | some (x, rest') => some (x, b :: rest')

/-- Source: `::operator new(bytes)`: the system answers `answer`, which becomes live. -/
def operator_new (live : List Addr) (answer : Addr) : Addr × List Addr :=
  (answer, answer :: live)

/-- Source: `::operator delete(p)`. -/
def operator_delete (live : List Addr) (p : Addr) : List Addr :=
  live.erase p

/-- Source: `BlockMemoryResource::do_allocate(bytes, alignment)` of include/queue.hpp.
Returns the address, the new resource state and the new set of live system allocations. -/
def BlockMemoryResource.do_allocate (mr : BlockMemoryResource) (live : List Addr)
    (bytes : Nat) (answer : Addr) : Addr × BlockMemoryResource × List Addr :=
  match takeFirst (fun b => decide (bytes ≤ b.size)) mr.free_blocks with
  | some (b, rest) =>
    (b.ptr,
     { allocated_blocks := mr.allocated_blocks ++ [Block.mk b.ptr bytes], free_blocks := rest },
     live)
  | none =>
    let r := operator_new live answer
    (r.1,
     { allocated_blocks := mr.allocated_blocks ++ [Block.mk r.1 bytes],
       free_blocks := mr.free_blocks },
     r.2)

/-- Source: `BlockMemoryResource::do_deallocate(p, bytes, alignment)` of include/queue.hpp. -/
def BlockMemoryResource.do_deallocate (mr : BlockMemoryResource) (p : Addr) (_bytes : Nat) :
    Except Error BlockMemoryResource :=
  match takeFirst (fun b => decide (b.ptr = p)) mr.allocated_blocks with
  | some (block_to_free, rest) =>
    .ok { allocated_blocks := rest, free_blocks := mr.free_blocks ++ [block_to_free] }
  | none => .error Error.UnknownBlock

/-- A freshly constructed `BlockMemoryResource`. -/
def BlockMemoryResource.new : BlockMemoryResource :=
  { allocated_blocks := [], free_blocks := [] }

/-- Addresses of the in-use collection. -/
def BlockMemoryResource.inUse (mr : BlockMemoryResource) : List Addr :=
  mr.allocated_blocks.map Block.ptr

/-- Addresses of the free collection. -/
def BlockMemoryResource.freed (mr : BlockMemoryResource) : List Addr :=
  mr.free_blocks.map Block.ptr

/-- Every address the resource tracks, in-use first. -/
def BlockMemoryResource.tracked (mr : BlockMemoryResource) : List Addr :=
  mr.inUse ++ mr.freed

/-! ## The heap and the memory resources a queue can be bound to -/

/-- The record `struct QueueNode<T> { T data; QueueNode* next; }`. -/
structure QueueNode (T : Type) where
  data : T
  next : Option Addr

/-- A `std::pmr::memory_resource*`: the process-wide default resource
(`std::pmr::new_delete_resource()`), or the address of a `BlockMemoryResource` object. -/
inductive MemoryResourceRef
  | newDelete
  | block (id : Nat)
  deriving DecidableEq, Repr

/-- One call of `memory_resource::allocate` or `memory_resource::deallocate`. -/
inductive Call
  | allocate (mr : MemoryResourceRef) (bytes : Nat)
  | deallocate (mr : MemoryResourceRef) (p : Addr) (bytes : Nat)
  deriving DecidableEq, Repr

/-- Source: `sizeof(QueueNode<T>)`, the number of bytes `allocator.allocate(1)` asks for. -/
class NodeLayout (T : Type) where
  nodeBytes : Nat

/-- The memory of the program: constructed nodes, the state of every `BlockMemoryResource`
object, the live system allocations, and the trace of calls made on memory resources. -/
structure World (T : Type) where
  nodes : Addr → Option (QueueNode T)
  resources : Nat → BlockMemoryResource
  live : List Addr
  calls : List Call

/-- No node, every `BlockMemoryResource` freshly constructed, nothing allocated. -/
def World.initial (T : Type) : World T :=
  { nodes := fun _ => none, resources := fun _ => BlockMemoryResource.new, live := [], calls := [] }

/-- Source: `mr->allocate(bytes, alignment)` through the virtual call. -/
def World.allocate {T : Type} (w : World T) (mr : MemoryResourceRef) (bytes : Nat)
    (answer : Addr) : Addr × World T :=
  match mr with
  | .newDelete =>
    let r := operator_new w.live answer
    (r.1, { w with live := r.2, calls := w.calls ++ [Call.allocate mr bytes] })
  | .block id =>
    let r := (w.resources id).do_allocate w.live bytes answer
    (r.1, { w with resources := Function.update w.resources id r.2.1, live := r.2.2,
                   calls := w.calls ++ [Call.allocate mr bytes] })

/-- Source: `mr->deallocate(p, bytes, alignment)` through the virtual call. -/
def World.deallocate {T : Type} (w : World T) (mr : MemoryResourceRef) (p : Addr)
    (bytes : Nat) : Option Error × World T :=
  match mr with
  | .newDelete =>
    (none, { w with live := operator_delete w.live p,
                    calls := w.calls ++ [Call.deallocate mr p bytes] })
  | .block id =>
    match (w.resources id).do_deallocate p bytes with
    | .ok b =>
      (none, { w with resources := Function.update w.resources id b,
                      calls := w.calls ++ [Call.deallocate mr p bytes] })
    | .error e => (some e, { w with calls := w.calls ++ [Call.deallocate mr p bytes] })

/-- The assignment `p->next = nx`; `none` when no node is constructed at `p`. -/
def World.setNext {T : Type} (w : World T) (p : Addr) (nx : Option Addr) : Option (World T) :=
  match w.nodes p with
  | none => none
  | some n => some { w with nodes := Function.update w.nodes p (some { n with next := nx }) }

/-! ## Queue<T> (include/queue.hpp, lines 120-251) -/

/-- The data members of `class Queue<T>`. -/
structure Queue where
  head : Option Addr
  tail : Option Addr
  size_ : Nat
  allocator : MemoryResourceRef
  deriving DecidableEq, Repr

/-- What a `void` member function leaves behind: the exception it raised (if any),
the memory, and the queue object. -/
structure Outcome (T : Type) where
  error : Option Error
  world : World T
  queue : Queue

/-- Source: `explicit Queue(std::pmr::memory_resource* mr)`. -/
def Queue.new (mr : MemoryResourceRef) : Queue :=
  { head := none, tail := none, size_ := 0, allocator := mr }

/-- Source: `bool empty() const { return head == nullptr; }`. -/
def Queue.empty (q : Queue) : Bool := q.head.isNone

/-- Source: `size_t size() const { return size_; }`. -/
def Queue.size (q : Queue) : Nat := q.size_

/-- Source: `void push(T& value)` (the body of `push(T&&)` is the same). `built` is the outcome of
`allocator.construct(new_node, value)`: `some d` when the element constructor returns, the node
then holding `d`, and `none` when it throws. `answer` is what `::operator new` answers if the
memory resource calls it. -/
def Queue.push {T : Type} [NodeLayout T] (w : World T) (q : Queue) (built : Option T)
    (answer : Addr) : Outcome T :=
  let a := w.allocate q.allocator (NodeLayout.nodeBytes T) answer
  let new_node := a.1
  match built with
  | none =>
    let d := a.2.deallocate q.allocator new_node (NodeLayout.nodeBytes T)
    { error := some (d.1.getD Error.ConstructFailure), world := d.2, queue := q }
  | some v =>
    let w1 : World T :=
      { a.2 with nodes := Function.update a.2.nodes new_node (some { data := v, next := none }) }
    match w1.setNext new_node none with
    | none => { error := some Error.InvalidAccess, world := w1, queue := q }
    | some w2 =>
      match q.tail with
      | some t =>
        match w2.setNext t (some new_node) with
        | none => { error := some Error.InvalidAccess, world := w2, queue := q }
        | some w3 =>
          { error := none, world := w3,
            queue := { q with tail := some new_node, size_ := (q.size_ + 1) % SIZE_MOD } }
      | none =>
        { error := none, world := w2,
          queue := { q with head := some new_node, tail := some new_node,
                            size_ := (q.size_ + 1) % SIZE_MOD } }

/-- Source: `void pop()`. -/
def Queue.pop {T : Type} [NodeLayout T] (w : World T) (q : Queue) : Outcome T :=
  match q.head with
  | none => { error := some Error.EmptyQueue, world := w, queue := q }
  | some temp =>
    match w.nodes temp with
    | none => { error := some Error.InvalidAccess, world := w, queue := q }
    | some n =>
      let q1 : Queue := { q with head := n.next }
      let q2 : Queue := if q1.head.isNone then { q1 with tail := none } else q1
      let w1 : World T := { w with nodes := Function.update w.nodes temp none }
      let d := w1.deallocate q.allocator temp (NodeLayout.nodeBytes T)
      match d.1 with
      | some e => { error := some e, world := d.2, queue := q2 }
      | none =>
        { error := none, world := d.2,
          queue := { q2 with size_ := (q2.size_ + SIZE_MOD - 1) % SIZE_MOD } }

/-- Source: `T& front()`, read through the returned reference. -/
def Queue.front {T : Type} (w : World T) (q : Queue) : Except Error T :=
  match q.head with
  | none => .error Error.EmptyQueue
  | some h =>
    match w.nodes h with
    | none => .error Error.InvalidAccess
    | some n => .ok n.data

/-- Source: `T& back()`, read through the returned reference. -/
def Queue.back {T : Type} (w : World T) (q : Queue) : Except Error T :=
  match q.head with
  | none => .error Error.EmptyQueue
  | some _ =>
    match q.tail with
    | none => .error Error.InvalidAccess
    | some t =>
      match w.nodes t with
      | none => .error Error.InvalidAccess
      | some n => .ok n.data

/-- Source: `void clear() { while (!empty()) pop(); }`, with at most `fuel` calls of `pop`;
`none` when the fuel does not suffice. An exception of `pop` leaves the loop. -/
def Queue.clear {T : Type} [NodeLayout T] : Nat → World T → Queue → Option (Outcome T)
  | fuel, w, q =>
    if q.empty then some { error := none, world := w, queue := q }
    else
      match fuel with
      | 0 => none
      | fuel + 1 =>
        let r := q.pop w
        match r.error with
        | some _ => some r
        | none => Queue.clear fuel r.world r.queue

/-- The loop of the copy constructor,
`while (current) { push(current->data); current = current->next; }`.
The first argument lists what `::operator new` answers on its successive calls, one answer
being reserved for each `push`; `none` when the answers run out. The element copy constructor
is taken to return a copy equal to its argument. -/
def Queue.copyLoop {T : Type} [NodeLayout T] :
    List Addr → World T → Queue → Option Addr → Option (Outcome T)
  | _, w, q, none => some { error := none, world := w, queue := q }
  | [], _, _, some _ => none
  | answer :: answers, w, q, some current =>
    match w.nodes current with
    | none => some { error := some Error.InvalidAccess, world := w, queue := q }
    | some n =>
      let r := q.push w (some n.data) answer
      match r.error with
      | some _ => some r
      | none =>
        match r.world.nodes current with
        | none => some { error := some Error.InvalidAccess, world := r.world, queue := r.queue }
        | some n1 => Queue.copyLoop answers r.world r.queue n1.next

/-- Source: `Queue(const Queue& other)`. -/
def Queue.copy {T : Type} [NodeLayout T] (answers : List Addr) (w : World T) (other : Queue) :
    Option (Outcome T) :=
  Queue.copyLoop answers w
    { head := none, tail := none, size_ := 0, allocator := other.allocator } other.head

/-- Source: `Queue(Queue&& other) noexcept`: the new queue, and `other` afterwards. -/
def Queue.move (other : Queue) : Queue × Queue :=
  ({ head := other.head, tail := other.tail, size_ := other.size_, allocator := other.allocator },
   { other with head := none, tail := none, size_ := 0 })

/-- Source: `allocator_type get_allocator() const`, as the resource the allocator refers to. -/
def Queue.get_allocator (q : Queue) : MemoryResourceRef := q.allocator

/-! ## QueueIterator<T> (include/queue.hpp, lines 76-118) -/

/-- The data member of `class QueueIterator<T>`. -/
structure QueueIterator where
  current : Option Addr
  deriving DecidableEq, Repr

/-- Source: `reference operator*() const`, read. -/
def QueueIterator.deref {T : Type} (w : World T) (it : QueueIterator) : Except Error T :=
  match it.current with
  | none => .error Error.InvalidAccess
  | some c =>
    match w.nodes c with
    | none => .error Error.InvalidAccess
    | some n => .ok n.data

/-- Source: `QueueIterator& operator++()`. -/
def QueueIterator.incr {T : Type} (w : World T) (it : QueueIterator) :
    Except Error QueueIterator :=
  match it.current with
  | none => .ok it
  | some c =>
    match w.nodes c with
    | none => .error Error.InvalidAccess
    | some n => .ok { current := n.next }

/-- Source: `iterator begin() { return iterator(head); }`. -/
def Queue.begin (q : Queue) : QueueIterator := { current := q.head }

/-- Source: `iterator end() { return iterator(nullptr); }`. -/
def Queue.end (_q : Queue) : QueueIterator := { current := none }

/-- The loop `for (; it != last; ++it) collected.push_back(*it);` run for at most `fuel`
iterations: `none` when the fuel does not suffice, otherwise the values collected or the
error met. -/
def iterate {T : Type} (w : World T) (last : QueueIterator) :
    Nat → QueueIterator → Option (Except Error (List T))
  | fuel, it =>
    if it = last then some (.ok [])
    else
      match fuel with
      | 0 => none
      | fuel + 1 =>
        match it.deref w with
        | .error e => some (.error e)
        | .ok v =>
          match it.incr w with
          | .error e => some (.error e)
          | .ok it1 =>
            match iterate w last fuel it1 with
            | none => none
            | some (.error e) => some (.error e)
            | some (.ok vs) => some (.ok (v :: vs))

/-- Following `next` from `p` for at most `fuel` nodes: the addresses visited, or `none`
when the fuel runs out before a null pointer is met or a pointer holds no node. -/
def walk {T : Type} (w : World T) : Nat → Option Addr → Option (List Addr)
  | _, none => some []
  | 0, some _ => none
  | fuel + 1, some p =>
    match w.nodes p with
    | none => none
    | some n =>
      match walk w fuel n.next with
      | none => none
      | some ps => some (p :: ps)

/-! ## Programs over several queues -/

/-- The state of a program: the memory, and the `Queue<T>` objects that are alive, by name. -/
structure Machine (T : Type) where
  world : World T
  queues : Nat → Option Queue

/-- Nothing allocated, no queue object. -/
def Machine.initial (T : Type) : Machine T :=
  { world := World.initial T, queues := fun _ => none }

/-- The statements a client of the queue executes. -/
inductive Op (T : Type)
  /-- Source: `Queue<T> j(mr);` -/
  | construct (j : Nat) (mr : MemoryResourceRef)
  /-- Source: `j.push(value);` with the outcome of the element constructor and the answer of
  `::operator new`. -/
  | push (j : Nat) (built : Option T) (answer : Addr)
  /-- Source: `j.pop();` -/
  | pop (j : Nat)
  /-- Source: `j.clear();` -/
  | clear (j : Nat) (fuel : Nat)
  /-- Source: `Queue<T> j(src);` -/
  | copy (j : Nat) (src : Nat) (answers : List Addr)
  /-- Source: `Queue<T> j(std::move(src));` -/
  | move (j : Nat) (src : Nat)
  /-- The end of the lifetime of `j`: `~Queue() { clear(); }`. -/
  | destroy (j : Nat) (fuel : Nat)

/-- The state after a member function of queue `j` has run, unless it ran into undefined
behaviour. -/
def Machine.settle {T : Type} (s : Machine T) (j : Nat) (r : Outcome T) :
    Option (Machine T × Option Error) :=
  if r.error = some Error.InvalidAccess then none
  else some ({ world := r.world, queues := Function.update s.queues j (some r.queue) }, r.error)

/-- One statement. `none` when the statement has no defined successor state: it names a queue
that does not exist (or, for a declaration, one that exists already), a loop does not finish
within the fuel or the answers given, undefined behaviour is met, or a destructor throws.
Otherwise the successor state and the exception that propagates to the client, if any; a
constructor that throws leaves no object behind. -/
def Machine.step {T : Type} [NodeLayout T] (s : Machine T) :
    Op T → Option (Machine T × Option Error)
  | .construct j mr =>
    match s.queues j with
    | some _ => none
    | none => some ({ s with queues := Function.update s.queues j (some (Queue.new mr)) }, none)
  | .push j built answer =>
    match s.queues j with
    | none => none
    | some q => s.settle j (q.push s.world built answer)
  | .pop j =>
    match s.queues j with
    | none => none
    | some q => s.settle j (q.pop s.world)
  | .clear j fuel =>
    match s.queues j with
    | none => none
    | some q =>
      match Queue.clear fuel s.world q with
      | none => none
      | some r => s.settle j r
  | .copy j src answers =>
    match s.queues j, s.queues src with
    | none, some other =>
      match Queue.copy answers s.world other with
      | none => none
      | some r =>
        match r.error with
        | none =>
          some ({ world := r.world, queues := Function.update s.queues j (some r.queue) }, none)
        | some Error.InvalidAccess => none
        | some e => some ({ world := r.world, queues := s.queues }, some e)
    | _, _ => none
  | .move j src =>
    match s.queues j, s.queues src with
    | none, some other =>
      let m := Queue.move other
      let qs := Function.update (Function.update s.queues src (some m.2)) j (some m.1)
      some ({ world := s.world, queues := qs }, none)
    | _, _ => none
  | .destroy j fuel =>
    match s.queues j with
    | none => none
    | some q =>
      match Queue.clear fuel s.world q with
      | none => none
      | some r =>
        if r.error = none then
          some ({ world := r.world, queues := Function.update s.queues j none }, none)
        else none

/-- An address the system allocator may answer with: a non-null address of the 64-bit address
space that is not live. -/
def World.freshAnswer {T : Type} (w : World T) (a : Addr) : Prop :=
  0 < a ∧ a < SIZE_MOD ∧ a ∉ w.live

instance {T : Type} (w : World T) (a : Addr) : Decidable (w.freshAnswer a) :=
  inferInstanceAs (Decidable (0 < a ∧ a < SIZE_MOD ∧ a ∉ w.live))

/-- The assumption on the system allocator under which a statement is run: what
`::operator new` answers is fresh, and successive answers differ. -/
def Op.admissible {T : Type} (s : Machine T) : Op T → Prop
  | .push _ _ answer => s.world.freshAnswer answer
  | .copy _ _ answers => answers.Nodup ∧ ∀ a ∈ answers, s.world.freshAnswer a
  | _ => True

/-- The states a client can bring about, starting with no queue and nothing allocated. -/
inductive Reachable {T : Type} [NodeLayout T] : Machine T → Prop
  | initial : Reachable (Machine.initial T)
  | step {s s1 : Machine T} {op : Op T} {e : Option Error} :
      Reachable s → op.admissible s → s.step op = some (s1, e) → Reachable s1

instance Op.decAdmissible {T : Type} (s : Machine T) : (op : Op T) → Decidable (op.admissible s)
  | .push _ _ answer => inferInstanceAs (Decidable (s.world.freshAnswer answer))
  | .copy _ _ answers =>
    inferInstanceAs (Decidable (answers.Nodup ∧ ∀ a ∈ answers, s.world.freshAnswer a))
  | .construct _ _ => isTrue trivial
  | .pop _ => isTrue trivial
  | .clear _ _ => isTrue trivial
  | .move _ _ => isTrue trivial
  | .destroy _ _ => isTrue trivial

/-- Running a list of statements under the assumption on the system allocator: `none` as
soon as a statement is not admissible or has no defined successor state. Exceptions that
propagate are caught by the client, which goes on with the next statement. -/
def Machine.exec {T : Type} [NodeLayout T] : Machine T → List (Op T) → Option (Machine T)
  | s, [] => some s
  | s, op :: ops =>
    if op.admissible s then
      match s.step op with
      | none => none
      | some (s1, _) => Machine.exec s1 ops
    else none

/-- The state in which a program that runs the statements `ops` ends (the initial state when
the statements cannot be run). -/
def Machine.after {T : Type} [NodeLayout T] (ops : List (Op T)) : Machine T :=
  ((Machine.initial T).exec ops).getD (Machine.initial T)

/-- The elements of the queue in head-to-tail order, as the loop
`for (auto it = q.begin(); it != q.end(); ++it)` collects them in at most `size()`
iterations. -/
def Queue.toList {T : Type} (w : World T) (q : Queue) : Option (Except Error (List T)) :=
  iterate w q.end q.size q.begin

/-- The addresses of the nodes of the queue, following `next` from `head` for at most
`size()` nodes. -/
def Queue.nodeAddrs {T : Type} (w : World T) (q : Queue) : Option (List Addr) :=
  walk w q.size q.head

/-- The statements `for (x : pushes) q.push(x);`, each with the answer of the system
allocator; the loop is left at the first exception. -/
def pushAll {T : Type} [NodeLayout T] (w : World T) (q : Queue) : List (T × Addr) → Outcome T
  | [] => { error := none, world := w, queue := q }
  | x :: rest =>
    let r := q.push w (some x.1) x.2
    match r.error with
    | some _ => r
    | none => pushAll r.world r.queue rest

/-- The statements `for (i = 0; i < n; ++i) { seen.push_back(q.front()); q.pop(); }`: what
`front()` gave each time, and the state left; the loop is left at the first exception of
`pop`. -/
def drain {T : Type} [NodeLayout T] (w : World T) (q : Queue) :
    Nat → List (Except Error T) × Outcome T
  | 0 => ([], { error := none, world := w, queue := q })
  | n + 1 =>
    let f := q.front w
    let r := q.pop w
    match r.error with
    | some _ => ([f], r)
    | none => (f :: (drain r.world r.queue n).1, (drain r.world r.queue n).2)

/-- A call on one queue in an interleaving of `push` and `pop`. -/
inductive QueueOp (T : Type)
  | push (value : T) (answer : Addr)
  | pop

/-- Running an interleaving of `push` and `pop` calls on one queue; it is left at the first
exception. -/
def Queue.runOps {T : Type} [NodeLayout T] (w : World T) (q : Queue) :
    List (QueueOp T) → Outcome T
  | [] => { error := none, world := w, queue := q }
  | .push v answer :: rest =>
    let r := q.push w (some v) answer
    match r.error with
    | some _ => r
    | none => Queue.runOps r.world r.queue rest
  | .pop :: rest =>
    let r := q.pop w
    match r.error with
    | some _ => r
    | none => Queue.runOps r.world r.queue rest

/-- The assumption on the system allocator along an interleaving: every answer is fresh at
the moment `push` is called. -/
def Queue.answersFresh {T : Type} [NodeLayout T] (w : World T) (q : Queue) :
    List (QueueOp T) → Prop
  | [] => True
  | .push v answer :: rest =>
    w.freshAnswer answer ∧
      Queue.answersFresh (q.push w (some v) answer).world (q.push w (some v) answer).queue rest
  | .pop :: rest => Queue.answersFresh (q.pop w).world (q.pop w).queue rest

/-- Number of `push` calls in an interleaving. -/
def countPush {T : Type} : List (QueueOp T) → Nat
  | [] => 0
  | .push _ _ :: rest => countPush rest + 1
  | .pop :: rest => countPush rest

/-- Number of `pop` calls in an interleaving. -/
def countPop {T : Type} : List (QueueOp T) → Nat
  | [] => 0
  | .push _ _ :: rest => countPop rest
  | .pop :: rest => countPop rest + 1

/-! ## Ownership of addresses and the representation invariant -/

/-- Address `a` is handed out by memory resource `mr` and not given back to it: it is in the
in-use collection of the `BlockMemoryResource`, or, for the default resource, it is a live
system allocation that no `BlockMemoryResource` tracks. -/
def World.owns {T : Type} (w : World T) : MemoryResourceRef → Addr → Prop
  | .block id, a => a ∈ (w.resources id).inUse
  | .newDelete, a => a ∈ w.live ∧ ∀ id, a ∉ (w.resources id).tracked

/-- Consistency of the memory resources with the system heap: live addresses are distinct
non-null 64-bit addresses, no resource tracks an address twice, every tracked block is a live
system allocation, and two resources track no common address. -/
structure World.Sound {T : Type} (w : World T) : Prop where
  live_nodup : w.live.Nodup
  live_range : ∀ a ∈ w.live, 0 < a ∧ a < SIZE_MOD
  tracked_nodup : ∀ id, (w.resources id).tracked.Nodup
  tracked_live : ∀ id, ∀ a ∈ (w.resources id).tracked, a ∈ w.live
  tracked_apart : ∀ i j, i ≠ j → ∀ a ∈ (w.resources i).tracked, a ∉ (w.resources j).tracked

/-- Following `next` from pointer `p` visits exactly the nodes `cells` (address and element, in
order) and then reaches the null pointer. -/
def Linked {T : Type} (nodes : Addr → Option (QueueNode T)) :
    Option Addr → List (Addr × T) → Prop
  | p, [] => p = none
  | p, c :: cs => p = some c.1 ∧ ∃ n, nodes c.1 = some n ∧ n.data = c.2 ∧ Linked nodes n.next cs

/-- The queue object `q` represents the cells `cells` in memory `w`. -/
structure Queue.Repr {T : Type} (w : World T) (q : Queue) (cells : List (Addr × T)) : Prop where
  linked : Linked w.nodes q.head cells
  tail_eq : q.tail = (cells.map Prod.fst).getLast?
  size_eq : q.size_ = cells.length
  nodup : (cells.map Prod.fst).Nodup
  owned : ∀ a ∈ cells.map Prod.fst, w.owns q.allocator a

/-- The invariant of a program state, for the cells `cells j` that queue `j` holds. -/
structure Machine.Inv {T : Type} (s : Machine T) (cells : Nat → List (Addr × T)) : Prop where
  sound : s.world.Sound
  repr : ∀ j q, s.queues j = some q → q.Repr s.world (cells j)
  absent : ∀ j, s.queues j = none → cells j = []
  apart : ∀ i j, i ≠ j → ∀ a ∈ (cells i).map Prod.fst, a ∉ (cells j).map Prod.fst

/-- What running member functions of a queue whose nodes are `mine` does to the rest of the
memory: a node that some resource has handed out and that is not the queue's keeps its
contents and its owner. -/
def Frame {T : Type} (w : World T) (mine : List Addr) (w1 : World T) : Prop :=
  ∀ a, a ∉ mine → ∀ mr, w.owns mr a → w1.nodes a = w.nodes a ∧ w1.owns mr a

/-- The cells `cells1` come from the nodes `mine` and from addresses no resource had handed
out in `w`. -/
def NewFrom {T : Type} (w : World T) (mine : List Addr) (cells1 : List (Addr × T)) : Prop :=
  ∀ a ∈ cells1.map Prod.fst, a ∈ mine ∨ ∀ mr, ¬ w.owns mr a

/-- The effect on memory of member functions run on a queue that owned the nodes `mine` and
holds `cells1` afterwards. -/
structure Effect {T : Type} (w : World T) (mine : List Addr) (w1 : World T)
    (cells1 : List (Addr × T)) : Prop where
  sound : w1.Sound
  frame : Frame w mine w1
  newFrom : NewFrom w mine cells1

/-- The queue objects a statement writes to. -/
def Op.targets {T : Type} : Op T → List Nat
  | .construct j _ => [j]
  | .push j _ _ => [j]
  | .pop j => [j]
  | .clear j _ => [j]
  | .copy j _ _ => [j]
  | .move j src => [j, src]
  | .destroy j _ => [j]

/-- The element type of the examples: `Queue<int>`, with 16-byte nodes. -/
instance instNodeLayoutInt : NodeLayout Int := ⟨16⟩

instance Queue.decAnswersFresh {T : Type} [NodeLayout T] :
    (ops : List (QueueOp T)) → (w : World T) → (q : Queue) →
      Decidable (Queue.answersFresh w q ops)
  | [], _, _ => isTrue trivial
  | .push v answer :: rest, w, q =>
    @instDecidableAnd _ _ (inferInstanceAs (Decidable (w.freshAnswer answer)))
      (Queue.decAnswersFresh rest (q.push w (some v) answer).world
        (q.push w (some v) answer).queue)
  | .pop :: rest, w, q => Queue.decAnswersFresh rest (q.pop w).world (q.pop w).queue

/-! ## Example programs over `Queue<int>` -/

deriving instance DecidableEq for Except

/-- Queue 0, bound to `BlockMemoryResource` 0, receives 5 and 6. -/
def twoPushes : List (Op Int) :=
  [.construct 0 (.block 0), .push 0 (some 5) 4096, .push 0 (some 6) 4128]

/-- After `twoPushes`, queue 1 is copy-constructed from queue 0. -/
def copyProgram : List (Op Int) :=
  twoPushes ++ [.copy 1 0 [4160, 4192]]

/-- After `copyProgram`, queue 2 is move-constructed from queue 0 and the copy is popped
once. -/
def sharedProgram : List (Op Int) :=
  copyProgram ++ [.move 2 0, .pop 1]

/-- The demonstration of main.cpp: push 10, 20, 30, 40, 50, pop twice, push 60 and 70. -/
def demoProgram : List (Op Int) :=
  [.construct 0 (.block 0), .push 0 (some 10) 4096, .push 0 (some 20) 4128,
   .push 0 (some 30) 4160, .push 0 (some 40) 4192, .push 0 (some 50) 4224,
   .pop 0, .pop 0, .push 0 (some 60) 4256, .push 0 (some 70) 4288]

/-- Queue 0 started, filled with 1 and emptied again by `pop`. -/
def emptiedProgram : List (Op Int) :=
  [.construct 0 (.block 0), .push 0 (some 1) 4096, .pop 0]

/-- The object of queue 0 after `twoPushes`. -/
def originalQueue : Queue := Queue.mk (some 4096) (some 4128) 2 (.block 0)

/-- The object of queue 1 after `copyProgram`. -/
def copiedQueue : Queue := Queue.mk (some 4160) (some 4192) 2 (.block 0)

/-- The object of queue 1 after `sharedProgram`. -/
def poppedCopy : Queue := Queue.mk (some 4192) (some 4192) 1 (.block 0)

/-- The object of an empty queue bound to `BlockMemoryResource` 0. -/
def emptyQueue : Queue := Queue.mk none none 0 (.block 0)

/-- The object of queue 0 after `demoProgram`. -/
def demoQueue : Queue := Queue.mk (some 4160) (some 4128) 5 (.block 0)

/-! ## The memory resource on its own -/

/-- Source: `BlockMemoryResource::do_allocate` of include/block_memory_resource.hpp (the
`std::list` variant): on reuse the block itself, `*it`, is pushed to `allocated_blocks`. -/
def block_memory_resource_hpp.do_allocate (mr : BlockMemoryResource) (live : List Addr)
    (bytes : Nat) (answer : Addr) : Addr × BlockMemoryResource × List Addr :=
  match takeFirst (fun b => decide (bytes ≤ b.size)) mr.free_blocks with
  | some (b, rest) =>
    (b.ptr, { allocated_blocks := mr.allocated_blocks ++ [b], free_blocks := rest }, live)
  | none =>
    let r := operator_new live answer
    (r.1,
     { allocated_blocks := mr.allocated_blocks ++ [Block.mk r.1 bytes],
       free_blocks := mr.free_blocks },
     r.2)

/-- Source: `BlockMemoryResource::do_deallocate` of include/block_memory_resource.hpp: the
list node found is spliced to the end of `free_blocks`. -/
def block_memory_resource_hpp.do_deallocate (mr : BlockMemoryResource) (p : Addr)
    (_bytes : Nat) : Except Error BlockMemoryResource :=
  match takeFirst (fun b => decide (b.ptr = p)) mr.allocated_blocks with
  | some (b, rest) => .ok { allocated_blocks := rest, free_blocks := mr.free_blocks ++ [b] }
  | none => .error Error.UnknownBlock

/-- A `BlockMemoryResource` of include/queue.hpp together with the system heap it draws
from. -/
structure Allocator where
  mr : BlockMemoryResource
  live : List Addr
  deriving DecidableEq, Repr

/-- The empty allocator: a freshly constructed resource, no system memory obtained. -/
def Allocator.new : Allocator := { mr := BlockMemoryResource.new, live := [] }

/-- A call of the public interface of the memory resource: `allocate(bytes, alignment)` with
the address `::operator new` answers if it is called, or `deallocate(p, bytes, alignment)`. -/
inductive AllocCall
  | allocate (bytes : Nat) (answer : Addr)
  | deallocate (p : Addr) (bytes : Nat)
  deriving DecidableEq, Repr

/-- What a call gives back: the address allocated, the normal return of `deallocate`, or the
exception raised. -/
inductive AllocResult
  | address (p : Addr)
  | done
  | failed (e : Error)
  deriving DecidableEq, Repr

/-- One call on the allocator: the state afterwards and what the caller sees. An exception
leaves the state as it was. -/
def Allocator.call (a : Allocator) : AllocCall → Allocator × AllocResult
  | .allocate bytes answer =>
    let r := a.mr.do_allocate a.live bytes answer
    ({ mr := r.2.1, live := r.2.2 }, .address r.1)
  | .deallocate p bytes =>
    match a.mr.do_deallocate p bytes with
    | .ok m => ({ mr := m, live := a.live }, .done)
    | .error e => (a, .failed e)

/-- A sequence of calls: the final state and the results in order. -/
def Allocator.calls : Allocator → List AllocCall → Allocator × List AllocResult
  | a, [] => (a, [])
  | a, c :: cs =>
    let r := a.call c
    let rs := Allocator.calls r.1 cs
    (rs.1, r.2 :: rs.2)

/-- The assumption on the system allocator: it never answers with an address that the
resource currently tracks. -/
def AllocCall.admissible (a : Allocator) : AllocCall → Prop
  | .allocate _ answer => answer ∉ a.mr.tracked
  | .deallocate _ _ => True

instance AllocCall.decAdmissible (a : Allocator) : (c : AllocCall) → Decidable (c.admissible a)
  | .allocate _ answer => inferInstanceAs (Decidable (answer ∉ a.mr.tracked))
  | .deallocate _ _ => isTrue trivial

/-- The allocator states reachable from the empty allocator by `allocate` and `deallocate`,
successful or not, under the assumption on the system allocator. -/
inductive Allocator.Reachable : Allocator → Prop
  | new : Allocator.Reachable Allocator.new
  | call {a : Allocator} {c : AllocCall} :
      Allocator.Reachable a → c.admissible a → Allocator.Reachable (a.call c).1

/-- Running a sequence of calls under the assumption on the system allocator: `none` as soon
as a call is not admissible. -/
def Allocator.exec : Allocator → List AllocCall → Option Allocator
  | a, [] => some a
  | a, c :: cs => if c.admissible a then Allocator.exec (a.call c).1 cs else none

/-- The state after a sequence of calls on the empty allocator (the empty allocator when the
calls cannot be run). -/
def Allocator.afterCalls (cs : List AllocCall) : Allocator :=
  (Allocator.new.exec cs).getD Allocator.new

/-- A call is a `deallocate`. -/
def AllocCall.isDeallocate : AllocCall → Bool
  | .allocate _ _ => false
  | .deallocate _ _ => true

/-! ## Writing through references, and the history of a queue -/

/-- The assignment `p->data = value`; `none` when no node is constructed at `p`. -/
def World.setData {T : Type} (w : World T) (p : Addr) (value : T) : Option (World T) :=
  match w.nodes p with
  | none => none
  | some n => some { w with nodes := Function.update w.nodes p (some { n with data := value }) }

/-- Source: `q.front() = value;`, an assignment through the reference `front()` returns. -/
def Queue.assignFront {T : Type} (w : World T) (q : Queue) (value : T) :
    Except Error (World T) :=
  match q.head with
  | none => .error Error.EmptyQueue
  | some h =>
    match w.setData h value with
    | none => .error Error.InvalidAccess
    | some w1 => .ok w1

/-- Source: `q.back() = value;`, an assignment through the reference `back()` returns. -/
def Queue.assignBack {T : Type} (w : World T) (q : Queue) (value : T) :
    Except Error (World T) :=
  match q.head with
  | none => .error Error.EmptyQueue
  | some _ =>
    match q.tail with
    | none => .error Error.InvalidAccess
    | some t =>
      match w.setData t value with
      | none => .error Error.InvalidAccess
      | some w1 => .ok w1

/-- Source: `*it = value;`, an assignment through the reference `operator*` returns. -/
def QueueIterator.assign {T : Type} (w : World T) (it : QueueIterator) (value : T) :
    Except Error (World T) :=
  match it.current with
  | none => .error Error.InvalidAccess
  | some c =>
    match w.setData c value with
    | none => .error Error.InvalidAccess
    | some w1 => .ok w1

/-- The statement `++it` executed `n` times. -/
def QueueIterator.advance {T : Type} (w : World T) : Nat → QueueIterator →
    Except Error QueueIterator
  | 0, it => .ok it
  | n + 1, it =>
    match it.incr w with
    | .error e => .error e
    | .ok it1 => QueueIterator.advance w n it1

/-- The values pushed and not yet popped, oldest first, after an interleaving of `push` and
`pop` calls on a queue that held `xs`. -/
def pendingFrom {T : Type} : List T → List (QueueOp T) → List T
  | xs, [] => xs
  | xs, .push v _ :: rest => pendingFrom (xs ++ [v]) rest
  | xs, .pop :: rest => pendingFrom xs.tail rest

/-! ## Example calls on the memory resource -/

/-- The scenario of the spec: allocate 100 (A), allocate 200 (B), deallocate A, allocate 100,
deallocate B, deallocate B again. -/
def doubleFreeCalls : List AllocCall :=
  [.allocate 100 4096, .allocate 200 8192, .deallocate 4096 100, .allocate 100 12288,
   .deallocate 8192 200, .deallocate 8192 200]

/-- Two blocks of 100 bytes are allocated and then both deallocated. -/
def twoFreeBlocks : List AllocCall :=
  [.allocate 100 4096, .allocate 100 8192, .deallocate 4096 100, .deallocate 8192 100]

/-- The calls of the example for a block reused for a smaller request: allocate 200,
deallocate, allocate 100, deallocate, allocate 200. -/
def shrinkCalls : List AllocCall :=
  [.allocate 200 4096, .deallocate 4096 200, .allocate 100 8192, .deallocate 4096 100,
   .allocate 200 12288]

/-- One call on the resource of include/block_memory_resource.hpp, as `Allocator.call`. -/
def block_memory_resource_hpp.call (a : Allocator) : AllocCall → Allocator × AllocResult
  | .allocate bytes answer =>
    let r := block_memory_resource_hpp.do_allocate a.mr a.live bytes answer
    ({ mr := r.2.1, live := r.2.2 }, .address r.1)
  | .deallocate p bytes =>
    match block_memory_resource_hpp.do_deallocate a.mr p bytes with
    | .ok m => ({ mr := m, live := a.live }, .done)
    | .error e => (a, .failed e)

/-- A sequence of calls on the resource of include/block_memory_resource.hpp. -/
def block_memory_resource_hpp.calls : Allocator → List AllocCall → Allocator × List AllocResult
  | a, [] => (a, [])
  | a, c :: cs =>
    let r := block_memory_resource_hpp.call a c
    let rs := block_memory_resource_hpp.calls r.1 cs
    (rs.1, r.2 :: rs.2)

/-! ## Example interleavings on one queue -/

/-- The test `FrontAndBackOperations` extended by a pop: push 10, 20, 30 and pop once. -/
def frontBackOps : List (QueueOp Int) :=
  [.push 10 4096, .push 20 4128, .push 30 4160, .pop]

/-- Memory `w1` differs from `w` in element values only: the same addresses hold nodes, every
node keeps its `next`, and memory resources, system heap and call trace are the same. -/
def World.sameLinks {T : Type} (w w1 : World T) : Prop :=
  (∀ a, (w1.nodes a).map QueueNode.next = (w.nodes a).map QueueNode.next) ∧
  w1.resources = w.resources ∧ w1.live = w.live ∧ w1.calls = w.calls


/-! ## The allocator of src/iterator.cpp -/

/-- Source: `BlockMemoryResource::do_allocate` of src/iterator.cpp (a `std::list` variant). The
value `remaining_size = it->size - bytes` it computes is not used; the reused block is erased
from `free_blocks` and recorded anew with the size requested, as in include/queue.hpp. -/
def iterator_cpp.do_allocate (mr : BlockMemoryResource) (live : List Addr)
    (bytes : Nat) (answer : Addr) : Addr × BlockMemoryResource × List Addr :=
  match takeFirst (fun b => decide (bytes ≤ b.size)) mr.free_blocks with
  | some (b, rest) =>
    let result := b.ptr
    (result,
     { allocated_blocks := mr.allocated_blocks ++ [Block.mk result bytes], free_blocks := rest },
     live)
  | none =>
    let r := operator_new live answer
    (r.1,
     { allocated_blocks := mr.allocated_blocks ++ [Block.mk r.1 bytes],
       free_blocks := mr.free_blocks },
     r.2)

/-- Source: `BlockMemoryResource::do_deallocate` of src/iterator.cpp: the list node found is
spliced to the end of `free_blocks`. -/
def iterator_cpp.do_deallocate (mr : BlockMemoryResource) (p : Addr) (_bytes : Nat) :
    Except Error BlockMemoryResource :=
  match takeFirst (fun b => decide (b.ptr = p)) mr.allocated_blocks with
  | some (b, rest) => .ok { allocated_blocks := rest, free_blocks := mr.free_blocks ++ [b] }
  | none => .error Error.UnknownBlock

/-! ## The destructor of BlockMemoryResource -/

/-- Source: `::operator delete(p)` with its precondition: `none` when `p` is not a live system
allocation (a block released twice or never obtained: undefined behaviour). -/
def operator_delete_live (live : List Addr) (p : Addr) : Option (List Addr) :=
  if p ∈ live then some (operator_delete live p) else none

/-- The loop `for (const auto& block : blocks) { ::operator delete(block.ptr); }`: the live
system allocations left, or `none` when a release is not defined. -/
def releaseAll : List Block → List Addr → Option (List Addr)
  | [], live => some live
  | block :: rest, live =>
    match operator_delete_live live block.ptr with
    | none => none
    | some live1 => releaseAll rest live1

/-- Source: `BlockMemoryResource::~BlockMemoryResource()`: every block of `allocated_blocks`,
then every block of `free_blocks`, is passed to `::operator delete`. -/
def BlockMemoryResource.destructor (mr : BlockMemoryResource) (live : List Addr) :
    Option (List Addr) :=
  match releaseAll mr.allocated_blocks live with
  | none => none
  | some live1 => releaseAll mr.free_blocks live1

/-! ## The bytes obtained from the system -/

/-- The request is passed on to `::operator new`: the scan of `do_allocate` finds no free
block of sufficient size. -/
def BlockMemoryResource.asksSystem (mr : BlockMemoryResource) (bytes : Nat) : Bool :=
  (takeFirst (fun b => decide (bytes ≤ b.size)) mr.free_blocks).isNone

/-- The system allocation a call makes, if any: the address `::operator new` answers with and
the number of bytes it was asked for. -/
def Allocator.obtains (a : Allocator) : AllocCall → List Block
  | .allocate bytes answer => if a.mr.asksSystem bytes then [Block.mk answer bytes] else []
  | .deallocate _ _ => []

/-- The system allocations made along a sequence of calls, in order. -/
def Allocator.obtained : Allocator → List AllocCall → List Block
  | _, [] => []
  | a, c :: cs => a.obtains c ++ Allocator.obtained (a.call c).1 cs

/-! ## A queue as the only user of a memory resource -/

/-- Queue `q`, holding the cells `cells`, is the only user of `BlockMemoryResource` `id`, and
that resource is the only user of the system heap: the addresses in use are exactly the
nodes of the queue, and the tracked addresses are exactly the live system allocations. -/
structure SoleUser {T : Type} (w : World T) (id : Nat) (q : Queue) (cells : List (Addr × T)) :
    Prop where
  sound : w.Sound
  repr : q.Repr w cells
  bound : q.allocator = .block id
  inUse_iff : ∀ a, a ∈ (w.resources id).inUse ↔ a ∈ cells.map Prod.fst
  tracked_live : (w.resources id).tracked.Perm w.live
/-! ## The scan and the two operations of BlockMemoryResource -/

theorem takeFirst_eq_some {hit : Block → Bool} {l : List Block} {b : Block} {rest : List Block}
    (h : takeFirst hit l = some (b, rest)) :
    hit b = true ∧ ∃ l1 l2, l = l1 ++ b :: l2 ∧ rest = l1 ++ l2 ∧ ∀ x ∈ l1, hit x = false := by
  induction l generalizing b rest with
  | nil => simp [takeFirst] at h
  | cons c cs ih =>
    unfold takeFirst at h
    by_cases hc : hit c = true
    · simp only [hc, if_true, Option.some.injEq, Prod.mk.injEq] at h
      obtain ⟨rfl, rfl⟩ := h
      exact ⟨hc, [], cs, rfl, rfl, by simp⟩
    · simp only [hc] at h
      cases hr : takeFirst hit cs with
      | none => simp [hr] at h
      | some xr =>
        obtain ⟨x, r⟩ := xr
        simp only [hr, Option.some.injEq, Prod.mk.injEq] at h
        obtain ⟨rfl, rfl⟩ := h
        obtain ⟨hx, l1, l2, e1, e2, e3⟩ := ih hr
        refine ⟨hx, c :: l1, l2, by simp [e1], by simp [e2], ?_⟩
        intro y hy
        rcases List.mem_cons.mp hy with rfl | hy
        · simpa using hc
        · exact e3 y hy

theorem takeFirst_eq_none {hit : Block → Bool} {l : List Block} :
    takeFirst hit l = none ↔ ∀ x ∈ l, hit x = false := by
  induction l with
  | nil => simp [takeFirst]
  | cons c cs ih =>
    unfold takeFirst
    by_cases hc : hit c = true
    · simp [hc]
    · have hc' : hit c = false := by simpa using hc
      cases hr : takeFirst hit cs with
      | none =>
        have hall := ih.mp hr
        simp only [hc', Bool.false_eq_true, if_false, List.mem_cons, forall_eq_or_imp,
          true_and, true_iff]
        exact hall
      | some xr =>
        have hne : ¬ ∀ x ∈ cs, hit x = false := fun hall => by
          have := ih.mpr hall
          simp [hr] at this
        simp only [hc', Bool.false_eq_true, if_false, List.mem_cons, forall_eq_or_imp,
          true_and]
        constructor
        · intro h; cases h
        · intro h; exact absurd h hne

theorem do_allocate_cases (mr : BlockMemoryResource) (live : List Addr) (bytes : Nat)
    (answer : Addr) :
    ((mr.do_allocate live bytes answer).1 ∈ mr.freed ∧
      (mr.do_allocate live bytes answer).2.1.inUse
        = mr.inUse ++ [(mr.do_allocate live bytes answer).1] ∧
      ((mr.do_allocate live bytes answer).1 :: (mr.do_allocate live bytes answer).2.1.freed).Perm
        mr.freed ∧
      (mr.do_allocate live bytes answer).2.2 = live) ∨
    ((mr.do_allocate live bytes answer).1 = answer ∧
      (mr.do_allocate live bytes answer).2.1.inUse = mr.inUse ++ [answer] ∧
      (mr.do_allocate live bytes answer).2.1.freed = mr.freed ∧
      (mr.do_allocate live bytes answer).2.2 = answer :: live) := by
  unfold BlockMemoryResource.do_allocate
  cases hr : takeFirst (fun b => decide (bytes ≤ b.size)) mr.free_blocks with
  | none =>
    right
    simp [operator_new, BlockMemoryResource.inUse, BlockMemoryResource.freed]
  | some xr =>
    obtain ⟨b, rest⟩ := xr
    obtain ⟨_, l1, l2, e1, e2, _⟩ := takeFirst_eq_some hr
    left
    simp only [BlockMemoryResource.inUse, BlockMemoryResource.freed, List.map_append,
      List.map_cons, List.map_nil, e1, e2, and_true, true_and]
    refine ⟨by simp, ?_⟩
    exact (List.perm_middle).symm

theorem do_deallocate_ok (mr : BlockMemoryResource) (p : Addr) (bytes : Nat)
    (h : p ∈ mr.inUse) :
    ∃ mr1, mr.do_deallocate p bytes = .ok mr1 ∧ (p :: mr1.inUse).Perm mr.inUse ∧
      mr1.freed = mr.freed ++ [p] := by
  unfold BlockMemoryResource.do_deallocate
  cases hr : takeFirst (fun b => decide (b.ptr = p)) mr.allocated_blocks with
  | none =>
    exfalso
    have hall := takeFirst_eq_none.mp hr
    obtain ⟨b, hb, rfl⟩ := List.mem_map.mp h
    simpa using hall b hb
  | some xr =>
    obtain ⟨b, rest⟩ := xr
    obtain ⟨hb, l1, l2, e1, e2, _⟩ := takeFirst_eq_some hr
    have hbp : b.ptr = p := by simpa using hb
    refine ⟨_, rfl, ?_, ?_⟩
    · simp only [BlockMemoryResource.inUse, e1, e2, List.map_append, List.map_cons, hbp]
      exact (List.perm_middle).symm
    · simp [BlockMemoryResource.freed, hbp]

theorem do_deallocate_unknown (mr : BlockMemoryResource) (p : Addr) (bytes : Nat)
    (h : p ∉ mr.inUse) : mr.do_deallocate p bytes = .error Error.UnknownBlock := by
  unfold BlockMemoryResource.do_deallocate
  cases hr : takeFirst (fun b => decide (b.ptr = p)) mr.allocated_blocks with
  | none => rfl
  | some xr =>
    obtain ⟨b, rest⟩ := xr
    obtain ⟨hb, l1, l2, e1, _, _⟩ := takeFirst_eq_some hr
    exfalso
    apply h
    have hbp : b.ptr = p := by simpa using hb
    simp [BlockMemoryResource.inUse, e1, ← hbp]

/-! ## Ownership under allocate and deallocate -/

theorem World.owns_live {T : Type} {w : World T} (hs : w.Sound) {mr : MemoryResourceRef}
    {a : Addr} (h : w.owns mr a) : a ∈ w.live := by
  cases mr with
  | newDelete => exact h.1
  | block id =>
    exact hs.tracked_live id a (List.mem_append_left _ h)

theorem World.owns_unique {T : Type} {w : World T} (hs : w.Sound) {m1 m2 : MemoryResourceRef}
    {a : Addr} (h1 : w.owns m1 a) (h2 : w.owns m2 a) : m1 = m2 := by
  cases m1 with
  | newDelete =>
    cases m2 with
    | newDelete => rfl
    | block j => exact absurd (List.mem_append_left _ h2) (h1.2 j)
  | block i =>
    cases m2 with
    | newDelete => exact absurd (List.mem_append_left _ h1) (h2.2 i)
    | block j =>
      by_cases hij : i = j
      · rw [hij]
      · exact absurd (List.mem_append_left _ h2)
          (hs.tracked_apart i j hij a (List.mem_append_left _ h1))

theorem tracked_perm_of_reuse {mr mr1 : BlockMemoryResource} {p : Addr}
    (h1 : mr1.inUse = mr.inUse ++ [p]) (h2 : (p :: mr1.freed).Perm mr.freed) :
    mr1.tracked.Perm mr.tracked := by
  unfold BlockMemoryResource.tracked
  rw [h1, List.append_assoc]
  exact List.Perm.append_left _ h2

theorem tracked_perm_of_fresh {mr mr1 : BlockMemoryResource} {p : Addr}
    (h1 : mr1.inUse = mr.inUse ++ [p]) (h2 : mr1.freed = mr.freed) :
    mr1.tracked.Perm (p :: mr.tracked) := by
  unfold BlockMemoryResource.tracked
  rw [h1, h2, List.append_assoc]
  exact List.perm_middle

theorem tracked_perm_of_release {mr mr1 : BlockMemoryResource} {p : Addr}
    (h1 : (p :: mr1.inUse).Perm mr.inUse) (h2 : mr1.freed = mr.freed ++ [p]) :
    mr1.tracked.Perm mr.tracked := by
  unfold BlockMemoryResource.tracked
  rw [h2, ← List.append_assoc]
  exact (List.perm_append_singleton p _).trans (List.Perm.append_right mr.freed h1)

/-- What `allocate` guarantees when the system allocator answers with a fresh address. -/
theorem World.allocate_spec {T : Type} (w : World T) (hs : w.Sound) (mr : MemoryResourceRef)
    (bytes : Nat) (answer : Addr) (hf : w.freshAnswer answer) :
    (w.allocate mr bytes answer).2.Sound ∧
    (w.allocate mr bytes answer).2.nodes = w.nodes ∧
    (∀ m, ¬ w.owns m (w.allocate mr bytes answer).1) ∧
    (∀ m a, (w.allocate mr bytes answer).2.owns m a ↔
      (w.owns m a ∨ (m = mr ∧ a = (w.allocate mr bytes answer).1))) ∧
    (∀ a ∈ (w.allocate mr bytes answer).2.live, a ∈ w.live ∨ a = answer) ∧
    (w.allocate mr bytes answer).2.calls = w.calls ++ [Call.allocate mr bytes] := by
  obtain ⟨hpos, hlt, hnl⟩ := hf
  have hnt : ∀ id, answer ∉ (w.resources id).tracked := fun id h =>
    hnl (hs.tracked_live id answer h)
  cases mr with
  | newDelete =>
    simp only [World.allocate, operator_new]
    refine ⟨?_, trivial, ?_, ?_, ?_, trivial⟩
    · constructor
      · exact List.nodup_cons.mpr ⟨hnl, hs.live_nodup⟩
      · intro a ha
        rcases List.mem_cons.mp ha with rfl | ha
        · exact ⟨hpos, hlt⟩
        · exact hs.live_range a ha
      · exact hs.tracked_nodup
      · intro id a ha
        exact List.mem_cons_of_mem _ (hs.tracked_live id a ha)
      · exact hs.tracked_apart
    · intro m hm
      exact hnl (World.owns_live hs hm)
    · intro m a
      cases m with
      | newDelete =>
        simp only [World.owns, List.mem_cons, true_and]
        constructor
        · rintro ⟨rfl | ha, hall⟩
          · exact Or.inr rfl
          · exact Or.inl ⟨ha, hall⟩
        · rintro (⟨ha, hall⟩ | rfl)
          · exact ⟨Or.inr ha, hall⟩
          · exact ⟨Or.inl rfl, hnt⟩
      | block j =>
        simp [World.owns]
    · intro a ha
      rcases List.mem_cons.mp ha with rfl | ha
      · exact Or.inr rfl
      · exact Or.inl ha
  | block id =>
    simp only [World.allocate]
    have hc := do_allocate_cases (w.resources id) w.live bytes answer
    generalize (w.resources id).do_allocate w.live bytes answer = r at hc
    obtain ⟨p, mr1, live1⟩ := r
    simp only at hc ⊢
    have hres : ∀ j, j ≠ id → Function.update w.resources id mr1 j = w.resources j :=
      fun j hj => Function.update_noteq hj _ _
    have hsame : Function.update w.resources id mr1 id = mr1 := Function.update_same _ _ _
    rcases hc with ⟨hpf, hin, hperm, rfl⟩ | ⟨rfl, hin, hfr, rfl⟩
    · -- a free block is reused
      have htp := tracked_perm_of_reuse hin hperm
      have hmem : ∀ j a, a ∈ (Function.update w.resources id mr1 j).tracked ↔
          a ∈ (w.resources j).tracked := by
        intro j a
        by_cases hj : j = id
        · rw [hj, hsame]; exact htp.mem_iff
        · rw [hres j hj]
      have hpt : p ∈ (w.resources id).tracked := List.mem_append_right _ hpf
      have hpin : p ∉ (w.resources id).inUse := by
        intro h
        have := hs.tracked_nodup id
        unfold BlockMemoryResource.tracked at this
        exact (List.disjoint_of_nodup_append this) h hpf
      refine ⟨?_, trivial, ?_, ?_, ?_, trivial⟩
      · constructor <;> dsimp only
        · exact hs.live_nodup
        · exact hs.live_range
        · intro j
          by_cases hj : j = id
          · rw [hj, hsame]; exact htp.nodup_iff.mpr (hs.tracked_nodup _)
          · rw [hres j hj]; exact hs.tracked_nodup j
        · intro j a ha
          exact hs.tracked_live j a ((hmem j a).mp ha)
        · intro i j hij a ha hb
          exact hs.tracked_apart i j hij a ((hmem i a).mp ha) ((hmem j a).mp hb)
      · intro m hm
        cases m with
        | newDelete => exact hm.2 id hpt
        | block j =>
          by_cases hj : j = id
          · rw [hj] at hm; exact hpin hm
          · exact hs.tracked_apart id j (Ne.symm hj) p hpt (List.mem_append_left _ hm)
      · intro m a
        cases m with
        | newDelete =>
          simp only [World.owns, hmem]
          simp
        | block j =>
          simp only [World.owns]
          by_cases hj : j = id
          · rw [hj, hsame, hin]
            simp
          · rw [hres j hj]
            constructor
            · intro h; exact Or.inl h
            · rintro (h | ⟨h, _⟩)
              · exact h
              · exact absurd (MemoryResourceRef.block.inj h) hj
      · intro a ha
        exact Or.inl ha
    · -- a new block is obtained from the system
      have htp := tracked_perm_of_fresh hin hfr
      have hmem : ∀ j a, a ∈ (Function.update w.resources id mr1 j).tracked ↔
          (a ∈ (w.resources j).tracked ∨ (j = id ∧ a = p)) := by
        intro j a
        by_cases hj : j = id
        · rw [hj, hsame, htp.mem_iff, List.mem_cons]
          constructor
          · rintro (h | h)
            · exact Or.inr ⟨rfl, h⟩
            · exact Or.inl h
          · rintro (h | ⟨_, h⟩)
            · exact Or.inr h
            · exact Or.inl h
        · rw [hres j hj]
          constructor
          · intro h; exact Or.inl h
          · rintro (h | ⟨h, _⟩)
            · exact h
            · exact absurd h hj
      refine ⟨?_, trivial, ?_, ?_, ?_, trivial⟩
      · constructor <;> dsimp only
        · exact List.nodup_cons.mpr ⟨hnl, hs.live_nodup⟩
        · intro a ha
          rcases List.mem_cons.mp ha with rfl | ha
          · exact ⟨hpos, hlt⟩
          · exact hs.live_range a ha
        · intro j
          by_cases hj : j = id
          · rw [hj, hsame]
            exact htp.nodup_iff.mpr (List.nodup_cons.mpr ⟨hnt _, hs.tracked_nodup _⟩)
          · rw [hres j hj]; exact hs.tracked_nodup j
        · intro j a ha
          rcases (hmem j a).mp ha with h | ⟨_, rfl⟩
          · exact List.mem_cons_of_mem _ (hs.tracked_live j a h)
          · exact List.mem_cons_self _ _
        · intro i j hij a ha hb
          rcases (hmem i a).mp ha with h | ⟨rfl, rfl⟩
          · rcases (hmem j a).mp hb with h2 | ⟨rfl, rfl⟩
            · exact hs.tracked_apart i j hij a h h2
            · exact hnt i h
          · rcases (hmem j a).mp hb with h2 | ⟨h3, _⟩
            · exact hnt j h2
            · exact hij h3.symm
      · intro m hm
        exact hnl (World.owns_live hs hm)
      · intro m a
        cases m with
        | newDelete =>
          simp only [World.owns, hmem, List.mem_cons]
          constructor
          · rintro ⟨ha, hall⟩
            rcases ha with rfl | ha
            · exact absurd (Or.inr ⟨rfl, rfl⟩) (hall id)
            · exact Or.inl ⟨ha, fun j h => hall j (Or.inl h)⟩
          · rintro (⟨ha, hall⟩ | ⟨h, _⟩)
            · refine ⟨Or.inr ha, fun j h => ?_⟩
              rcases h with h | ⟨_, rfl⟩
              · exact hall j h
              · exact hnl ha
            · cases h
        | block j =>
          simp only [World.owns]
          by_cases hj : j = id
          · rw [hj, hsame, hin]
            simp
          · rw [hres j hj]
            constructor
            · intro h; exact Or.inl h
            · rintro (h | ⟨h, _⟩)
              · exact h
              · exact absurd (MemoryResourceRef.block.inj h) hj
      · intro a ha
        rcases List.mem_cons.mp ha with rfl | ha
        · exact Or.inr rfl
        · exact Or.inl ha

/-- What `deallocate` guarantees for an address the resource has handed out. -/
theorem World.deallocate_spec {T : Type} (w : World T) (hs : w.Sound) (mr : MemoryResourceRef)
    (p : Addr) (bytes : Nat) (ho : w.owns mr p) :
    (w.deallocate mr p bytes).1 = none ∧
    (w.deallocate mr p bytes).2.Sound ∧
    (w.deallocate mr p bytes).2.nodes = w.nodes ∧
    (∀ m a, (w.deallocate mr p bytes).2.owns m a ↔ (w.owns m a ∧ a ≠ p)) ∧
    (∀ a ∈ (w.deallocate mr p bytes).2.live, a ∈ w.live) ∧
    (w.deallocate mr p bytes).2.calls = w.calls ++ [Call.deallocate mr p bytes] := by
  cases mr with
  | newDelete =>
    obtain ⟨hpl, hpt⟩ := ho
    simp only [World.deallocate, operator_delete]
    have hme : ∀ a, a ∈ w.live.erase p ↔ a ≠ p ∧ a ∈ w.live := fun a =>
      hs.live_nodup.mem_erase_iff
    refine ⟨trivial, ?_, trivial, ?_, ?_, trivial⟩
    · constructor <;> dsimp only
      · exact hs.live_nodup.erase p
      · intro a ha
        exact hs.live_range a ((hme a).mp ha).2
      · exact hs.tracked_nodup
      · intro id a ha
        refine (hme a).mpr ⟨?_, hs.tracked_live id a ha⟩
        intro h
        exact hpt id (h ▸ ha)
      · exact hs.tracked_apart
    · intro m a
      cases m with
      | newDelete =>
        simp only [World.owns, hme]
        constructor
        · rintro ⟨⟨h1, h2⟩, h3⟩
          exact ⟨⟨h2, h3⟩, h1⟩
        · rintro ⟨⟨h2, h3⟩, h1⟩
          exact ⟨⟨h1, h2⟩, h3⟩
      | block j =>
        simp only [World.owns]
        constructor
        · intro h
          refine ⟨h, ?_⟩
          intro e
          exact hpt j (List.mem_append_left _ (e ▸ h))
        · exact fun h => h.1
    · intro a ha
      exact ((hme a).mp ha).2
  | block id =>
    have ho' : p ∈ (w.resources id).inUse := ho
    obtain ⟨mr1, hd, hperm, hfr⟩ := do_deallocate_ok (w.resources id) p bytes ho'
    simp only [World.deallocate, hd]
    have hres : ∀ j, j ≠ id → Function.update w.resources id mr1 j = w.resources j :=
      fun j hj => Function.update_noteq hj _ _
    have hsame : Function.update w.resources id mr1 id = mr1 := Function.update_same _ _ _
    have htp := tracked_perm_of_release hperm hfr
    have hmem : ∀ j a, a ∈ (Function.update w.resources id mr1 j).tracked ↔
        a ∈ (w.resources j).tracked := by
      intro j a
      by_cases hj : j = id
      · rw [hj, hsame]; exact htp.mem_iff
      · rw [hres j hj]
    have hnd : (w.resources id).inUse.Nodup := by
      have := hs.tracked_nodup id
      unfold BlockMemoryResource.tracked at this
      exact (List.nodup_append.mp this).1
    have hnd1 : (p :: mr1.inUse).Nodup := hperm.nodup_iff.mpr hnd
    have hp1 : p ∉ mr1.inUse := (List.nodup_cons.mp hnd1).1
    have hin : ∀ a, a ∈ mr1.inUse ↔ (a ∈ (w.resources id).inUse ∧ a ≠ p) := by
      intro a
      rw [← hperm.mem_iff, List.mem_cons]
      constructor
      · intro h
        refine ⟨Or.inr h, ?_⟩
        intro e
        exact hp1 (e ▸ h)
      · rintro ⟨h | h, hne⟩
        · exact absurd h hne
        · exact h
    have hpt : p ∈ (w.resources id).tracked := List.mem_append_left _ ho'
    refine ⟨trivial, ?_, trivial, ?_, ?_, trivial⟩
    · constructor <;> dsimp only
      · exact hs.live_nodup
      · exact hs.live_range
      · intro j
        by_cases hj : j = id
        · rw [hj, hsame]; exact htp.nodup_iff.mpr (hs.tracked_nodup _)
        · rw [hres j hj]; exact hs.tracked_nodup j
      · intro j a ha
        exact hs.tracked_live j a ((hmem j a).mp ha)
      · intro i j hij a ha hb
        exact hs.tracked_apart i j hij a ((hmem i a).mp ha) ((hmem j a).mp hb)
    · intro m a
      cases m with
      | newDelete =>
        simp only [World.owns, hmem]
        constructor
        · intro h
          refine ⟨h, ?_⟩
          intro e
          exact h.2 id (e ▸ hpt)
        · exact fun h => h.1
      | block j =>
        simp only [World.owns]
        by_cases hj : j = id
        · rw [hj, hsame]
          exact hin a
        · rw [hres j hj]
          constructor
          · intro h
            refine ⟨h, ?_⟩
            intro e
            exact hs.tracked_apart id j (Ne.symm hj) p hpt (List.mem_append_left _ (e ▸ h))
          · exact fun h => h.1
    · intro a ha
      exact ha

/-! ## Chains of nodes -/

theorem length_le_of_nodup_range {l : List Nat} {N : Nat} (hnd : l.Nodup)
    (hr : ∀ a ∈ l, 0 < a ∧ a < N) : l.length ≤ N - 1 := by
  have hsub : l.toFinset ⊆ Finset.Ioo 0 N := by
    intro a ha
    have := hr a (List.mem_toFinset.mp ha)
    exact Finset.mem_Ioo.mpr this
  have hcard := Finset.card_le_card hsub
  rw [List.toFinset_card_of_nodup hnd, Nat.card_Ioo] at hcard
  omega

theorem SIZE_MOD_pos : 0 < SIZE_MOD := by
  unfold SIZE_MOD
  positivity

theorem Linked.congr {T : Type} {nodes nodes1 : Addr → Option (QueueNode T)}
    {p : Option Addr} {cells : List (Addr × T)}
    (h : Linked nodes p cells) (hag : ∀ a ∈ cells.map Prod.fst, nodes1 a = nodes a) :
    Linked nodes1 p cells := by
  induction cells generalizing p with
  | nil => exact h
  | cons c cs ih =>
    obtain ⟨hp, n, hn, hd, hl⟩ := h
    refine ⟨hp, n, ?_, hd, ?_⟩
    · rw [hag c.1 (by simp)]; exact hn
    · exact ih hl (fun a ha => hag a (by simp only [List.map_cons, List.mem_cons]; exact Or.inr ha))

theorem Linked.node_at {T : Type} {nodes : Addr → Option (QueueNode T)}
    {p : Option Addr} {cells : List (Addr × T)}
    (h : Linked nodes p cells) {a : Addr} (ha : a ∈ cells.map Prod.fst) :
    ∃ n, nodes a = some n := by
  induction cells generalizing p with
  | nil => simp at ha
  | cons c cs ih =>
    obtain ⟨_, n, hn, _, hl⟩ := h
    simp only [List.map_cons, List.mem_cons] at ha
    rcases ha with rfl | ha
    · exact ⟨n, hn⟩
    · exact ih hl ha

theorem Linked.unique {T : Type} {nodes : Addr → Option (QueueNode T)}
    {p : Option Addr} {c1 c2 : List (Addr × T)}
    (h1 : Linked nodes p c1) (h2 : Linked nodes p c2) : c1 = c2 := by
  induction c1 generalizing p c2 with
  | nil =>
    cases c2 with
    | nil => rfl
    | cons d ds =>
      have e1 : p = none := h1
      have e2 : p = some d.1 := h2.1
      rw [e1] at e2
      cases e2
  | cons c cs ih =>
    cases c2 with
    | nil =>
      have e1 : p = some c.1 := h1.1
      have e2 : p = none := h2
      rw [e1] at e2
      cases e2
    | cons d ds =>
      obtain ⟨hp, n, hn, hd, hl⟩ := h1
      obtain ⟨hp2, n2, hn2, hd2, hl2⟩ := h2
      have hcd : c.1 = d.1 := by
        rw [hp] at hp2
        exact Option.some.inj hp2
      rw [← hcd, hn] at hn2
      have hnn : n = n2 := Option.some.inj hn2
      subst hnn
      have hdata : c.2 = d.2 := by rw [← hd, hd2]
      have hcs := ih hl hl2
      rw [hcs]
      congr 1
      exact Prod.ext hcd hdata

/-- Linking a new last node: the old last node gets its `next` set, the new node is
constructed with a null `next`, and nothing else changes. -/
theorem Linked.snoc {T : Type} {nodes nodes1 : Addr → Option (QueueNode T)}
    {p : Option Addr} {c : Addr × T} {cs : List (Addr × T)} {pn : Addr} {v : T}
    (h : Linked nodes p (c :: cs))
    (hnd : ((c :: cs).map Prod.fst).Nodup)
    (hpn : pn ∉ (c :: cs).map Prod.fst)
    (hnew : nodes1 pn = some { data := v, next := none })
    (hlast : ∀ t, ((c :: cs).map Prod.fst).getLast? = some t →
      ∃ n, nodes t = some n ∧ nodes1 t = some { n with next := some pn })
    (hrest : ∀ a, a ≠ pn → ((c :: cs).map Prod.fst).getLast? ≠ some a → nodes1 a = nodes a) :
    Linked nodes1 p (c :: cs ++ [(pn, v)]) := by
  induction cs generalizing p c with
  | nil =>
    obtain ⟨hp, n, hn, hd, hl⟩ := h
    have hnx : n.next = none := hl
    obtain ⟨n1, hn1, hn1'⟩ := hlast c.1 (by simp)
    rw [hn] at hn1
    have : n = n1 := Option.some.inj hn1
    subst this
    refine ⟨hp, _, hn1', hd, ?_⟩
    exact ⟨rfl, _, hnew, rfl, rfl⟩
  | cons d ds ih =>
    obtain ⟨hp, n, hn, hd, hl⟩ := h
    have hnd' : ((d :: ds).map Prod.fst).Nodup := by
      simp only [List.map_cons, List.nodup_cons] at hnd ⊢
      exact hnd.2
    have hc_notin : c.1 ∉ (d :: ds).map Prod.fst := by
      simp only [List.map_cons, List.nodup_cons] at hnd
      simpa using hnd.1
    have hlast_eq : ((c :: d :: ds).map Prod.fst).getLast? = ((d :: ds).map Prod.fst).getLast? := by
      simp [List.getLast?_cons_cons]
    have hc_ne_pn : c.1 ≠ pn := by
      intro e
      apply hpn
      simp [e]
    have hc_not_last : ((c :: d :: ds).map Prod.fst).getLast? ≠ some c.1 := by
      rw [hlast_eq]
      intro e
      exact hc_notin (List.mem_of_getLast?_eq_some e)
    refine ⟨hp, n, ?_, hd, ?_⟩
    · rw [hrest c.1 hc_ne_pn hc_not_last]; exact hn
    · apply ih hl hnd'
      · intro hmem
        apply hpn
        simp only [List.map_cons, List.mem_cons] at hmem ⊢
        exact Or.inr hmem
      · intro t ht
        exact hlast t (hlast_eq ▸ ht)
      · intro a ha hne
        exact hrest a ha (hlast_eq ▸ hne)

/-! ## push -/

theorem World.Sound.of_same {T : Type} {w w1 : World T} (hs : w.Sound)
    (h1 : w1.resources = w.resources) (h2 : w1.live = w.live) : w1.Sound := by
  constructor
  · rw [h2]; exact hs.live_nodup
  · rw [h2]; exact hs.live_range
  · rw [h1]; exact hs.tracked_nodup
  · rw [h1, h2]; exact hs.tracked_live
  · rw [h1]; exact hs.tracked_apart

theorem World.owns_of_same {T : Type} {w w1 : World T}
    (h1 : w1.resources = w.resources) (h2 : w1.live = w.live) (m : MemoryResourceRef)
    (a : Addr) : w1.owns m a ↔ w.owns m a := by
  cases m with
  | newDelete => simp only [World.owns, h1, h2]
  | block id => simp only [World.owns, h1]

theorem Queue.push_eq_of_empty {T : Type} [NodeLayout T] (w : World T) (q : Queue) (v : T)
    (answer : Addr) {p : Addr} {w1 : World T}
    (ha : w.allocate q.allocator (NodeLayout.nodeBytes T) answer = (p, w1))
    (ht : q.tail = none) :
    q.push w (some v) answer =
      { error := none,
        world := { w1 with nodes := Function.update w1.nodes p (some { data := v, next := none }) },
        queue := { q with head := some p, tail := some p, size_ := (q.size_ + 1) % SIZE_MOD } } := by
  simp [Queue.push, World.setNext, ht, ha]

theorem Queue.push_eq_of_tail {T : Type} [NodeLayout T] (w : World T) (q : Queue) (v : T)
    (answer : Addr) {p : Addr} {w1 : World T} {t : Addr} {n : QueueNode T}
    (ha : w.allocate q.allocator (NodeLayout.nodeBytes T) answer = (p, w1))
    (ht : q.tail = some t) (hne : t ≠ p) (hn : w1.nodes t = some n) :
    q.push w (some v) answer =
      { error := none,
        world :=
          { w1 with
            nodes := Function.update
              (Function.update w1.nodes p (some { data := v, next := none }))
              t (some { n with next := some p }) },
        queue := { q with tail := some p, size_ := (q.size_ + 1) % SIZE_MOD } } := by
  simp [Queue.push, World.setNext, ht, ha, Function.update_noteq hne, hn]

theorem size_succ_mod {l : List Addr} (hnd : l.Nodup) (hr : ∀ a ∈ l, 0 < a ∧ a < SIZE_MOD)
    {n : Nat} (hn : n + 1 = l.length) : (n + 1) % SIZE_MOD = n + 1 := by
  have h := length_le_of_nodup_range hnd hr
  have hp := SIZE_MOD_pos
  apply Nat.mod_eq_of_lt
  omega

/-- A push whose element constructor returns: the queue gains one cell at its end, in a node
that no resource had handed out, and nothing else in memory is affected. -/
theorem Queue.push_spec {T : Type} [NodeLayout T] {w : World T} {q : Queue}
    {cells : List (Addr × T)} (hs : w.Sound) (hr : q.Repr w cells) (v : T) (answer : Addr)
    (hf : w.freshAnswer answer) :
    ∃ p, (q.push w (some v) answer).error = none ∧
      (q.push w (some v) answer).queue.Repr (q.push w (some v) answer).world
        (cells ++ [(p, v)]) ∧
      Effect w (cells.map Prod.fst) (q.push w (some v) answer).world (cells ++ [(p, v)]) ∧
      (q.push w (some v) answer).queue.allocator = q.allocator ∧
      (∀ m, ¬ w.owns m p) ∧
      (∀ a ∈ (q.push w (some v) answer).world.live, a ∈ w.live ∨ a = answer) ∧
      (q.push w (some v) answer).world.calls =
        w.calls ++ [Call.allocate q.allocator (NodeLayout.nodeBytes T)] := by
  have hal := w.allocate_spec hs q.allocator (NodeLayout.nodeBytes T) answer hf
  cases ha : w.allocate q.allocator (NodeLayout.nodeBytes T) answer with
  | mk p w1 =>
  rw [ha] at hal
  obtain ⟨hs1, hnodes, hun, howns, hlive, hcalls⟩ := hal
  simp only at hs1 hnodes hun howns hlive hcalls
  refine ⟨p, ?_⟩
  have hp_notin : p ∉ cells.map Prod.fst := fun h => hun _ (hr.owned p h)
  have hnd1 : ((cells ++ [(p, v)]).map Prod.fst).Nodup := by
    rw [List.map_append, List.map_cons, List.map_nil]
    refine List.Nodup.append hr.nodup (List.nodup_singleton p) ?_
    intro a ha1 ha2
    have hap : a = p := List.mem_singleton.mp ha2
    exact hp_notin (hap ▸ ha1)
  have hown1 : ∀ a ∈ (cells ++ [(p, v)]).map Prod.fst, w1.owns q.allocator a := by
    intro a ha1
    rw [List.map_append, List.mem_append] at ha1
    rcases ha1 with h | h
    · exact (howns _ _).mpr (Or.inl (hr.owned a h))
    · simp only [List.map_cons, List.map_nil, List.mem_singleton] at h
      exact (howns _ _).mpr (Or.inr ⟨rfl, h⟩)
  have hrange : ∀ a ∈ (cells ++ [(p, v)]).map Prod.fst, 0 < a ∧ a < SIZE_MOD :=
    fun a ha1 => hs1.live_range a (World.owns_live hs1 (hown1 a ha1))
  have hsize : (q.size_ + 1) % SIZE_MOD = (cells ++ [(p, v)]).length := by
    rw [size_succ_mod hnd1 hrange (by simp [hr.size_eq]), hr.size_eq]
    simp
  have hnew : NewFrom w (cells.map Prod.fst) (cells ++ [(p, v)]) := by
    intro a ha1
    rw [List.map_append, List.mem_append] at ha1
    rcases ha1 with h | h
    · exact Or.inl h
    · simp only [List.map_cons, List.map_nil, List.mem_singleton] at h
      exact Or.inr (h ▸ hun)
  cases cells with
  | nil =>
    have ht : q.tail = none := by simpa using hr.tail_eq
    rw [Queue.push_eq_of_empty w q v answer ha ht]
    refine ⟨rfl, ?_, ?_, rfl, hun, hlive, hcalls⟩
    · constructor
      · exact ⟨rfl, _, Function.update_same _ _ _, rfl, rfl⟩
      · simp
      · exact hsize
      · exact hnd1
      · intro a ha1
        exact (World.owns_of_same rfl rfl _ _).mpr (hown1 a ha1)
    · refine ⟨hs1.of_same rfl rfl, ?_, hnew⟩
      intro a _ m hm
      have hap : a ≠ p := fun e => hun m (e ▸ hm)
      refine ⟨?_, (World.owns_of_same rfl rfl _ _).mpr ((howns _ _).mpr (Or.inl hm))⟩
      show Function.update w1.nodes p _ a = w.nodes a
      rw [Function.update_noteq hap, hnodes]
  | cons c cs =>
    have hne : (c :: cs).map Prod.fst ≠ [] := by simp
    obtain ⟨t, htl⟩ : ∃ t, ((c :: cs).map Prod.fst).getLast? = some t :=
      ⟨_, List.getLast?_eq_getLast _ hne⟩
    have ht : q.tail = some t := hr.tail_eq.trans htl
    have htmem : t ∈ (c :: cs).map Prod.fst := List.mem_of_getLast?_eq_some htl
    have htp : t ≠ p := fun e => hp_notin (e ▸ htmem)
    obtain ⟨n, hn⟩ := hr.linked.node_at htmem
    have hn1 : w1.nodes t = some n := by rw [hnodes]; exact hn
    rw [Queue.push_eq_of_tail w q v answer ha ht htp hn1]
    refine ⟨rfl, ?_, ?_, rfl, hun, hlive, hcalls⟩
    · constructor
      · show Linked _ q.head (c :: cs ++ [(p, v)])
        apply Linked.snoc hr.linked hr.nodup hp_notin
        · dsimp only
          rw [Function.update_noteq (Ne.symm htp), Function.update_same]
        · intro t1 ht1
          rw [htl] at ht1
          have : t = t1 := Option.some.inj ht1
          subst this
          exact ⟨n, hn, Function.update_same _ _ _⟩
        · intro a hap hnl
          have hat : a ≠ t := fun e => hnl (e ▸ htl)
          dsimp only
          rw [Function.update_noteq hat, Function.update_noteq hap, hnodes]
      · show some p = ((c :: cs ++ [(p, v)]).map Prod.fst).getLast?
        rw [List.map_append]
        exact (List.getLast?_concat _).symm
      · exact hsize
      · exact hnd1
      · intro a ha1
        exact (World.owns_of_same rfl rfl _ _).mpr (hown1 a ha1)
    · refine ⟨hs1.of_same rfl rfl, ?_, hnew⟩
      intro a hamine m hm
      have hap : a ≠ p := fun e => hun m (e ▸ hm)
      have hat : a ≠ t := fun e => hamine (e ▸ htmem)
      refine ⟨?_, (World.owns_of_same rfl rfl _ _).mpr ((howns _ _).mpr (Or.inl hm))⟩
      dsimp only
      rw [Function.update_noteq hat, Function.update_noteq hap, hnodes]

/-- A push whose element constructor throws: the exception propagates, the queue object and
its cells are as before, and the storage acquired is given back. -/
theorem Queue.push_fail_spec {T : Type} [NodeLayout T] {w : World T} {q : Queue}
    {cells : List (Addr × T)} (hs : w.Sound) (hr : q.Repr w cells) (answer : Addr)
    (hf : w.freshAnswer answer) :
    (q.push w none answer).error = some Error.ConstructFailure ∧
      (q.push w none answer).queue = q ∧
      (q.push w none answer).world.nodes = w.nodes ∧
      (∀ m a, (q.push w none answer).world.owns m a ↔ w.owns m a) ∧
      (q.push w none answer).queue.Repr (q.push w none answer).world cells ∧
      Effect w (cells.map Prod.fst) (q.push w none answer).world cells := by
  have hal := w.allocate_spec hs q.allocator (NodeLayout.nodeBytes T) answer hf
  cases ha : w.allocate q.allocator (NodeLayout.nodeBytes T) answer with
  | mk p w1 =>
  rw [ha] at hal
  obtain ⟨hs1, hnodes, hun, howns, hlive, hcalls⟩ := hal
  simp only at hs1 hnodes hun howns hlive hcalls
  have hop : w1.owns q.allocator p := (howns _ _).mpr (Or.inr ⟨rfl, rfl⟩)
  have hde := w1.deallocate_spec hs1 q.allocator p (NodeLayout.nodeBytes T) hop
  cases hd : w1.deallocate q.allocator p (NodeLayout.nodeBytes T) with
  | mk e w2 =>
  rw [hd] at hde
  obtain ⟨he, hs2, hnodes2, howns2, _, _⟩ := hde
  simp only at he hs2 hnodes2 howns2
  subst he
  have hpush : q.push w none answer =
      { error := some Error.ConstructFailure, world := w2, queue := q } := by
    simp [Queue.push, ha, hd]
  rw [hpush]
  have hown : ∀ m a, w2.owns m a ↔ w.owns m a := by
    intro m a
    rw [howns2, howns]
    constructor
    · rintro ⟨h | ⟨_, h⟩, hne⟩
      · exact h
      · exact absurd h hne
    · intro h
      exact ⟨Or.inl h, fun e => hun m (e ▸ h)⟩
  have hn : w2.nodes = w.nodes := hnodes2.trans hnodes
  refine ⟨rfl, rfl, hn, hown, ?_, ?_⟩
  · exact ⟨hr.linked.congr (fun a _ => by rw [hn]), hr.tail_eq, hr.size_eq, hr.nodup,
      fun a ha1 => (hown _ _).mpr (hr.owned a ha1)⟩
  · refine ⟨hs2, ?_, fun a ha1 => Or.inl ha1⟩
    intro a _ m hm
    exact ⟨by rw [hn], (hown _ _).mpr hm⟩

/-! ## pop -/

theorem Queue.pop_of_empty {T : Type} [NodeLayout T] (w : World T) (q : Queue)
    (h : q.head = none) :
    q.pop w = { error := some Error.EmptyQueue, world := w, queue := q } := by
  simp [Queue.pop, h]

theorem size_pred_mod {l : List Addr} (hnd : l.Nodup) (hr : ∀ a ∈ l, 0 < a ∧ a < SIZE_MOD)
    {n : Nat} (hn : n + 1 = l.length) : (n + 1 + SIZE_MOD - 1) % SIZE_MOD = n := by
  have h := length_le_of_nodup_range hnd hr
  have hp := SIZE_MOD_pos
  have e : n + 1 + SIZE_MOD - 1 = n + SIZE_MOD := by omega
  rw [e, Nat.add_mod_right]
  apply Nat.mod_eq_of_lt
  omega

/-- A pop of a queue that holds at least one cell: no exception, the first cell is gone, the
head is the former second node, and nothing else in memory is affected. -/
theorem Queue.pop_spec {T : Type} [NodeLayout T] {w : World T} {q : Queue}
    {c : Addr × T} {cs : List (Addr × T)} (hs : w.Sound) (hr : q.Repr w (c :: cs)) :
    (q.pop w).error = none ∧
      (q.pop w).queue.Repr (q.pop w).world cs ∧
      Effect w ((c :: cs).map Prod.fst) (q.pop w).world cs ∧
      (q.pop w).queue.allocator = q.allocator ∧
      (∃ n, w.nodes c.1 = some n ∧ (q.pop w).queue.head = n.next) ∧
      (q.pop w).queue.size_ + 1 = q.size_ ∧
      (q.pop w).world.live ⊆ w.live ∧
      (q.pop w).world.calls =
        w.calls ++ [Call.deallocate q.allocator c.1 (NodeLayout.nodeBytes T)] := by
  obtain ⟨hh, n, hn, hdata, hl⟩ := hr.linked
  have hoc : w.owns q.allocator c.1 := hr.owned c.1 (by simp)
  have hs0 : ({ w with nodes := Function.update w.nodes c.1 none } : World T).Sound :=
    hs.of_same rfl rfl
  have hde := World.deallocate_spec _ hs0 q.allocator c.1 (NodeLayout.nodeBytes T)
    ((World.owns_of_same rfl rfl _ _).mpr hoc)
  cases hd : ({ w with nodes := Function.update w.nodes c.1 none } : World T).deallocate
      q.allocator c.1 (NodeLayout.nodeBytes T) with
  | mk e w2 =>
  rw [hd] at hde
  obtain ⟨he, hs2, hnodes2, howns2, hlive2, hcalls2⟩ := hde
  simp only at he hs2 hnodes2 howns2 hlive2 hcalls2
  subst he
  have hnd : ((c :: cs).map Prod.fst).Nodup := hr.nodup
  have hc_notin : c.1 ∉ cs.map Prod.fst := by
    simp only [List.map_cons, List.nodup_cons] at hnd
    exact hnd.1
  have hnd' : (cs.map Prod.fst).Nodup := by
    simp only [List.map_cons, List.nodup_cons] at hnd
    exact hnd.2
  have hrange : ∀ a ∈ (c :: cs).map Prod.fst, 0 < a ∧ a < SIZE_MOD :=
    fun a ha1 => hs.live_range a (World.owns_live hs (hr.owned a ha1))
  have hsz : (q.size_ + SIZE_MOD - 1) % SIZE_MOD = cs.length := by
    rw [hr.size_eq]
    exact size_pred_mod hnd hrange (by simp)
  have hown : ∀ m a, w2.owns m a ↔ (w.owns m a ∧ a ≠ c.1) := by
    intro m a
    rw [howns2]
    exact and_congr_left' (World.owns_of_same rfl rfl _ _)
  have hlinked2 : Linked w2.nodes n.next cs := by
    apply hl.congr
    intro a ha1
    rw [hnodes2]
    have : a ≠ c.1 := fun e => hc_notin (e ▸ ha1)
    exact Function.update_noteq this _ _
  have heff : Effect w ((c :: cs).map Prod.fst) w2 cs := by
    refine ⟨hs2, ?_, ?_⟩
    · intro a hamine m hm
      have hac : a ≠ c.1 := fun e => hamine (by simp [e])
      refine ⟨?_, (hown _ _).mpr ⟨hm, hac⟩⟩
      rw [hnodes2]
      exact Function.update_noteq hac _ _
    · intro a ha1
      exact Or.inl (by simp only [List.map_cons, List.mem_cons]; exact Or.inr ha1)
  have howned2 : ∀ a ∈ cs.map Prod.fst, w2.owns q.allocator a := by
    intro a ha1
    refine (hown _ _).mpr ⟨hr.owned a ?_, fun e => hc_notin (e ▸ ha1)⟩
    simp only [List.map_cons, List.mem_cons]
    exact Or.inr ha1
  have hsub : w2.live ⊆ w.live := fun a ha1 => hlive2 a ha1
  cases cs with
  | nil =>
    have hnx : n.next = none := hl
    have hpop : q.pop w =
        { error := none, world := w2,
          queue := { q with head := none, tail := none,
                            size_ := (q.size_ + SIZE_MOD - 1) % SIZE_MOD } } := by
      simp [Queue.pop, hh, hn, hd, hnx]
    rw [hpop]
    refine ⟨rfl, ?_, heff, rfl, ⟨n, hn, hnx.symm⟩, ?_, hsub, hcalls2⟩
    · exact ⟨rfl, rfl, hsz, hnd', howned2⟩
    · show (q.size_ + SIZE_MOD - 1) % SIZE_MOD + 1 = q.size_
      rw [hsz, hr.size_eq]
      rfl
  | cons d ds =>
    have hnx : n.next = some d.1 := hl.1
    have hpop : q.pop w =
        { error := none, world := w2,
          queue := { q with head := some d.1,
                            size_ := (q.size_ + SIZE_MOD - 1) % SIZE_MOD } } := by
      simp [Queue.pop, hh, hn, hd, hnx]
    rw [hpop]
    refine ⟨rfl, ?_, heff, rfl, ⟨n, hn, hnx.symm⟩, ?_, hsub, hcalls2⟩
    · refine ⟨?_, ?_, hsz, hnd', howned2⟩
      · show Linked w2.nodes (some d.1) (d :: ds)
        rw [← hnx]; exact hlinked2
      · show q.tail = _
        rw [hr.tail_eq]
        simp [List.getLast?_cons_cons]
    · show (q.size_ + SIZE_MOD - 1) % SIZE_MOD + 1 = q.size_
      rw [hsz, hr.size_eq]
      rfl

/-! ## Composition of effects, clear -/

theorem Effect.refl {T : Type} {w : World T} (hs : w.Sound) (cells : List (Addr × T)) :
    Effect w (cells.map Prod.fst) w cells :=
  ⟨hs, fun _ _ _ hm => ⟨rfl, hm⟩, fun _ ha => Or.inl ha⟩

theorem Effect.trans {T : Type} {w w1 w2 : World T} {mine : List Addr}
    {c1 c2 : List (Addr × T)} (h1 : Effect w mine w1 c1)
    (h2 : Effect w1 (c1.map Prod.fst) w2 c2) : Effect w mine w2 c2 := by
  refine ⟨h2.sound, ?_, ?_⟩
  · intro a hamine m hm
    obtain ⟨hn1, ho1⟩ := h1.frame a hamine m hm
    have hnot1 : a ∉ c1.map Prod.fst := by
      intro hmem
      rcases h1.newFrom a hmem with h | h
      · exact hamine h
      · exact h m hm
    obtain ⟨hn2, ho2⟩ := h2.frame a hnot1 m ho1
    exact ⟨hn2.trans hn1, ho2⟩
  · intro a ha
    rcases h2.newFrom a ha with h | h
    · exact h1.newFrom a h
    · by_cases hmine : a ∈ mine
      · exact Or.inl hmine
      · right
        intro m hm
        exact h m (h1.frame a hmine m hm).2

theorem Queue.clear_spec {T : Type} [NodeLayout T] {w : World T} {q : Queue}
    {cells : List (Addr × T)} (hs : w.Sound) (hr : q.Repr w cells) (fuel : Nat)
    (hfuel : cells.length ≤ fuel) :
    ∃ r, Queue.clear fuel w q = some r ∧ r.error = none ∧
      r.queue.Repr r.world [] ∧
      Effect w (cells.map Prod.fst) r.world [] ∧
      r.queue.allocator = q.allocator ∧
      r.world.live ⊆ w.live ∧
      r.world.calls = w.calls ++
        cells.map (fun c => Call.deallocate q.allocator c.1 (NodeLayout.nodeBytes T)) := by
  induction cells generalizing w q fuel with
  | nil =>
    have hh : q.head = none := hr.linked
    refine ⟨{ error := none, world := w, queue := q }, ?_, rfl, hr, Effect.refl hs [], rfl,
      fun _ h => h, by simp⟩
    unfold Queue.clear
    simp [Queue.empty, hh]
  | cons c cs ih =>
    have hh : q.head = some c.1 := hr.linked.1
    obtain ⟨he, hr1, heff1, hal1, _, _, hlive1, hcalls1⟩ := Queue.pop_spec hs hr
    cases fuel with
    | zero => simp at hfuel
    | succ fuel =>
      have hfuel' : cs.length ≤ fuel := by simpa using hfuel
      obtain ⟨r, hc, hre, hrr, heff2, hal2, hlive2, hcalls2⟩ :=
        ih heff1.sound hr1 fuel hfuel'
      refine ⟨r, ?_, hre, hrr, ?_, hal2.trans hal1, fun a ha => hlive1 (hlive2 ha), ?_⟩
      · rw [Queue.clear]
        simp only [Queue.empty, hh, Option.isNone_some, Bool.false_eq_true, if_false, he]
        exact hc
      · have h := Effect.trans heff1 heff2
        exact h
      · rw [hcalls2, hcalls1, hal1]
        simp

theorem Queue.clear_fuel_irrelevant {T : Type} [NodeLayout T] (f1 : Nat) :
    ∀ (f2 : Nat) (w : World T) (q : Queue) (r1 r2 : Outcome T),
      Queue.clear f1 w q = some r1 → Queue.clear f2 w q = some r2 → r1 = r2 := by
  induction f1 with
  | zero =>
    intro f2 w q r1 r2 h1 h2
    rw [Queue.clear.eq_def] at h1 h2
    by_cases he : q.empty = true
    · simp only [he, if_true, Option.some.injEq] at h1 h2
      rw [← h1, ← h2]
    · simp [he] at h1
  | succ f1 ih =>
    intro f2 w q r1 r2 h1 h2
    rw [Queue.clear.eq_def] at h1 h2
    by_cases he : q.empty = true
    · simp only [he, if_true, Option.some.injEq] at h1 h2
      rw [← h1, ← h2]
    · simp only [he, Bool.false_eq_true, if_false] at h1 h2
      cases f2 with
      | zero => simp at h2
      | succ f2 =>
        simp only at h1 h2
        cases hpe : (q.pop w).error with
        | some e =>
          simp only [hpe, Option.some.injEq] at h1 h2
          rw [← h1, ← h2]
        | none =>
          simp only [hpe] at h1 h2
          exact ih f2 _ _ r1 r2 h1 h2

/-- Whatever `clear` returns on a represented queue is the emptied queue. -/
theorem Queue.clear_sound {T : Type} [NodeLayout T] {w : World T} {q : Queue}
    {cells : List (Addr × T)} (hs : w.Sound) (hr : q.Repr w cells) (fuel : Nat)
    (r : Outcome T) (h : Queue.clear fuel w q = some r) :
    r.error = none ∧ r.queue.Repr r.world [] ∧ Effect w (cells.map Prod.fst) r.world [] ∧
      r.queue.allocator = q.allocator ∧ r.world.live ⊆ w.live ∧
      r.world.calls = w.calls ++
        cells.map (fun c => Call.deallocate q.allocator c.1 (NodeLayout.nodeBytes T)) := by
  obtain ⟨r1, h1, hp⟩ := Queue.clear_spec hs hr cells.length (le_refl _)
  have e := Queue.clear_fuel_irrelevant fuel cells.length w q r r1 h h1
  rw [e]
  exact hp

/-! ## The copy constructor -/

theorem Queue.Repr.frame {T : Type} {w w1 : World T} {q : Queue} {cells : List (Addr × T)}
    {mine : List Addr} (hr : q.Repr w cells) (hf : Frame w mine w1)
    (hd : ∀ a ∈ cells.map Prod.fst, a ∉ mine) : q.Repr w1 cells := by
  refine ⟨hr.linked.congr ?_, hr.tail_eq, hr.size_eq, hr.nodup, ?_⟩
  · intro a ha
    exact (hf a (hd a ha) _ (hr.owned a ha)).1
  · intro a ha
    exact (hf a (hd a ha) _ (hr.owned a ha)).2

theorem Queue.copyLoop_spec {T : Type} [NodeLayout T] {src : List (Addr × T)} :
    ∀ {w : World T} {q : Queue} {cells : List (Addr × T)} {current : Option Addr}
      (answers : List Addr),
      w.Sound → q.Repr w cells → Linked w.nodes current src →
      (∀ a ∈ src.map Prod.fst, a ∉ cells.map Prod.fst ∧ ∃ m, w.owns m a) →
      answers.Nodup → (∀ a ∈ answers, w.freshAnswer a) →
      (src.length ≤ answers.length → ∃ r, Queue.copyLoop answers w q current = some r) ∧
      ∀ r, Queue.copyLoop answers w q current = some r → ∃ cells1, r.error = none ∧
        r.queue.Repr r.world (cells ++ cells1) ∧
        cells1.map Prod.snd = src.map Prod.snd ∧
        Effect w (cells.map Prod.fst) r.world (cells ++ cells1) ∧
        r.queue.allocator = q.allocator ∧
        (∀ a ∈ cells1.map Prod.fst, ∀ m, ¬ w.owns m a) := by
  induction src with
  | nil =>
    intro w q cells current answers hs hr hsrc _ _ _
    have hc : current = none := hsrc
    subst hc
    have hcl : Queue.copyLoop answers w q none =
        some { error := none, world := w, queue := q } := by
      cases answers <;> simp [Queue.copyLoop]
    refine ⟨fun _ => ⟨_, hcl⟩, ?_⟩
    intro r hr0
    rw [hcl] at hr0
    cases hr0
    refine ⟨[], rfl, ?_, rfl, ?_, rfl, ?_⟩
    · simpa using hr
    · simpa using Effect.refl hs cells
    · simp
  | cons d ds ih =>
    intro w q cells current answers hs hr hsrc hso hnd hfresh
    obtain ⟨hc, n, hn, hdata, hl⟩ := hsrc
    subst hc
    cases answers with
    | nil =>
      refine ⟨fun hlen => by simp at hlen, ?_⟩
      intro r hr0
      simp [Queue.copyLoop] at hr0
    | cons answer rest =>
      have hf : w.freshAnswer answer := hfresh answer (by simp)
      obtain ⟨p, he, hr1, heff1, hal1, hun, hlive1, _⟩ :=
        Queue.push_spec hs hr n.data answer hf
      obtain ⟨hd_notin, m0, hm0⟩ := hso d.1 (by simp)
      have hn1 : (q.push w (some n.data) answer).world.nodes d.1 = some n := by
        rw [(heff1.frame d.1 hd_notin m0 hm0).1]; exact hn
      have hnd' : rest.Nodup := (List.nodup_cons.mp hnd).2
      have hans_notin : answer ∉ rest := (List.nodup_cons.mp hnd).1
      have hfresh' : ∀ a ∈ rest, (q.push w (some n.data) answer).world.freshAnswer a := by
        intro a ha
        obtain ⟨h1, h2, h3⟩ := hfresh a (List.mem_cons_of_mem _ ha)
        refine ⟨h1, h2, ?_⟩
        intro hmem
        rcases hlive1 a hmem with h | h
        · exact h3 h
        · exact hans_notin (h ▸ ha)
      have hl1 : Linked (q.push w (some n.data) answer).world.nodes n.next ds := by
        apply hl.congr
        intro a ha
        obtain ⟨h1, m, hm⟩ := hso a (by simp only [List.map_cons, List.mem_cons]; exact Or.inr ha)
        exact (heff1.frame a h1 m hm).1
      have hso' : ∀ a ∈ ds.map Prod.fst, a ∉ (cells ++ [(p, n.data)]).map Prod.fst ∧
          ∃ m, (q.push w (some n.data) answer).world.owns m a := by
        intro a ha
        obtain ⟨h1, m, hm⟩ := hso a (by simp only [List.map_cons, List.mem_cons]; exact Or.inr ha)
        refine ⟨?_, m, (heff1.frame a h1 m hm).2⟩
        rw [List.map_append, List.mem_append]
        rintro (h | h)
        · exact h1 h
        · have hap : a = p := by simpa using h
          exact hun m (hap ▸ hm)
      have hstep : Queue.copyLoop (answer :: rest) w q (some d.1) =
          Queue.copyLoop rest (q.push w (some n.data) answer).world
            (q.push w (some n.data) answer).queue n.next := by
        rw [Queue.copyLoop]
        simp only [hn, he, hn1]
      obtain ⟨ih1, ih2⟩ := ih rest heff1.sound hr1 hl1 hso' hnd' hfresh'
      rw [hstep]
      refine ⟨fun hlen => ih1 (by simpa using hlen), ?_⟩
      intro r hr0
      obtain ⟨cells1, hre, hrr, hdat, heff2, hal2, hun2⟩ := ih2 r hr0
      refine ⟨(p, n.data) :: cells1, hre, ?_, ?_, ?_, hal2.trans hal1, ?_⟩
      · have e : cells ++ (p, n.data) :: cells1 = cells ++ [(p, n.data)] ++ cells1 := by simp
        rw [e]; exact hrr
      · simp [hdat, hdata]
      · have e : cells ++ (p, n.data) :: cells1 = cells ++ [(p, n.data)] ++ cells1 := by simp
        rw [e]; exact Effect.trans heff1 heff2
      · intro a ha m hm
        simp only [List.map_cons, List.mem_cons] at ha
        rcases ha with rfl | ha
        · exact hun m hm
        · by_cases hmine : a ∈ cells.map Prod.fst
          · have : a ∈ (cells ++ [(p, n.data)]).map Prod.fst := by
              rw [List.map_append]; exact List.mem_append_left _ hmine
            exact hun2 a ha _ (hr1.owned a this)
          · exact hun2 a ha m (heff1.frame a hmine m hm).2

/-- Copy construction of a represented queue, given enough fresh answers of the system
allocator: the new queue holds the same elements in the same order, in nodes that no resource
had handed out, and is bound to the same memory resource; nothing else is affected. -/
theorem Queue.copy_spec {T : Type} [NodeLayout T] {w : World T} {other : Queue}
    {src : List (Addr × T)} (hs : w.Sound) (hr : other.Repr w src) (answers : List Addr)
    (hnd : answers.Nodup) (hfresh : ∀ a ∈ answers, w.freshAnswer a) :
    (src.length ≤ answers.length → ∃ r, Queue.copy answers w other = some r) ∧
    ∀ r, Queue.copy answers w other = some r → ∃ cells1, r.error = none ∧
      r.queue.Repr r.world cells1 ∧
      cells1.map Prod.snd = src.map Prod.snd ∧
      Effect w [] r.world cells1 ∧
      r.queue.allocator = other.allocator ∧
      (∀ a ∈ cells1.map Prod.fst, ∀ m, ¬ w.owns m a) := by
  have hr0 : Queue.Repr w
      { head := none, tail := none, size_ := 0, allocator := other.allocator } [] :=
    ⟨rfl, rfl, rfl, List.nodup_nil, fun a ha => by simp at ha⟩
  have hso : ∀ a ∈ src.map Prod.fst, a ∉ ([] : List (Addr × T)).map Prod.fst ∧
      ∃ m, w.owns m a := fun a ha => ⟨by simp, _, hr.owned a ha⟩
  obtain ⟨h1, h2⟩ := Queue.copyLoop_spec answers hs hr0 hr.linked hso hnd hfresh
  refine ⟨h1, ?_⟩
  intro r hr1
  obtain ⟨cells1, h3, h4, h5, h6, h7, h8⟩ := h2 r hr1
  refine ⟨cells1, h3, ?_, h5, ?_, h7, h8⟩
  · simpa using h4
  · simpa using h6

/-! ## The invariant of reachable program states -/

theorem Queue.Repr.new {T : Type} (w : World T) (mr : MemoryResourceRef) :
    (Queue.new mr).Repr w [] :=
  ⟨rfl, rfl, rfl, List.nodup_nil, fun a ha => by simp at ha⟩

theorem Machine.Inv.update {T : Type} {s : Machine T} {cells : Nat → List (Addr × T)}
    (hi : s.Inv cells) (j : Nat) {w1 : World T} {oq : Option Queue}
    {c1 : List (Addr × T)}
    (heff : Effect s.world ((cells j).map Prod.fst) w1 c1)
    (hq : ∀ q1, oq = some q1 → q1.Repr w1 c1)
    (hnone : oq = none → c1 = []) :
    Machine.Inv { world := w1, queues := Function.update s.queues j oq }
      (Function.update cells j c1) := by
  have howned : ∀ k a, a ∈ (cells k).map Prod.fst → ∃ m, s.world.owns m a := by
    intro k a ha
    cases hk : s.queues k with
    | none =>
      rw [hi.absent k hk] at ha
      simp at ha
    | some qk => exact ⟨_, (hi.repr k qk hk).owned a ha⟩
  have hcross : ∀ k, k ≠ j → ∀ a ∈ c1.map Prod.fst, a ∉ (cells k).map Prod.fst := by
    intro k hk a ha hak
    rcases heff.newFrom a ha with h | h
    · exact hi.apart j k (Ne.symm hk) a h hak
    · obtain ⟨m, hm⟩ := howned k a hak
      exact h m hm
  constructor
  · exact heff.sound
  · intro i q hiq
    dsimp only at hiq ⊢
    by_cases hij : i = j
    · rw [hij, Function.update_same] at hiq
      rw [hij, Function.update_same]
      exact hq q hiq
    · rw [Function.update_noteq hij] at hiq
      rw [Function.update_noteq hij]
      exact (hi.repr i q hiq).frame heff.frame (fun a ha => hi.apart i j hij a ha)
  · intro i hiq
    dsimp only at hiq
    by_cases hij : i = j
    · rw [hij, Function.update_same] at hiq
      rw [hij, Function.update_same]
      exact hnone hiq
    · rw [Function.update_noteq hij] at hiq
      rw [Function.update_noteq hij]
      exact hi.absent i hiq
  · intro i k hik a ha hak
    by_cases hij : i = j
    · have hkj : k ≠ j := fun e => hik (hij.trans e.symm)
      rw [hij, Function.update_same] at ha
      rw [Function.update_noteq hkj] at hak
      exact hcross k hkj a ha hak
    · rw [Function.update_noteq hij] at ha
      by_cases hkj : k = j
      · rw [hkj, Function.update_same] at hak
        exact hcross i hij a hak ha
      · rw [Function.update_noteq hkj] at hak
        exact hi.apart i k hik a ha hak

theorem Machine.Inv.initial (T : Type) : (Machine.initial T).Inv (fun _ => []) := by
  constructor
  · constructor
    · exact List.nodup_nil
    · intro a ha; simp [Machine.initial, World.initial] at ha
    · intro id; simp [Machine.initial, World.initial, BlockMemoryResource.tracked,
        BlockMemoryResource.inUse, BlockMemoryResource.freed, BlockMemoryResource.new]
    · intro id a ha; simp [Machine.initial, World.initial, BlockMemoryResource.tracked,
        BlockMemoryResource.inUse, BlockMemoryResource.freed, BlockMemoryResource.new] at ha
    · intro i j _ a ha; simp [Machine.initial, World.initial, BlockMemoryResource.tracked,
        BlockMemoryResource.inUse, BlockMemoryResource.freed, BlockMemoryResource.new] at ha
  · intro j q h; simp [Machine.initial] at h
  · intro j _; rfl
  · intro i j _ a ha; simp at ha

theorem Machine.settle_eq {T : Type} {s s1 : Machine T} {j : Nat} {r : Outcome T}
    {e : Option Error} (h : s.settle j r = some (s1, e)) :
    s1 = { world := r.world, queues := Function.update s.queues j (some r.queue) } ∧
      e = r.error := by
  unfold Machine.settle at h
  by_cases hc : r.error = some Error.InvalidAccess
  · simp [hc] at h
  · simp only [hc, if_false, Option.some.injEq, Prod.mk.injEq] at h
    exact ⟨h.1.symm, h.2.symm⟩

theorem update_eq_of_not_mem {α : Type} {f : Nat → α} {j : Nat} {x : α} {l : List Nat}
    (hj : j ∈ l) : ∀ i, i ∉ l → Function.update f j x i = f i := by
  intro i hi
  have hij : i ≠ j := fun e => hi (by rw [e]; exact hj)
  exact Function.update_noteq hij _ _

/-- Every statement preserves the invariant, and changes the cells of its targets only. -/
theorem Machine.Inv.step {T : Type} [NodeLayout T] {s s1 : Machine T}
    {cells : Nat → List (Addr × T)} {op : Op T} {e : Option Error}
    (hi : s.Inv cells) (ha : op.admissible s) (hstep : s.step op = some (s1, e)) :
    ∃ cells1, s1.Inv cells1 ∧ ∀ i, i ∉ op.targets → cells1 i = cells i := by
  cases op with
  | construct j mr =>
    simp only [Machine.step] at hstep
    cases hq : s.queues j with
    | some q => simp [hq] at hstep
    | none =>
      simp only [hq, Option.some.injEq, Prod.mk.injEq] at hstep
      obtain ⟨rfl, _⟩ := hstep
      have hc : cells j = [] := hi.absent j hq
      refine ⟨Function.update cells j [], ?_, update_eq_of_not_mem (by simp [Op.targets])⟩
      apply hi.update j
      · rw [hc]; exact Effect.refl hi.sound []
      · intro q1 hq1
        cases hq1
        exact Queue.Repr.new _ _
      · intro h; cases h
  | push j built answer =>
    simp only [Machine.step] at hstep
    cases hq : s.queues j with
    | none => simp [hq] at hstep
    | some q =>
      simp only [hq] at hstep
      obtain ⟨rfl, _⟩ := Machine.settle_eq hstep
      have hr := hi.repr j q hq
      cases built with
      | none =>
        obtain ⟨_, _, _, _, hr1, heff⟩ := Queue.push_fail_spec hi.sound hr answer ha
        refine ⟨Function.update cells j (cells j), ?_,
          update_eq_of_not_mem (by simp [Op.targets])⟩
        exact hi.update j heff (fun q1 h => by cases h; exact hr1) (fun h => by cases h)
      | some v =>
        obtain ⟨p, _, hr1, heff, _⟩ := Queue.push_spec hi.sound hr v answer ha
        refine ⟨Function.update cells j (cells j ++ [(p, v)]), ?_,
          update_eq_of_not_mem (by simp [Op.targets])⟩
        exact hi.update j heff (fun q1 h => by cases h; exact hr1) (fun h => by cases h)
  | pop j =>
    simp only [Machine.step] at hstep
    cases hq : s.queues j with
    | none => simp [hq] at hstep
    | some q =>
      simp only [hq] at hstep
      obtain ⟨rfl, _⟩ := Machine.settle_eq hstep
      have hr := hi.repr j q hq
      cases hc : cells j with
      | nil =>
        rw [hc] at hr
        have hh : q.head = none := hr.linked
        rw [Queue.pop_of_empty _ _ hh]
        refine ⟨Function.update cells j [], ?_,
          update_eq_of_not_mem (by simp [Op.targets])⟩
        apply hi.update j
        · rw [hc]; exact Effect.refl hi.sound []
        · intro q1 h; cases h; exact hr
        · intro h; cases h
      | cons c cs =>
        rw [hc] at hr
        obtain ⟨_, hr1, heff, _⟩ := Queue.pop_spec hi.sound hr
        refine ⟨Function.update cells j cs, ?_,
          update_eq_of_not_mem (by simp [Op.targets])⟩
        apply hi.update j
        · rw [hc]; exact heff
        · intro q1 h; cases h; exact hr1
        · intro h; cases h
  | clear j fuel =>
    simp only [Machine.step] at hstep
    cases hq : s.queues j with
    | none => simp [hq] at hstep
    | some q =>
      simp only [hq] at hstep
      cases hcl : Queue.clear fuel s.world q with
      | none => simp [hcl] at hstep
      | some r =>
        simp only [hcl] at hstep
        obtain ⟨rfl, _⟩ := Machine.settle_eq hstep
        obtain ⟨_, hr1, heff, _⟩ := Queue.clear_sound hi.sound (hi.repr j q hq) fuel r hcl
        refine ⟨Function.update cells j [], ?_,
          update_eq_of_not_mem (by simp [Op.targets])⟩
        exact hi.update j heff (fun q1 h => by cases h; exact hr1) (fun h => by cases h)
  | copy j src answers =>
    simp only [Machine.step] at hstep
    cases hq : s.queues j with
    | some q => simp [hq] at hstep
    | none =>
      cases hsrc : s.queues src with
      | none => simp [hq, hsrc] at hstep
      | some other =>
        simp only [hq, hsrc] at hstep
        cases hcp : Queue.copy answers s.world other with
        | none => simp [hcp] at hstep
        | some r =>
          obtain ⟨_, h2⟩ := Queue.copy_spec hi.sound (hi.repr src other hsrc) answers ha.1 ha.2
          obtain ⟨cells1, hre, hr1, _, heff, _⟩ := h2 r hcp
          simp only [hcp, hre, Option.some.injEq, Prod.mk.injEq] at hstep
          obtain ⟨rfl, _⟩ := hstep
          refine ⟨Function.update cells j cells1, ?_,
            update_eq_of_not_mem (by simp [Op.targets])⟩
          apply hi.update j
          · rw [hi.absent j hq]; exact heff
          · intro q1 h; cases h; exact hr1
          · intro h; cases h
  | move j src =>
    simp only [Machine.step] at hstep
    cases hq : s.queues j with
    | some q => simp [hq] at hstep
    | none =>
      cases hsrc : s.queues src with
      | none => simp [hq, hsrc] at hstep
      | some other =>
        simp only [hq, hsrc, Option.some.injEq, Prod.mk.injEq] at hstep
        obtain ⟨rfl, _⟩ := hstep
        have hjs : j ≠ src := by
          intro h
          rw [h, hsrc] at hq
          cases hq
        have hr := hi.repr src other hsrc
        -- first the source gives up its cells, then the destination takes them
        have h1 : Machine.Inv
            { world := s.world,
              queues := Function.update s.queues src (some (Queue.move other).2) }
            (Function.update cells src []) := by
          apply hi.update src
          · exact ⟨hi.sound, fun _ _ _ hm => ⟨rfl, hm⟩, fun a h => by simp at h⟩
          · intro q1 h; cases h
            exact ⟨rfl, rfl, rfl, List.nodup_nil, fun a h => by simp at h⟩
          · intro h; cases h
        refine ⟨Function.update (Function.update cells src []) j (cells src), ?_, ?_⟩
        · constructor
          · exact hi.sound
          · intro i q hiq
            dsimp only at hiq ⊢
            by_cases hij : i = j
            · rw [hij, Function.update_same] at hiq
              rw [hij, Function.update_same]
              cases hiq
              exact ⟨hr.linked, hr.tail_eq, hr.size_eq, hr.nodup, hr.owned⟩
            · rw [Function.update_noteq hij] at hiq
              rw [Function.update_noteq hij]
              exact h1.repr i q hiq
          · intro i hiq
            dsimp only at hiq
            by_cases hij : i = j
            · rw [hij, Function.update_same] at hiq
              cases hiq
            · rw [Function.update_noteq hij] at hiq
              rw [Function.update_noteq hij]
              exact h1.absent i hiq
          · intro i k hik a hai hak
            have key : ∀ x, x ≠ j → ∀ b ∈ (cells src).map Prod.fst,
                b ∉ (Function.update cells src [] x).map Prod.fst := by
              intro x _ b hb hbx
              by_cases hxs : x = src
              · rw [hxs, Function.update_same] at hbx
                simp at hbx
              · rw [Function.update_noteq hxs] at hbx
                exact hi.apart src x (Ne.symm hxs) b hb hbx
            by_cases hij : i = j
            · have hkj : k ≠ j := fun e => hik (hij.trans e.symm)
              rw [hij, Function.update_same] at hai
              rw [Function.update_noteq hkj] at hak
              exact key k hkj a hai hak
            · rw [Function.update_noteq hij] at hai
              by_cases hkj : k = j
              · rw [hkj, Function.update_same] at hak
                exact key i hij a hak hai
              · rw [Function.update_noteq hkj] at hak
                exact h1.apart i k hik a hai hak
        · intro i hi'
          simp only [Op.targets, List.mem_cons, List.mem_singleton, List.not_mem_nil, or_false,
            not_or] at hi'
          rw [Function.update_noteq hi'.1, Function.update_noteq hi'.2]
  | destroy j fuel =>
    simp only [Machine.step] at hstep
    cases hq : s.queues j with
    | none => simp [hq] at hstep
    | some q =>
      simp only [hq] at hstep
      cases hcl : Queue.clear fuel s.world q with
      | none => simp [hcl] at hstep
      | some r =>
        obtain ⟨hre, hr1, heff, _⟩ := Queue.clear_sound hi.sound (hi.repr j q hq) fuel r hcl
        simp only [hcl, hre, if_true, Option.some.injEq, Prod.mk.injEq] at hstep
        obtain ⟨rfl, _⟩ := hstep
        refine ⟨Function.update cells j [], ?_,
          update_eq_of_not_mem (by simp [Op.targets])⟩
        exact hi.update j heff (fun q1 h => by cases h) (fun _ => rfl)

theorem Reachable.inv {T : Type} [NodeLayout T] {s : Machine T} (h : Reachable s) :
    ∃ cells, s.Inv cells := by
  induction h with
  | initial => exact ⟨_, Machine.Inv.initial T⟩
  | step _ ha hstep ih =>
    obtain ⟨cells, hi⟩ := ih
    obtain ⟨cells1, hi1, _⟩ := hi.step ha hstep
    exact ⟨cells1, hi1⟩

/-! ## Observers of a represented queue -/

theorem walk_of_linked {T : Type} {w : World T} {p : Option Addr} {cells : List (Addr × T)}
    (h : Linked w.nodes p cells) (fuel : Nat) (hfuel : cells.length ≤ fuel) :
    walk w fuel p = some (cells.map Prod.fst) := by
  induction cells generalizing p fuel with
  | nil =>
    have hp : p = none := h
    subst hp
    cases fuel <;> rfl
  | cons c cs ih =>
    obtain ⟨hp, n, hn, _, hl⟩ := h
    subst hp
    cases fuel with
    | zero => simp at hfuel
    | succ fuel =>
      have := ih hl fuel (by simpa using hfuel)
      simp [walk, hn, this]

theorem iterate_of_linked {T : Type} {w : World T} {p : Option Addr} {cells : List (Addr × T)}
    (h : Linked w.nodes p cells) (fuel : Nat) :
    iterate w { current := none } fuel { current := p } =
      if cells.length ≤ fuel then some (.ok (cells.map Prod.snd)) else none := by
  induction cells generalizing p fuel with
  | nil =>
    have hp : p = none := h
    subst hp
    rw [iterate.eq_def]
    simp
  | cons c cs ih =>
    obtain ⟨hp, n, hn, hd, hl⟩ := h
    subst hp
    rw [iterate.eq_def]
    cases fuel with
    | zero => simp
    | succ fuel =>
      have hne : ¬ (({ current := some c.1 } : QueueIterator) = { current := none }) := by
        intro e
        cases e
      simp only [hne, if_false, QueueIterator.deref, QueueIterator.incr, hn, ih hl fuel,
        List.length_cons, Nat.add_le_add_iff_right, List.map_cons, hd]
      split_ifs <;> rfl

theorem Queue.Repr.head_none_iff {T : Type} {w : World T} {q : Queue}
    {cells : List (Addr × T)} (hr : q.Repr w cells) : q.head = none ↔ cells = [] := by
  cases cells with
  | nil => exact ⟨fun _ => rfl, fun _ => hr.linked⟩
  | cons c cs =>
    have : q.head = some c.1 := hr.linked.1
    simp [this]

theorem Queue.Repr.tail_none_iff {T : Type} {w : World T} {q : Queue}
    {cells : List (Addr × T)} (hr : q.Repr w cells) : q.tail = none ↔ cells = [] := by
  rw [hr.tail_eq]
  cases cells with
  | nil => simp
  | cons c cs =>
    have hne : (c :: cs).map Prod.fst ≠ [] := by simp
    rw [List.getLast?_eq_getLast _ hne]
    simp

theorem Queue.Repr.size_zero_iff {T : Type} {w : World T} {q : Queue}
    {cells : List (Addr × T)} (hr : q.Repr w cells) : q.size_ = 0 ↔ cells = [] := by
  rw [hr.size_eq]
  exact List.length_eq_zero

theorem Queue.Repr.toList_eq {T : Type} {w : World T} {q : Queue}
    {cells : List (Addr × T)} (hr : q.Repr w cells) :
    q.toList w = some (.ok (cells.map Prod.snd)) := by
  unfold Queue.toList Queue.end Queue.begin Queue.size
  rw [iterate_of_linked hr.linked, hr.size_eq]
  simp

theorem Queue.Repr.nodeAddrs_eq {T : Type} {w : World T} {q : Queue}
    {cells : List (Addr × T)} (hr : q.Repr w cells) :
    q.nodeAddrs w = some (cells.map Prod.fst) := by
  unfold Queue.nodeAddrs Queue.size
  exact walk_of_linked hr.linked _ (by rw [hr.size_eq])

theorem Queue.Repr.front_eq {T : Type} {w : World T} {q : Queue} {c : Addr × T}
    {cs : List (Addr × T)} (hr : q.Repr w (c :: cs)) : q.front w = .ok c.2 := by
  obtain ⟨hh, n, hn, hd, _⟩ := hr.linked
  simp [Queue.front, hh, hn, hd]

/-! ## Runs of programs -/

theorem Reachable.exec {T : Type} [NodeLayout T] {ops : List (Op T)} :
    ∀ {s s1 : Machine T}, Reachable s → s.exec ops = some s1 → Reachable s1 := by
  induction ops with
  | nil =>
    intro s s1 hs h
    simp only [Machine.exec, Option.some.injEq] at h
    exact h ▸ hs
  | cons op ops ih =>
    intro s s1 hs h
    rw [Machine.exec] at h
    by_cases ha : op.admissible s
    · simp only [ha, if_true] at h
      cases hstep : s.step op with
      | none => simp [hstep] at h
      | some r =>
        obtain ⟨s2, e⟩ := r
        simp only [hstep] at h
        exact ih (Reachable.step hs ha hstep) h
    · simp [ha] at h

theorem Reachable.after {T : Type} [NodeLayout T] (ops : List (Op T)) :
    Reachable (Machine.after ops) := by
  unfold Machine.after
  cases h : (Machine.initial T).exec ops with
  | none => exact Reachable.initial
  | some s => exact Reachable.exec Reachable.initial h

/-! ## Loops of pushes and of pops -/

theorem pushAll_spec {T : Type} [NodeLayout T] {pushes : List (T × Addr)} :
    ∀ {w : World T} {q : Queue} {cells : List (Addr × T)},
      w.Sound → q.Repr w cells → (pushes.map Prod.snd).Nodup →
      (∀ a ∈ pushes.map Prod.snd, w.freshAnswer a) →
      ∃ cells1, (pushAll w q pushes).error = none ∧
        (pushAll w q pushes).queue.Repr (pushAll w q pushes).world (cells ++ cells1) ∧
        cells1.map Prod.snd = pushes.map Prod.fst ∧
        Effect w (cells.map Prod.fst) (pushAll w q pushes).world (cells ++ cells1) ∧
        (pushAll w q pushes).queue.allocator = q.allocator := by
  induction pushes with
  | nil =>
    intro w q cells hs hr _ _
    refine ⟨[], rfl, ?_, rfl, ?_, rfl⟩
    · simpa [pushAll] using hr
    · simpa [pushAll] using Effect.refl hs cells
  | cons x rest ih =>
    intro w q cells hs hr hnd hfresh
    have hf : w.freshAnswer x.2 := hfresh x.2 (by simp)
    obtain ⟨p, he, hr1, heff1, hal1, _, hlive1, _⟩ := Queue.push_spec hs hr x.1 x.2 hf
    have hnd' : (rest.map Prod.snd).Nodup := by
      simp only [List.map_cons, List.nodup_cons] at hnd
      exact hnd.2
    have hx_notin : x.2 ∉ rest.map Prod.snd := by
      simp only [List.map_cons, List.nodup_cons] at hnd
      exact hnd.1
    have hfresh' : ∀ a ∈ rest.map Prod.snd,
        (q.push w (some x.1) x.2).world.freshAnswer a := by
      intro a ha
      obtain ⟨h1, h2, h3⟩ := hfresh a (by
        simp only [List.map_cons, List.mem_cons]; exact Or.inr ha)
      refine ⟨h1, h2, ?_⟩
      intro hmem
      rcases hlive1 a hmem with h | h
      · exact h3 h
      · exact hx_notin (h ▸ ha)
    obtain ⟨cells1, hre, hrr, hdat, heff2, hal2⟩ := ih heff1.sound hr1 hnd' hfresh'
    have hstep : pushAll w q (x :: rest) =
        pushAll (q.push w (some x.1) x.2).world (q.push w (some x.1) x.2).queue rest := by
      rw [pushAll]
      simp only [he]
    rw [hstep]
    have e : cells ++ (p, x.1) :: cells1 = cells ++ [(p, x.1)] ++ cells1 := by simp
    refine ⟨(p, x.1) :: cells1, hre, ?_, ?_, ?_, hal2.trans hal1⟩
    · rw [e]; exact hrr
    · simp [hdat]
    · rw [e]; exact Effect.trans heff1 heff2

theorem drain_spec {T : Type} [NodeLayout T] (n : Nat) :
    ∀ {w : World T} {q : Queue} {cells : List (Addr × T)},
      w.Sound → q.Repr w cells → n ≤ cells.length →
      (drain w q n).1 = (cells.take n).map (fun c => Except.ok c.2) ∧
      (drain w q n).2.error = none ∧
      (drain w q n).2.queue.Repr (drain w q n).2.world (cells.drop n) ∧
      (drain w q n).2.world.Sound := by
  induction n with
  | zero =>
    intro w q cells hs hr _
    exact ⟨rfl, rfl, hr, hs⟩
  | succ n ih =>
    intro w q cells hs hr hn
    cases cells with
    | nil => simp at hn
    | cons c cs =>
      obtain ⟨he, hr1, heff1, _⟩ := Queue.pop_spec hs hr
      have hfront := hr.front_eq
      obtain ⟨h1, h2, h3, h4⟩ := ih heff1.sound hr1 (by simpa using hn)
      have hstep : drain w q (n + 1) =
          (q.front w :: (drain (q.pop w).world (q.pop w).queue n).1,
            (drain (q.pop w).world (q.pop w).queue n).2) := by
        rw [drain]
        simp only [he]
      rw [hstep]
      refine ⟨?_, h2, ?_, h4⟩
      · simp [hfront, h1]
      · simpa using h3

/-! ## The memory resource on its own: the invariant of reachable states -/

theorem Allocator.call_allocate_cases (a : Allocator) (bytes : Nat) (answer : Addr) :
    ((a.call (.allocate bytes answer)).2 = .address (a.mr.do_allocate a.live bytes answer).1) ∧
    (a.call (.allocate bytes answer)).1.mr = (a.mr.do_allocate a.live bytes answer).2.1 ∧
    (a.call (.allocate bytes answer)).1.live = (a.mr.do_allocate a.live bytes answer).2.2 :=
  ⟨rfl, rfl, rfl⟩

theorem Allocator.call_tracked_nodup {a : Allocator} {c : AllocCall}
    (h : a.mr.tracked.Nodup) (hc : c.admissible a) : (a.call c).1.mr.tracked.Nodup := by
  cases c with
  | allocate bytes answer =>
    have hcases := do_allocate_cases a.mr a.live bytes answer
    simp only [Allocator.call]
    rcases hcases with ⟨_, hin, hperm, _⟩ | ⟨_, hin, hfr, _⟩
    · exact (tracked_perm_of_reuse hin hperm).nodup_iff.mpr h
    · exact (tracked_perm_of_fresh hin hfr).nodup_iff.mpr (List.nodup_cons.mpr ⟨hc, h⟩)
  | deallocate p bytes =>
    simp only [Allocator.call]
    by_cases hp : p ∈ a.mr.inUse
    · obtain ⟨mr1, hd, hperm, hfr⟩ := do_deallocate_ok a.mr p bytes hp
      rw [hd]
      exact (tracked_perm_of_release hperm hfr).nodup_iff.mpr h
    · rw [do_deallocate_unknown a.mr p bytes hp]
      exact h

theorem Allocator.Reachable.tracked_nodup {a : Allocator} (h : Allocator.Reachable a) :
    a.mr.tracked.Nodup := by
  induction h with
  | new => simp [Allocator.new, BlockMemoryResource.new, BlockMemoryResource.tracked,
      BlockMemoryResource.inUse, BlockMemoryResource.freed]
  | call _ hc ih => exact Allocator.call_tracked_nodup ih hc

theorem Allocator.Reachable.of_exec {cs : List AllocCall} :
    ∀ {a a1 : Allocator}, Allocator.Reachable a → a.exec cs = some a1 →
      Allocator.Reachable a1 := by
  induction cs with
  | nil =>
    intro a a1 ha h
    simp only [Allocator.exec, Option.some.injEq] at h
    exact h ▸ ha
  | cons c cs ih =>
    intro a a1 ha h
    rw [Allocator.exec] at h
    by_cases hc : c.admissible a
    · simp only [hc, if_true] at h
      exact ih (Allocator.Reachable.call ha hc) h
    · simp [hc] at h

theorem Allocator.Reachable.afterCalls (cs : List AllocCall) :
    Allocator.Reachable (Allocator.afterCalls cs) := by
  unfold Allocator.afterCalls
  cases h : Allocator.new.exec cs with
  | none => exact Allocator.Reachable.new
  | some a => exact Allocator.Reachable.of_exec Allocator.Reachable.new h

/-! ## First fit, and allocate followed by deallocate -/

theorem takeFirst_of_split {hit : Block → Bool} {l1 l2 : List Block} {b : Block}
    (h1 : ∀ x ∈ l1, hit x = false) (hb : hit b = true) :
    takeFirst hit (l1 ++ b :: l2) = some (b, l1 ++ l2) := by
  induction l1 with
  | nil => simp [takeFirst, hb]
  | cons c cs ih =>
    have hc : hit c = false := h1 c (by simp)
    have := ih (fun x hx => h1 x (List.mem_cons_of_mem _ hx))
    simp [takeFirst, hc, this]

theorem takeFirst_ptr_none {l : List Block} {p : Addr} (h : p ∉ l.map Block.ptr) :
    ∀ x ∈ l, decide (x.ptr = p) = false := by
  intro x hx
  simp only [decide_eq_false_iff_not]
  intro e
  exact h (List.mem_map.mpr ⟨x, hx, e⟩)

/-- In both variants a successful `allocate` adds the returned address at the end of the
in-use collection. -/
theorem do_allocate_allocated (mr : BlockMemoryResource) (live : List Addr) (bytes : Nat)
    (answer : Addr) :
    (mr.do_allocate live bytes answer).2.1.allocated_blocks =
      mr.allocated_blocks ++ [Block.mk (mr.do_allocate live bytes answer).1 bytes] := by
  unfold BlockMemoryResource.do_allocate
  cases takeFirst (fun b => decide (bytes ≤ b.size)) mr.free_blocks with
  | none => rfl
  | some xr => rfl

/-- An `allocate` whose address was not in use, directly followed by `deallocate` of that
address: the in-use collection is as before the two calls, and the block is the last one of
the free collection, recorded with the size requested. -/
theorem do_allocate_do_deallocate (mr : BlockMemoryResource) (live : List Addr) (bytes : Nat)
    (answer : Addr) (bytes2 : Nat)
    (h : (mr.do_allocate live bytes answer).1 ∉ mr.inUse) :
    (mr.do_allocate live bytes answer).2.1.do_deallocate (mr.do_allocate live bytes answer).1
        bytes2 =
      .ok { allocated_blocks := mr.allocated_blocks,
            free_blocks := (mr.do_allocate live bytes answer).2.1.free_blocks ++
              [Block.mk (mr.do_allocate live bytes answer).1 bytes] } := by
  have hal := do_allocate_allocated mr live bytes answer
  generalize mr.do_allocate live bytes answer = r at h hal
  obtain ⟨p, mr1, live1⟩ := r
  simp only at h hal ⊢
  unfold BlockMemoryResource.do_deallocate
  rw [hal]
  have := @takeFirst_of_split (fun b => decide (b.ptr = p)) mr.allocated_blocks []
    (Block.mk p bytes) (takeFirst_ptr_none h) (by simp)
  rw [this]
  simp

/-! ## More on represented queues: clear, back, assignments, histories -/

theorem Queue.clear_none_of_lt {T : Type} [NodeLayout T] {cells : List (Addr × T)} :
    ∀ {w : World T} {q : Queue} (fuel : Nat), w.Sound → q.Repr w cells →
      fuel < cells.length → Queue.clear fuel w q = none := by
  induction cells with
  | nil =>
    intro w q fuel _ _ h
    simp at h
  | cons c cs ih =>
    intro w q fuel hs hr hfuel
    have hh : q.head = some c.1 := hr.linked.1
    obtain ⟨he, hr1, heff1, _⟩ := Queue.pop_spec hs hr
    cases fuel with
    | zero =>
      rw [Queue.clear]
      simp [Queue.empty, hh]
    | succ fuel =>
      rw [Queue.clear]
      simp only [Queue.empty, hh, Option.isNone_some, Bool.false_eq_true, if_false, he]
      exact ih fuel heff1.sound hr1 (by simpa using hfuel)

theorem Queue.clear_of_empty {T : Type} [NodeLayout T] (w : World T) (q : Queue)
    (h : q.empty = true) (fuel : Nat) :
    Queue.clear fuel w q = some { error := none, world := w, queue := q } := by
  rw [Queue.clear.eq_def]
  simp [h]

theorem Linked.cell_data {T : Type} {nodes : Addr → Option (QueueNode T)}
    {p : Option Addr} {cells : List (Addr × T)} (h : Linked nodes p cells)
    {c : Addr × T} (hc : c ∈ cells) : ∃ n, nodes c.1 = some n ∧ n.data = c.2 := by
  induction cells generalizing p with
  | nil => simp at hc
  | cons d ds ih =>
    obtain ⟨_, n, hn, hd, hl⟩ := h
    rcases List.mem_cons.mp hc with rfl | hc
    · exact ⟨n, hn, hd⟩
    · exact ih hl hc

theorem getLast?_map_fst {T : Type} (cells : List (Addr × T)) :
    (cells.map Prod.fst).getLast? = cells.getLast?.map Prod.fst := by
  induction cells with
  | nil => rfl
  | cons c cs ih =>
    cases cs with
    | nil => rfl
    | cons d ds =>
      simp only [List.map_cons, List.getLast?_cons_cons] at ih ⊢
      exact ih

theorem Queue.Repr.back_eq {T : Type} {w : World T} {q : Queue} {cells : List (Addr × T)}
    (hr : q.Repr w cells) {c : Addr × T} (hc : cells.getLast? = some c) :
    q.back w = .ok c.2 := by
  have hmem : c ∈ cells := List.mem_of_getLast?_eq_some hc
  have hne : cells ≠ [] := List.ne_nil_of_mem hmem
  have hh : q.head ≠ none := fun h => hne (hr.head_none_iff.mp h)
  obtain ⟨h0, hh0⟩ := Option.ne_none_iff_exists'.mp hh
  have ht : q.tail = some c.1 := by
    rw [hr.tail_eq, getLast?_map_fst, hc]
    rfl
  obtain ⟨n, hn, hd⟩ := hr.linked.cell_data hmem
  simp [Queue.back, hh0, ht, hn, hd]

/-- Writing the element of the `i`-th node of a chain changes that cell and nothing else. -/
theorem Linked.set_data {T : Type} {nodes nodes1 : Addr → Option (QueueNode T)}
    {cells : List (Addr × T)} :
    ∀ {p : Option Addr} (i : Nat) (a : Addr) (n : QueueNode T) (v : T),
      Linked nodes p cells → (cells.map Prod.fst).Nodup →
      (cells.map Prod.fst)[i]? = some a → nodes a = some n →
      nodes1 a = some { n with data := v } → (∀ x, x ≠ a → nodes1 x = nodes x) →
      Linked nodes1 p (cells.set i (a, v)) := by
  induction cells with
  | nil =>
    intro p i a n v h _ hi
    simp at hi
  | cons c cs ih =>
    intro p i a n v h hnd hi hn hn1 hrest
    obtain ⟨hp, m, hm, hd, hl⟩ := h
    have hc_notin : c.1 ∉ cs.map Prod.fst := by
      simp only [List.map_cons, List.nodup_cons] at hnd
      exact hnd.1
    have hnd' : (cs.map Prod.fst).Nodup := by
      simp only [List.map_cons, List.nodup_cons] at hnd
      exact hnd.2
    cases i with
    | zero =>
      simp only [List.map_cons, List.getElem?_cons_zero, Option.some.injEq] at hi
      subst hi
      rw [hm] at hn
      have hmn : m = n := Option.some.inj hn
      subst hmn
      refine ⟨hp, _, hn1, rfl, ?_⟩
      apply hl.congr
      intro x hx
      exact hrest x (fun e => hc_notin (e ▸ hx))
    | succ i =>
      simp only [List.map_cons, List.getElem?_cons_succ] at hi
      have ha_mem : a ∈ cs.map Prod.fst := List.getElem?_mem hi
      have hca : c.1 ≠ a := fun e => hc_notin (e ▸ ha_mem)
      refine ⟨hp, m, ?_, hd, ?_⟩
      · rw [hrest c.1 hca]; exact hm
      · exact ih i a n v hl hnd' hi hn hn1 hrest

theorem QueueIterator.advance_of_linked {T : Type} {w : World T} {cells : List (Addr × T)} :
    ∀ {p : Option Addr} (i : Nat) (a : Addr), Linked w.nodes p cells →
      (cells.map Prod.fst)[i]? = some a →
      QueueIterator.advance w i { current := p } = .ok { current := some a } := by
  induction cells with
  | nil =>
    intro p i a _ hi
    simp at hi
  | cons c cs ih =>
    intro p i a h hi
    obtain ⟨hp, n, hn, _, hl⟩ := h
    subst hp
    cases i with
    | zero =>
      simp only [List.map_cons, List.getElem?_cons_zero, Option.some.injEq] at hi
      subst hi
      rfl
    | succ i =>
      simp only [List.map_cons, List.getElem?_cons_succ] at hi
      simp only [QueueIterator.advance, QueueIterator.incr, hn]
      exact ih i a hl hi

theorem Queue.runOps_pending {T : Type} [NodeLayout T] {ops : List (QueueOp T)} :
    ∀ {w : World T} {q : Queue} {cells : List (Addr × T)},
      w.Sound → q.Repr w cells → Queue.answersFresh w q ops →
      (∀ i, i ≤ ops.length → countPop (ops.take i) ≤ cells.length + countPush (ops.take i)) →
      (Queue.runOps w q ops).error = none ∧
      ∃ cells1, (Queue.runOps w q ops).queue.Repr (Queue.runOps w q ops).world cells1 ∧
        cells1.map Prod.snd = pendingFrom (cells.map Prod.snd) ops := by
  induction ops with
  | nil =>
    intro w q cells _ hr _ _
    exact ⟨rfl, cells, hr, rfl⟩
  | cons op rest ih =>
    intro w q cells hs hr hfresh hpre
    cases op with
    | push v answer =>
      obtain ⟨hf, hfresh'⟩ := hfresh
      obtain ⟨p, he, hr1, heff1, _⟩ := Queue.push_spec hs hr v answer hf
      have hpre' : ∀ i, i ≤ rest.length →
          countPop (rest.take i) ≤ (cells ++ [(p, v)]).length + countPush (rest.take i) := by
        intro i hi
        have := hpre (i + 1) (by simpa using hi)
        simp only [List.take_succ_cons, countPop, countPush] at this
        simp only [List.length_append, List.length_singleton]
        omega
      obtain ⟨h1, cells1, h2, h3⟩ := ih heff1.sound hr1 hfresh' hpre'
      have hstep : Queue.runOps w q (QueueOp.push v answer :: rest) =
          Queue.runOps (q.push w (some v) answer).world (q.push w (some v) answer).queue
            rest := by
        rw [Queue.runOps]
        simp only [he]
      rw [hstep]
      refine ⟨h1, cells1, h2, ?_⟩
      rw [h3]
      simp [pendingFrom]
    | pop =>
      cases cells with
      | nil =>
        have := hpre 1 (by simp)
        simp [countPop, countPush] at this
      | cons c cs =>
        obtain ⟨he, hr1, heff1, _⟩ := Queue.pop_spec hs hr
        have hpre' : ∀ i, i ≤ rest.length →
            countPop (rest.take i) ≤ cs.length + countPush (rest.take i) := by
          intro i hi
          have := hpre (i + 1) (by simpa using hi)
          simp only [List.take_succ_cons, countPop, countPush, List.length_cons] at this
          omega
        have hfresh' : Queue.answersFresh (q.pop w).world (q.pop w).queue rest := hfresh
        obtain ⟨h1, cells1, h2, h3⟩ := ih heff1.sound hr1 hfresh' hpre'
        have hstep : Queue.runOps w q (QueueOp.pop :: rest) =
            Queue.runOps (q.pop w).world (q.pop w).queue rest := by
          rw [Queue.runOps]
          simp only [he]
        rw [hstep]
        refine ⟨h1, cells1, h2, ?_⟩
        rw [h3]
        simp [pendingFrom]

/-! ## Writing one element -/

theorem map_fst_set_self {T : Type} {cells : List (Addr × T)} :
    ∀ (i : Nat) (a : Addr) (v : T), (cells.map Prod.fst)[i]? = some a →
      (cells.set i (a, v)).map Prod.fst = cells.map Prod.fst := by
  induction cells with
  | nil =>
    intro i a v _
    rfl
  | cons c cs ih =>
    intro i a v hi
    cases i with
    | zero =>
      simp only [List.map_cons, List.getElem?_cons_zero, Option.some.injEq] at hi
      simp [hi]
    | succ i =>
      simp only [List.map_cons, List.getElem?_cons_succ] at hi
      simp [ih i a v hi]

theorem set_last_eq {α : Type} (l : List α) (v : α) (h : l ≠ []) :
    l.set (l.length - 1) v = l.dropLast ++ [v] := by
  obtain ⟨y, hy⟩ : ∃ y, l.getLast? = some y := ⟨_, List.getLast?_eq_getLast _ h⟩
  obtain ⟨ys, rfl⟩ := List.getLast?_eq_some_iff.mp hy
  simp

/-- Writing `value` into the node at position `i` of queue `j`: the queue then represents its
cells with position `i` replaced, no link changes, and every other queue is represented as
before. -/
theorem Machine.Inv.setData {T : Type} {s : Machine T} {cells : Nat → List (Addr × T)}
    (hi : s.Inv cells) {j : Nat} {q : Queue} (hq : s.queues j = some q) (i : Nat) (a : Addr)
    (value : T) (ha : ((cells j).map Prod.fst)[i]? = some a) :
    ∃ w1, s.world.setData a value = some w1 ∧
      q.Repr w1 ((cells j).set i (a, value)) ∧
      s.world.sameLinks w1 ∧
      (∀ k q1, k ≠ j → s.queues k = some q1 → q1.Repr w1 (cells k)) := by
  have hr := hi.repr j q hq
  have hmem : a ∈ (cells j).map Prod.fst := List.getElem?_mem ha
  obtain ⟨n, hn⟩ := hr.linked.node_at hmem
  refine ⟨{ s.world with nodes := Function.update s.world.nodes a (some { n with data := value }) },
    ?_, ?_, ?_, ?_⟩
  · simp [World.setData, hn]
  · have hmap := map_fst_set_self i a value ha
    refine ⟨?_, ?_, ?_, ?_, ?_⟩
    · exact Linked.set_data i a n value hr.linked hr.nodup ha hn (Function.update_same _ _ _)
        (fun x hx => Function.update_noteq hx _ _)
    · rw [hmap]; exact hr.tail_eq
    · rw [List.length_set]; exact hr.size_eq
    · rw [hmap]; exact hr.nodup
    · intro x hx
      rw [hmap] at hx
      exact (World.owns_of_same rfl rfl _ _).mpr (hr.owned x hx)
  · refine ⟨?_, rfl, rfl, rfl⟩
    intro x
    by_cases hx : x = a
    · subst hx
      simp [hn]
    · dsimp only
      rw [Function.update_noteq hx]
  · intro k q1 hk hq1
    have hrk := hi.repr k q1 hq1
    refine ⟨hrk.linked.congr ?_, hrk.tail_eq, hrk.size_eq, hrk.nodup, ?_⟩
    · intro x hx
      have hxa : x ≠ a := fun e => hi.apart k j hk x hx (e ▸ hmem)
      exact Function.update_noteq hxa _ _
    · intro x hx
      exact (World.owns_of_same rfl rfl _ _).mpr (hrk.owned x hx)


/-! ## Conservation of blocks, and the destructor -/

theorem Allocator.call_tracked_perm {a : Allocator} (c : AllocCall)
    (h : a.mr.tracked.Perm a.live) : (a.call c).1.mr.tracked.Perm (a.call c).1.live := by
  cases c with
  | allocate bytes answer =>
    have hcases := do_allocate_cases a.mr a.live bytes answer
    simp only [Allocator.call]
    rcases hcases with ⟨_, hin, hperm, hl⟩ | ⟨_, hin, hfr, hl⟩
    · rw [hl]
      exact (tracked_perm_of_reuse hin hperm).trans h
    · rw [hl]
      exact (tracked_perm_of_fresh hin hfr).trans (List.Perm.cons _ h)
  | deallocate p bytes =>
    simp only [Allocator.call]
    by_cases hp : p ∈ a.mr.inUse
    · obtain ⟨mr1, hd, hperm, hfr⟩ := do_deallocate_ok a.mr p bytes hp
      rw [hd]
      exact (tracked_perm_of_release hperm hfr).trans h
    · rw [do_deallocate_unknown a.mr p bytes hp]
      exact h

theorem Allocator.Reachable.tracked_perm {a : Allocator} (h : Allocator.Reachable a) :
    a.mr.tracked.Perm a.live := by
  induction h with
  | new => simp [Allocator.new, BlockMemoryResource.new, BlockMemoryResource.tracked,
      BlockMemoryResource.inUse, BlockMemoryResource.freed]
  | call _ _ ih => exact Allocator.call_tracked_perm _ ih

theorem releaseAll_of_perm : ∀ (bs : List Block) (rest live : List Addr),
    (bs.map Block.ptr ++ rest).Perm live →
      ∃ live1, releaseAll bs live = some live1 ∧ rest.Perm live1 := by
  intro bs
  induction bs with
  | nil =>
    intro rest live h
    exact ⟨live, rfl, by simpa using h⟩
  | cons b bs ih =>
    intro rest live h
    have hmem : b.ptr ∈ live := h.subset (by simp)
    have h1 : (bs.map Block.ptr ++ rest).Perm (live.erase b.ptr) := by
      have := h.erase b.ptr
      simpa using this
    obtain ⟨live1, e, hp⟩ := ih rest _ h1
    refine ⟨live1, ?_, hp⟩
    simp only [releaseAll, operator_delete_live, hmem, if_true, operator_delete]
    exact e

theorem destructor_of_perm (mr : BlockMemoryResource) (live : List Addr)
    (h : mr.tracked.Perm live) : mr.destructor live = some [] := by
  obtain ⟨live1, e1, hp1⟩ := releaseAll_of_perm mr.allocated_blocks mr.freed live h
  obtain ⟨live2, e2, hp2⟩ := releaseAll_of_perm mr.free_blocks [] live1
    (by simpa [BlockMemoryResource.freed] using hp1)
  have : live2 = [] := List.Perm.eq_nil (hp2.symm)
  simp only [BlockMemoryResource.destructor, e1, e2, this]

/-! ## Requests of one size -/

theorem Allocator.call_sizes {n : Nat} (a : Allocator) (c : AllocCall)
    (h : ∀ b ∈ a.mr.allocated_blocks ++ a.mr.free_blocks, b.size = n)
    (hc : ∀ bytes answer, c = AllocCall.allocate bytes answer → bytes = n) :
    ∀ b ∈ (a.call c).1.mr.allocated_blocks ++ (a.call c).1.mr.free_blocks, b.size = n := by
  cases c with
  | allocate bytes answer =>
    have hb : bytes = n := hc bytes answer rfl
    simp only [Allocator.call, BlockMemoryResource.do_allocate]
    cases hr : takeFirst (fun b => decide (bytes ≤ b.size)) a.mr.free_blocks with
    | none =>
      intro b hmem
      simp only [operator_new, List.mem_append, List.mem_singleton] at hmem
      rcases hmem with (hmem | rfl) | hmem
      · exact h b (List.mem_append_left _ hmem)
      · exact hb
      · exact h b (List.mem_append_right _ hmem)
    | some xr =>
      obtain ⟨x, rest⟩ := xr
      obtain ⟨_, l1, l2, e1, e2, _⟩ := takeFirst_eq_some hr
      intro b hmem
      simp only [List.mem_append, List.mem_singleton, e2] at hmem
      rcases hmem with (hmem | rfl) | hmem | hmem
      · exact h b (List.mem_append_left _ hmem)
      · exact hb
      · exact h b (List.mem_append_right _ (by rw [e1]; simp [hmem]))
      · exact h b (List.mem_append_right _ (by rw [e1]; simp [hmem]))
  | deallocate p bytes =>
    simp only [Allocator.call, BlockMemoryResource.do_deallocate]
    cases hr : takeFirst (fun b => decide (b.ptr = p)) a.mr.allocated_blocks with
    | none => exact h
    | some xr =>
      obtain ⟨x, rest⟩ := xr
      obtain ⟨_, l1, l2, e1, e2, _⟩ := takeFirst_eq_some hr
      intro b hmem
      simp only [List.mem_append, List.mem_singleton, e2] at hmem
      rcases hmem with (hmem | hmem) | hmem | rfl
      · exact h b (List.mem_append_left _ (by rw [e1]; simp [hmem]))
      · exact h b (List.mem_append_left _ (by rw [e1]; simp [hmem]))
      · exact h b (List.mem_append_right _ hmem)
      · exact h b (List.mem_append_left _ (by rw [e1]; simp))

theorem Allocator.calls_sizes {n : Nat} {cs : List AllocCall} :
    ∀ (a : Allocator), (∀ b ∈ a.mr.allocated_blocks ++ a.mr.free_blocks, b.size = n) →
      (∀ bytes answer, AllocCall.allocate bytes answer ∈ cs → bytes = n) →
      ∀ b ∈ (a.calls cs).1.mr.allocated_blocks ++ (a.calls cs).1.mr.free_blocks,
        b.size = n := by
  induction cs with
  | nil => intro a h _; exact h
  | cons c cs ih =>
    intro a h hcs
    simp only [Allocator.calls]
    apply ih
    · apply Allocator.call_sizes a c h
      intro bytes answer e
      exact hcs bytes answer (by rw [e]; simp)
    · intro bytes answer hm
      exact hcs bytes answer (List.mem_cons_of_mem _ hm)

/-! ## The bytes obtained from the system for each tracked block -/

/-- The system is asked for memory exactly when `asksSystem` says so: then the answer becomes
live and is the address returned, otherwise the live system allocations stay as they are. -/
theorem do_allocate_asksSystem (mr : BlockMemoryResource) (live : List Addr) (bytes : Nat)
    (answer : Addr) :
    (mr.do_allocate live bytes answer).2.2 =
      (if mr.asksSystem bytes then answer :: live else live) ∧
    (mr.asksSystem bytes = true → (mr.do_allocate live bytes answer).1 = answer) := by
  unfold BlockMemoryResource.do_allocate
  cases hr : takeFirst (fun b => decide (bytes ≤ b.size)) mr.free_blocks with
  | none =>
    have hask : mr.asksSystem bytes = true := by simp [BlockMemoryResource.asksSystem, hr]
    simp [hask, operator_new]
  | some xr =>
    have hask : mr.asksSystem bytes = false := by simp [BlockMemoryResource.asksSystem, hr]
    simp [hask]

theorem Allocator.call_tracked_obtains (a : Allocator) (c : AllocCall) :
    (a.call c).1.mr.tracked.Perm ((a.obtains c).map Block.ptr ++ a.mr.tracked) := by
  cases c with
  | allocate bytes answer =>
    simp only [Allocator.call, Allocator.obtains, BlockMemoryResource.do_allocate]
    cases hr : takeFirst (fun b => decide (bytes ≤ b.size)) a.mr.free_blocks with
    | none =>
      have hask : a.mr.asksSystem bytes = true := by
        simp [BlockMemoryResource.asksSystem, hr]
      simp only [hask, if_true, List.map_cons, List.map_nil, List.singleton_append]
      exact tracked_perm_of_fresh (by simp [BlockMemoryResource.inUse, operator_new])
        (by simp [BlockMemoryResource.freed])
    | some xr =>
      obtain ⟨y, rest⟩ := xr
      obtain ⟨_, l1, l2, e1, e2, _⟩ := takeFirst_eq_some hr
      have hask : a.mr.asksSystem bytes = false := by
        simp [BlockMemoryResource.asksSystem, hr]
      simp only [hask, Bool.false_eq_true, if_false, List.map_nil, List.nil_append]
      refine @tracked_perm_of_reuse a.mr _ y.ptr (by simp [BlockMemoryResource.inUse]) ?_
      simp only [BlockMemoryResource.freed, e1, e2, List.map_append, List.map_cons]
      exact (List.perm_middle).symm
  | deallocate p bytes =>
    simp only [Allocator.call, Allocator.obtains, List.map_nil, List.nil_append]
    by_cases hp : p ∈ a.mr.inUse
    · obtain ⟨mr1, hd, hperm, hfr⟩ := do_deallocate_ok a.mr p bytes hp
      rw [hd]
      exact tracked_perm_of_release hperm hfr
    · rw [do_deallocate_unknown a.mr p bytes hp]

/-- Every block tracked after a call was tracked before, or is the block `allocate` records:
its address with the size requested, which is either the address of a free block at least
that large, or the answer of the system, asked for exactly that size. -/
theorem Allocator.call_blocks (a : Allocator) (c : AllocCall) :
    ∀ b ∈ (a.call c).1.mr.allocated_blocks ++ (a.call c).1.mr.free_blocks,
      b ∈ a.mr.allocated_blocks ++ a.mr.free_blocks ∨
      ∃ bytes answer, c = .allocate bytes answer ∧ b.size = bytes ∧
        ((a.obtains c = [] ∧ ∃ y ∈ a.mr.free_blocks, y.ptr = b.ptr ∧ bytes ≤ y.size) ∨
         (a.obtains c = [Block.mk answer bytes] ∧ b.ptr = answer)) := by
  cases c with
  | allocate bytes answer =>
    simp only [Allocator.call, Allocator.obtains, BlockMemoryResource.do_allocate]
    cases hr : takeFirst (fun b => decide (bytes ≤ b.size)) a.mr.free_blocks with
    | none =>
      have hask : a.mr.asksSystem bytes = true := by
        simp [BlockMemoryResource.asksSystem, hr]
      intro b hmem
      simp only [operator_new, List.mem_append, List.mem_singleton] at hmem
      rcases hmem with (hmem | rfl) | hmem
      · exact Or.inl (List.mem_append_left _ hmem)
      · exact Or.inr ⟨bytes, answer, rfl, rfl, Or.inr ⟨by simp [hask], rfl⟩⟩
      · exact Or.inl (List.mem_append_right _ hmem)
    | some xr =>
      obtain ⟨y, rest⟩ := xr
      obtain ⟨hy, l1, l2, e1, e2, _⟩ := takeFirst_eq_some hr
      have hask : a.mr.asksSystem bytes = false := by
        simp [BlockMemoryResource.asksSystem, hr]
      intro b hmem
      simp only [List.mem_append, List.mem_singleton, e2] at hmem
      rcases hmem with (hmem | rfl) | hmem | hmem
      · exact Or.inl (List.mem_append_left _ hmem)
      · refine Or.inr ⟨bytes, answer, rfl, rfl, Or.inl ⟨by simp [hask], y, ?_, rfl, ?_⟩⟩
        · rw [e1]; simp
        · simpa using hy
      · exact Or.inl (List.mem_append_right _ (by rw [e1]; simp [hmem]))
      · exact Or.inl (List.mem_append_right _ (by rw [e1]; simp [hmem]))
  | deallocate p bytes =>
    simp only [Allocator.call, BlockMemoryResource.do_deallocate]
    cases hr : takeFirst (fun b => decide (b.ptr = p)) a.mr.allocated_blocks with
    | none => intro b hmem; exact Or.inl hmem
    | some xr =>
      obtain ⟨x, rest⟩ := xr
      obtain ⟨_, l1, l2, e1, e2, _⟩ := takeFirst_eq_some hr
      intro b hmem
      left
      simp only [List.mem_append, List.mem_singleton, e2] at hmem
      rcases hmem with (hmem | hmem) | hmem | rfl
      · exact List.mem_append_left _ (by rw [e1]; simp [hmem])
      · exact List.mem_append_left _ (by rw [e1]; simp [hmem])
      · exact List.mem_append_right _ hmem
      · exact List.mem_append_left _ (by rw [e1]; simp)

theorem Allocator.call_capacity (a : Allocator) (log : List Block) (c : AllocCall)
    (hc : c.admissible a) (h1 : (log.map Block.ptr).Perm a.mr.tracked)
    (h3 : ∀ b ∈ a.mr.allocated_blocks ++ a.mr.free_blocks, ∀ x ∈ log,
      x.ptr = b.ptr → b.size ≤ x.size) :
    ((log ++ a.obtains c).map Block.ptr).Perm (a.call c).1.mr.tracked ∧
    ∀ b ∈ (a.call c).1.mr.allocated_blocks ++ (a.call c).1.mr.free_blocks,
      ∀ x ∈ log ++ a.obtains c, x.ptr = b.ptr → b.size ≤ x.size := by
  have htr : ∀ b ∈ a.mr.allocated_blocks ++ a.mr.free_blocks, b.ptr ∈ a.mr.tracked := by
    intro b hb
    simp only [BlockMemoryResource.tracked, BlockMemoryResource.inUse,
      BlockMemoryResource.freed, ← List.map_append]
    exact List.mem_map_of_mem _ hb
  constructor
  · rw [List.map_append]
    exact (List.perm_append_comm.trans (List.Perm.append_left _ h1)).trans
      (Allocator.call_tracked_obtains a c).symm
  · intro b hb x hx hpx
    rcases Allocator.call_blocks a c b hb with hold | ⟨bytes, answer, rfl, hsz, hcase⟩
    · rcases List.mem_append.mp hx with hx | hx
      · exact h3 b hold x hx hpx
      · exfalso
        cases c with
        | deallocate p bytes => simp [Allocator.obtains] at hx
        | allocate bytes answer =>
          simp only [Allocator.obtains] at hx
          split at hx
          · simp only [List.mem_singleton] at hx
            apply hc
            have := htr b hold
            rw [← hpx, hx] at this
            exact this
          · simp at hx
    · rcases hcase with ⟨hno, y, hy, hyp, hle⟩ | ⟨hob, hbp⟩
      · rw [hno, List.append_nil] at hx
        have := h3 y (List.mem_append_right _ hy) x hx (hpx.trans hyp.symm)
        omega
      · rw [hob] at hx
        rcases List.mem_append.mp hx with hx | hx
        · exfalso
          apply hc
          have hm : x.ptr ∈ log.map Block.ptr := List.mem_map_of_mem _ hx
          rw [hpx, hbp] at hm
          exact h1.subset hm
        · simp only [List.mem_singleton] at hx
          rw [hx, hsz]

theorem Allocator.exec_capacity {cs : List AllocCall} :
    ∀ (a : Allocator) (log : List Block) (a1 : Allocator),
      (log.map Block.ptr).Perm a.mr.tracked →
      (∀ b ∈ a.mr.allocated_blocks ++ a.mr.free_blocks, ∀ x ∈ log,
        x.ptr = b.ptr → b.size ≤ x.size) →
      a.exec cs = some a1 →
      ((log ++ a.obtained cs).map Block.ptr).Perm a1.mr.tracked ∧
      ∀ b ∈ a1.mr.allocated_blocks ++ a1.mr.free_blocks, ∀ x ∈ log ++ a.obtained cs,
        x.ptr = b.ptr → b.size ≤ x.size := by
  induction cs with
  | nil =>
    intro a log a1 h1 h3 he
    simp only [Allocator.exec, Option.some.injEq] at he
    subst he
    simp only [Allocator.obtained, List.append_nil]
    exact ⟨h1, h3⟩
  | cons c cs ih =>
    intro a log a1 h1 h3 he
    rw [Allocator.exec] at he
    by_cases hc : c.admissible a
    · simp only [hc, if_true] at he
      obtain ⟨k1, k3⟩ := Allocator.call_capacity a log c hc h1 h3
      have := ih (a.call c).1 (log ++ a.obtains c) a1 k1 k3 he
      simp only [Allocator.obtained]
      rw [← List.append_assoc]
      exact this
    · simp [hc] at he

theorem Allocator.exec_append {cs ds : List AllocCall} :
    ∀ (a : Allocator), a.exec (cs ++ ds) = (a.exec cs).bind (fun a1 => a1.exec ds) := by
  induction cs with
  | nil => intro a; rfl
  | cons c cs ih =>
    intro a
    simp only [List.cons_append, Allocator.exec]
    by_cases hc : c.admissible a
    · simp only [hc, if_true]
      exact ih _
    · simp [hc]

/-! ## The two headers on requests of one size -/

theorem block_memory_resource_hpp.call_eq_of_sizes {n : Nat} (a : Allocator) (c : AllocCall)
    (h : ∀ b ∈ a.mr.allocated_blocks ++ a.mr.free_blocks, b.size = n)
    (hc : ∀ bytes answer, c = AllocCall.allocate bytes answer → bytes = n) :
    block_memory_resource_hpp.call a c = a.call c := by
  cases c with
  | allocate bytes answer =>
    have hb : bytes = n := hc bytes answer rfl
    simp only [block_memory_resource_hpp.call, Allocator.call,
      block_memory_resource_hpp.do_allocate, BlockMemoryResource.do_allocate]
    cases hr : takeFirst (fun b => decide (bytes ≤ b.size)) a.mr.free_blocks with
    | none => rfl
    | some xr =>
      obtain ⟨y, rest⟩ := xr
      obtain ⟨_, l1, l2, e1, _, _⟩ := takeFirst_eq_some hr
      have hy : y.size = n := h y (List.mem_append_right _ (by rw [e1]; simp))
      have : y = Block.mk y.ptr bytes := by rw [hb, ← hy]
      simp only
      rw [← this]
  | deallocate p bytes => rfl

/-- On an initially empty resource and requests of one size, the variants of
include/block_memory_resource.hpp and include/queue.hpp go through the same states and give
the same results. -/
theorem variants_agree_on_one_size {n : Nat} {cs : List AllocCall} :
    ∀ (a : Allocator), (∀ b ∈ a.mr.allocated_blocks ++ a.mr.free_blocks, b.size = n) →
      (∀ bytes answer, AllocCall.allocate bytes answer ∈ cs → bytes = n) →
      block_memory_resource_hpp.calls a cs = a.calls cs := by
  induction cs with
  | nil => intro a _ _; rfl
  | cons c cs ih =>
    intro a h hcs
    have hc : ∀ bytes answer, c = AllocCall.allocate bytes answer → bytes = n := by
      intro bytes answer e
      exact hcs bytes answer (by rw [e]; simp)
    simp only [block_memory_resource_hpp.calls, Allocator.calls]
    rw [block_memory_resource_hpp.call_eq_of_sizes a c h hc,
      ih (a.call c).1 (Allocator.call_sizes a c h hc)
        (fun bytes answer hm => hcs bytes answer (List.mem_cons_of_mem _ hm))]

/-! ## A queue as the only user of a memory resource -/

theorem World.allocate_tracked_perm {T : Type} (w : World T) (id : Nat) (n : Nat)
    (answer : Addr) (h : (w.resources id).tracked.Perm w.live) :
    ((w.allocate (.block id) n answer).2.resources id).tracked.Perm
      (w.allocate (.block id) n answer).2.live := by
  simp only [World.allocate, Function.update_same]
  exact @Allocator.call_tracked_perm ⟨w.resources id, w.live⟩ (.allocate n answer) h

theorem World.deallocate_tracked_perm {T : Type} (w : World T) (id : Nat) (p : Addr) (n : Nat)
    (h : (w.resources id).tracked.Perm w.live) :
    ((w.deallocate (.block id) p n).2.resources id).tracked.Perm
      (w.deallocate (.block id) p n).2.live := by
  simp only [World.deallocate]
  by_cases hp : p ∈ (w.resources id).inUse
  · obtain ⟨mr1, hd, hperm, hfr⟩ := do_deallocate_ok (w.resources id) p n hp
    rw [hd]
    simp only [Function.update_same]
    exact (tracked_perm_of_release hperm hfr).trans h
  · rw [do_deallocate_unknown (w.resources id) p n hp]
    exact h

theorem World.setNext_same {T : Type} {w w1 : World T} {p : Addr} {nx : Option Addr}
    (h : w.setNext p nx = some w1) : w1.resources = w.resources ∧ w1.live = w.live := by
  unfold World.setNext at h
  split at h
  · cases h
  · simp only [Option.some.injEq] at h
    subst h
    exact ⟨rfl, rfl⟩

theorem Queue.push_world_same {T : Type} [NodeLayout T] (w : World T) (q : Queue) (v : T)
    (answer : Addr) :
    (q.push w (some v) answer).world.resources =
      (w.allocate q.allocator (NodeLayout.nodeBytes T) answer).2.resources ∧
    (q.push w (some v) answer).world.live =
      (w.allocate q.allocator (NodeLayout.nodeBytes T) answer).2.live := by
  unfold Queue.push
  dsimp only
  split
  · exact ⟨rfl, rfl⟩
  · next w2 h2 =>
    have e2 := World.setNext_same h2
    split
    · split
      · exact e2
      · next w3 h3 =>
        have e3 := World.setNext_same h3
        exact ⟨e3.1.trans e2.1, e3.2.trans e2.2⟩
    · exact e2

theorem Queue.pop_world_eq {T : Type} [NodeLayout T] {w : World T} {q : Queue}
    {c : Addr × T} {cs : List (Addr × T)} (hr : q.Repr w (c :: cs)) :
    (q.pop w).world =
      (({ w with nodes := Function.update w.nodes c.1 none } : World T).deallocate
        q.allocator c.1 (NodeLayout.nodeBytes T)).2 := by
  obtain ⟨hh, n, hn, _, _⟩ := hr.linked
  simp only [Queue.pop, hh, hn]
  split <;> rfl

theorem SoleUser.push {T : Type} [NodeLayout T] {w : World T} {id : Nat} {q : Queue}
    {cells : List (Addr × T)} (h : SoleUser w id q cells) (v : T) (answer : Addr)
    (hf : w.freshAnswer answer) :
    (q.push w (some v) answer).error = none ∧
    ∃ p, SoleUser (q.push w (some v) answer).world id (q.push w (some v) answer).queue
      (cells ++ [(p, v)]) := by
  obtain ⟨p, he, hr1, heff, hal, hun, _, _⟩ := Queue.push_spec h.sound h.repr v answer hf
  obtain ⟨hres, hlive⟩ := Queue.push_world_same w q v answer
  obtain ⟨_, _, _, howns, _, _⟩ :=
    w.allocate_spec h.sound q.allocator (NodeLayout.nodeBytes T) answer hf
  have hsame := World.owns_of_same hres hlive
  have hp : p = (w.allocate q.allocator (NodeLayout.nodeBytes T) answer).1 := by
    have h1 := hr1.owned p (by simp)
    rw [hal] at h1
    rcases (howns _ _).mp ((hsame _ _).mp h1) with h2 | ⟨_, h2⟩
    · exact absurd h2 (hun _)
    · exact h2
  refine ⟨he, p, heff.sound, hr1, hal.trans h.bound, ?_, ?_⟩
  · intro a
    have e1 : a ∈ ((q.push w (some v) answer).world.resources id).inUse ↔
        (q.push w (some v) answer).world.owns (.block id) a := Iff.rfl
    rw [e1, hsame, howns, ← hp]
    have e2 : w.owns (.block id) a ↔ a ∈ cells.map Prod.fst := h.inUse_iff a
    rw [e2]
    simp only [List.map_append, List.map_cons, List.map_nil, List.mem_append,
      List.mem_singleton]
    constructor
    · rintro (h1 | ⟨_, h1⟩)
      · exact Or.inl h1
      · exact Or.inr h1
    · rintro (h1 | h1)
      · exact Or.inl h1
      · exact Or.inr ⟨h.bound.symm, h1⟩
  · rw [hres, hlive, h.bound]
    exact World.allocate_tracked_perm w id _ answer h.tracked_live

theorem SoleUser.pop {T : Type} [NodeLayout T] {w : World T} {id : Nat} {q : Queue}
    {c : Addr × T} {cs : List (Addr × T)} (h : SoleUser w id q (c :: cs)) :
    (q.pop w).error = none ∧ SoleUser (q.pop w).world id (q.pop w).queue cs := by
  obtain ⟨he, hr1, heff, hal, _⟩ := Queue.pop_spec h.sound h.repr
  have hw := Queue.pop_world_eq h.repr
  have hoc : w.owns q.allocator c.1 := h.repr.owned c.1 (by simp)
  have hs0 : ({ w with nodes := Function.update w.nodes c.1 none } : World T).Sound :=
    h.sound.of_same rfl rfl
  obtain ⟨_, _, _, howns, _, _⟩ := World.deallocate_spec _ hs0 q.allocator c.1
    (NodeLayout.nodeBytes T) ((World.owns_of_same rfl rfl _ _).mpr hoc)
  have hnd : c.1 ∉ cs.map Prod.fst := by
    have := h.repr.nodup
    simp only [List.map_cons, List.nodup_cons] at this
    exact this.1
  refine ⟨he, heff.sound, hr1, hal.trans h.bound, ?_, ?_⟩
  · intro a
    have e1 : a ∈ ((q.pop w).world.resources id).inUse ↔
        (q.pop w).world.owns (.block id) a := Iff.rfl
    rw [e1, hw, howns]
    have e2 : ({ w with nodes := Function.update w.nodes c.1 none } : World T).owns
        (.block id) a ↔ a ∈ (c :: cs).map Prod.fst := h.inUse_iff a
    rw [e2]
    simp only [List.map_cons, List.mem_cons]
    constructor
    · rintro ⟨h1 | h1, h2⟩
      · exact absurd h1 h2
      · exact h1
    · intro h1
      refine ⟨Or.inr h1, ?_⟩
      intro e
      rw [e] at h1
      exact hnd h1
  · rw [hw, h.bound]
    exact World.deallocate_tracked_perm _ id c.1 _ h.tracked_live

theorem SoleUser.runOps {T : Type} [NodeLayout T] {id : Nat} {ops : List (QueueOp T)} :
    ∀ {w : World T} {q : Queue} {cells : List (Addr × T)},
      SoleUser w id q cells → Queue.answersFresh w q ops →
      (Queue.runOps w q ops).error = none →
      ∃ cells1, SoleUser (Queue.runOps w q ops).world id (Queue.runOps w q ops).queue
        cells1 := by
  induction ops with
  | nil =>
    intro w q cells h _ _
    exact ⟨cells, h⟩
  | cons op rest ih =>
    intro w q cells h hfresh hok
    cases op with
    | push v answer =>
      obtain ⟨hf, hfresh1⟩ := hfresh
      obtain ⟨he, p, h1⟩ := h.push v answer hf
      have hstep : Queue.runOps w q (QueueOp.push v answer :: rest) =
          Queue.runOps (q.push w (some v) answer).world (q.push w (some v) answer).queue
            rest := by
        rw [Queue.runOps]
        simp only [he]
      rw [hstep] at hok ⊢
      exact ih h1 hfresh1 hok
    | pop =>
      cases cells with
      | nil =>
        exfalso
        have hh : q.head = none := h.repr.linked
        rw [Queue.runOps, Queue.pop_of_empty w q hh] at hok
        simp at hok
      | cons c cs =>
        obtain ⟨he, h1⟩ := h.pop
        have hfresh1 : Queue.answersFresh (q.pop w).world (q.pop w).queue rest := hfresh
        have hstep : Queue.runOps w q (QueueOp.pop :: rest) =
            Queue.runOps (q.pop w).world (q.pop w).queue rest := by
          rw [Queue.runOps]
          simp only [he]
        rw [hstep] at hok ⊢
        exact ih h1 hfresh1 hok

theorem SoleUser.clear {T : Type} [NodeLayout T] {id : Nat} {cells : List (Addr × T)} :
    ∀ {w : World T} {q : Queue} (fuel : Nat), SoleUser w id q cells → cells.length ≤ fuel →
      ∃ r, Queue.clear fuel w q = some r ∧ r.error = none ∧
        SoleUser r.world id r.queue [] ∧ r.world.live.Perm w.live := by
  induction cells with
  | nil =>
    intro w q fuel h _
    have hh : q.head = none := h.repr.linked
    refine ⟨{ error := none, world := w, queue := q }, ?_, rfl, h, List.Perm.refl _⟩
    unfold Queue.clear
    simp [Queue.empty, hh]
  | cons c cs ih =>
    intro w q fuel h hfuel
    have hh : q.head = some c.1 := h.repr.linked.1
    obtain ⟨he, h1⟩ := h.pop
    cases fuel with
    | zero => simp at hfuel
    | succ fuel =>
      obtain ⟨r, hc, hre, hr, hl⟩ := ih fuel h1 (by simpa using hfuel)
      refine ⟨r, ?_, hre, hr, hl.trans ?_⟩
      · rw [Queue.clear]
        simp only [Queue.empty, hh, Option.isNone_some, Bool.false_eq_true, if_false, he]
        exact hc
      · exact (h1.tracked_live.symm.trans (by
          have hw := Queue.pop_world_eq h.repr
          rw [hw, h.bound]
          simp only [World.deallocate]
          have hp : c.1 ∈ (w.resources id).inUse := (h.inUse_iff c.1).mpr (by simp)
          obtain ⟨mr1, hd, hperm, hfr⟩ :=
            do_deallocate_ok (w.resources id) c.1 (NodeLayout.nodeBytes T) hp
          rw [hd]
          simp only [Function.update_same]
          exact tracked_perm_of_release hperm hfr)).trans h.tracked_live
/-! ## C1: the FIFO law -/

/-- C1. FIFO law: in any reachable program state, pushing the values `v1..vn` onto a newly
constructed (empty) queue, bound to any memory resource, and then reading `front()` before
each of `n` pops raises no exception, yields `v1, ..., vn` in exactly that order, and leaves
the queue empty. The system allocator is assumed to answer with distinct fresh addresses. -/
theorem C1_fifo_law {T : Type} [NodeLayout T] (s : Machine T) (hs : Reachable s)
    (mr : MemoryResourceRef) (pushes : List (T × Addr))
    (hnd : (pushes.map Prod.snd).Nodup)
    (hfresh : ∀ a ∈ pushes.map Prod.snd, s.world.freshAnswer a) :
    (pushAll s.world (Queue.new mr) pushes).error = none ∧
    (drain (pushAll s.world (Queue.new mr) pushes).world
        (pushAll s.world (Queue.new mr) pushes).queue pushes.length).1
      = pushes.map (fun x => Except.ok x.1) ∧
    (drain (pushAll s.world (Queue.new mr) pushes).world
        (pushAll s.world (Queue.new mr) pushes).queue pushes.length).2.error = none ∧
    (drain (pushAll s.world (Queue.new mr) pushes).world
        (pushAll s.world (Queue.new mr) pushes).queue pushes.length).2.queue.empty = true ∧
    (drain (pushAll s.world (Queue.new mr) pushes).world
        (pushAll s.world (Queue.new mr) pushes).queue pushes.length).2.queue.size = 0 := by
  obtain ⟨cells, hi⟩ := hs.inv
  obtain ⟨cells1, he, hr, hdat, heff, _⟩ :=
    pushAll_spec hi.sound (Queue.Repr.new s.world mr) hnd hfresh
  rw [List.nil_append] at hr
  have hlen : pushes.length = cells1.length := by
    have := congrArg List.length hdat
    simpa using this.symm
  obtain ⟨h1, h2, h3, _⟩ := drain_spec pushes.length heff.sound hr (le_of_eq hlen)
  rw [hlen, List.drop_length] at h3
  refine ⟨he, ?_, h2, ?_, ?_⟩
  · rw [h1, hlen, List.take_length]
    have : cells1.map (fun c => (Except.ok c.2 : Except Error T)) =
        (cells1.map Prod.snd).map Except.ok := by simp
    rw [this, hdat]
    simp
  · rw [hlen]
    unfold Queue.empty
    rw [h3.head_none_iff.mpr rfl]
    rfl
  · rw [hlen]
    exact h3.size_zero_iff.mpr rfl

/-- Witness of C1: in the initial state, push 7, 8, 9 onto a queue bound to
`BlockMemoryResource` 0 and drain it. -/
theorem C1_fifo_law_witness :
    (drain (pushAll (Machine.initial Int).world (Queue.new (.block 0))
        [(7, 4096), (8, 4128), (9, 4160)]).world
      (pushAll (Machine.initial Int).world (Queue.new (.block 0))
        [(7, 4096), (8, 4128), (9, 4160)]).queue 3).1
      = [Except.ok 7, Except.ok 8, Except.ok 9] :=
  (C1_fifo_law (Machine.initial Int) Reachable.initial (.block 0)
    [(7, 4096), (8, 4128), (9, 4160)] (by decide) (by decide)).2.1

/-! ## C2: size after an interleaving of pushes and pops -/

theorem Queue.runOps_spec {T : Type} [NodeLayout T] {ops : List (QueueOp T)} :
    ∀ {w : World T} {q : Queue} {cells : List (Addr × T)},
      w.Sound → q.Repr w cells → Queue.answersFresh w q ops →
      (∀ i, i ≤ ops.length → countPop (ops.take i) ≤ cells.length + countPush (ops.take i)) →
      (Queue.runOps w q ops).error = none ∧
      ∃ cells1, (Queue.runOps w q ops).queue.Repr (Queue.runOps w q ops).world cells1 ∧
        cells1.length + countPop ops = cells.length + countPush ops := by
  induction ops with
  | nil =>
    intro w q cells _ hr _ _
    exact ⟨rfl, cells, hr, rfl⟩
  | cons op rest ih =>
    intro w q cells hs hr hfresh hpre
    cases op with
    | push v answer =>
      obtain ⟨hf, hfresh'⟩ := hfresh
      obtain ⟨p, he, hr1, heff1, _⟩ := Queue.push_spec hs hr v answer hf
      have hpre' : ∀ i, i ≤ rest.length →
          countPop (rest.take i) ≤ (cells ++ [(p, v)]).length + countPush (rest.take i) := by
        intro i hi
        have := hpre (i + 1) (by simpa using hi)
        simp only [List.take_succ_cons, countPop, countPush] at this
        simp only [List.length_append, List.length_singleton]
        omega
      obtain ⟨h1, cells1, h2, h3⟩ := ih heff1.sound hr1 hfresh' hpre'
      have hstep : Queue.runOps w q (QueueOp.push v answer :: rest) =
          Queue.runOps (q.push w (some v) answer).world (q.push w (some v) answer).queue
            rest := by
        rw [Queue.runOps]
        simp only [he]
      rw [hstep]
      refine ⟨h1, cells1, h2, ?_⟩
      simp only [List.length_append, List.length_singleton] at h3
      simp only [countPop, countPush]
      omega
    | pop =>
      cases cells with
      | nil =>
        have := hpre 1 (by simp)
        simp [countPop, countPush] at this
      | cons c cs =>
        obtain ⟨he, hr1, heff1, _⟩ := Queue.pop_spec hs hr
        have hpre' : ∀ i, i ≤ rest.length →
            countPop (rest.take i) ≤ cs.length + countPush (rest.take i) := by
          intro i hi
          have := hpre (i + 1) (by simpa using hi)
          simp only [List.take_succ_cons, countPop, countPush, List.length_cons] at this
          omega
        have hfresh' : Queue.answersFresh (q.pop w).world (q.pop w).queue rest := hfresh
        obtain ⟨h1, cells1, h2, h3⟩ := ih heff1.sound hr1 hfresh' hpre'
        have hstep : Queue.runOps w q (QueueOp.pop :: rest) =
            Queue.runOps (q.pop w).world (q.pop w).queue rest := by
          rw [Queue.runOps]
          simp only [he]
        rw [hstep]
        refine ⟨h1, cells1, h2, ?_⟩
        simp only [countPop, countPush, List.length_cons]
        omega

/-- C2. For every interleaving of `k` push calls and `j` pop calls on a newly constructed
(empty) queue in which every prefix has at least as many pushes as pops, no call raises an
exception and `size()` afterwards equals `k - j`. The system allocator is assumed to answer
each push with a fresh address. -/
theorem C2_size_after_interleaving {T : Type} [NodeLayout T] (s : Machine T)
    (hs : Reachable s) (mr : MemoryResourceRef) (ops : List (QueueOp T))
    (hfresh : Queue.answersFresh s.world (Queue.new mr) ops)
    (hpre : ∀ i, i ≤ ops.length → countPop (ops.take i) ≤ countPush (ops.take i)) :
    (Queue.runOps s.world (Queue.new mr) ops).error = none ∧
    (Queue.runOps s.world (Queue.new mr) ops).queue.size = countPush ops - countPop ops := by
  obtain ⟨cells, hi⟩ := hs.inv
  obtain ⟨h1, cells1, h2, h3⟩ :=
    Queue.runOps_spec hi.sound (Queue.Repr.new s.world mr) hfresh
      (fun i hi' => by simpa using hpre i hi')
  refine ⟨h1, ?_⟩
  unfold Queue.size
  rw [h2.size_eq]
  simp only [List.length_nil, Nat.zero_add] at h3
  omega

/-- Witness of C2: push 1, push 2, pop, push 3, push 4, pop, pop on a queue bound to the
default resource leaves one element. -/
theorem C2_size_after_interleaving_witness :
    (Queue.runOps (Machine.initial Int).world (Queue.new .newDelete)
      [.push 1 4096, .push 2 4128, .pop, .push 3 4096, .push 4 4160, .pop, .pop]).queue.size
      = 4 - 3 :=
  (C2_size_after_interleaving (Machine.initial Int) Reachable.initial .newDelete
    [.push 1 4096, .push 2 4128, .pop, .push 3 4096, .push 4 4160, .pop, .pop]
    (by decide) (by decide)).2

/-! ## C3, C4: the structural invariants of a reachable queue -/

/-- C3. In every queue state reachable by construction, push, pop, clear, copy construction,
move construction and destruction, `head` is null iff `size_` is 0 iff `tail` is null; hence
`empty()` returns true exactly when `size()` is 0. -/
theorem C3_head_size_tail_agree {T : Type} [NodeLayout T] (s : Machine T) (hs : Reachable s)
    (j : Nat) (q : Queue) (hq : s.queues j = some q) :
    (q.head = none ↔ q.size_ = 0) ∧ (q.size_ = 0 ↔ q.tail = none) ∧
    (q.empty = true ↔ q.size = 0) := by
  obtain ⟨cells, hi⟩ := hs.inv
  have hr := hi.repr j q hq
  refine ⟨?_, ?_, ?_⟩
  · rw [hr.head_none_iff, hr.size_zero_iff]
  · rw [hr.tail_none_iff, hr.size_zero_iff]
  · unfold Queue.empty Queue.size
    rw [Option.isNone_iff_eq_none, hr.head_none_iff, hr.size_zero_iff]

/-- Witness of C3: the moved-from queue 0 of `sharedProgram`, a program in which three queues
share one `BlockMemoryResource`. -/
theorem C3_head_size_tail_agree_witness :
    (emptyQueue.head = none ↔ emptyQueue.size_ = 0) ∧
    (emptyQueue.size_ = 0 ↔ emptyQueue.tail = none) ∧
    (emptyQueue.empty = true ↔ emptyQueue.size = 0) :=
  C3_head_size_tail_agree (Machine.after sharedProgram) (Reachable.after _) 0 emptyQueue
    (by rfl)

theorem Linked.last_next {T : Type} {nodes : Addr → Option (QueueNode T)}
    {p : Option Addr} {cells : List (Addr × T)} (h : Linked nodes p cells) {t : Addr}
    (ht : (cells.map Prod.fst).getLast? = some t) :
    ∃ n, nodes t = some n ∧ n.next = none := by
  induction cells generalizing p with
  | nil => simp at ht
  | cons c cs ih =>
    obtain ⟨_, n, hn, _, hl⟩ := h
    cases cs with
    | nil =>
      simp only [List.map_cons, List.map_nil, List.getLast?_singleton,
        Option.some.injEq] at ht
      subst ht
      exact ⟨n, hn, hl⟩
    | cons d ds =>
      simp only [List.map_cons, List.getLast?_cons_cons] at ht
      exact ih hl (by simpa using ht)

/-- C4. In every reachable queue state, following `next` from `head` reaches the null pointer
after visiting exactly `size()` nodes, these nodes are distinct, the last one visited is
`tail`, and the `next` of `tail` is null; for the empty queue `head` and `tail` are both
null. Reachable states are closed under push, pop, clear, copy and move construction. -/
theorem C4_chain_shape {T : Type} [NodeLayout T] (s : Machine T) (hs : Reachable s)
    (j : Nat) (q : Queue) (hq : s.queues j = some q) :
    (∃ ns, walk s.world q.size q.head = some ns ∧ ns.length = q.size ∧ ns.Nodup ∧
      ns.getLast? = q.tail) ∧
    (∀ t, q.tail = some t → ∃ n, s.world.nodes t = some n ∧ n.next = none) ∧
    (q.size = 0 → q.head = none ∧ q.tail = none) := by
  obtain ⟨cells, hi⟩ := hs.inv
  have hr := hi.repr j q hq
  refine ⟨⟨(cells j).map Prod.fst, hr.nodeAddrs_eq, ?_, hr.nodup, hr.tail_eq.symm⟩, ?_, ?_⟩
  · unfold Queue.size
    rw [hr.size_eq, List.length_map]
  · intro t ht
    exact hr.linked.last_next (hr.tail_eq ▸ ht)
  · intro h0
    have hc : cells j = [] := hr.size_zero_iff.mp h0
    exact ⟨hr.head_none_iff.mpr hc, hr.tail_none_iff.mpr hc⟩

/-- Witness of C4: the copy (queue 1) of `sharedProgram` after one of its two nodes has been
popped. -/
theorem C4_chain_shape_witness :
    (∃ ns, walk (Machine.after sharedProgram).world poppedCopy.size poppedCopy.head = some ns ∧
      ns.length = poppedCopy.size ∧ ns.Nodup ∧ ns.getLast? = poppedCopy.tail) ∧
    (∀ t, poppedCopy.tail = some t →
      ∃ n, (Machine.after sharedProgram).world.nodes t = some n ∧ n.next = none) ∧
    (poppedCopy.size = 0 → poppedCopy.head = none ∧ poppedCopy.tail = none) :=
  C4_chain_shape (Machine.after sharedProgram) (Reachable.after _) 1 poppedCopy (by rfl)

/-! ## C5, C6: when pop, front and back fail -/

/-- C5. For every empty queue (one whose `head` is null), in any memory, `pop()`, `front()`
and `back()` each fail with `EmptyQueue`; `pop()` leaves the queue object and the whole
memory as they were, so `head`, `tail` and `size_` are unchanged and no `allocate` or
`deallocate` call is recorded. `front()` and `back()` write to nothing. -/
theorem C5_empty_queue_errors {T : Type} [NodeLayout T] (w : World T) (q : Queue)
    (h : q.empty = true) :
    (q.pop w).error = some Error.EmptyQueue ∧ (q.pop w).queue = q ∧ (q.pop w).world = w ∧
    (q.pop w).world.calls = w.calls ∧
    q.front w = .error Error.EmptyQueue ∧ q.back w = .error Error.EmptyQueue := by
  have hh : q.head = none := by
    unfold Queue.empty at h
    exact Option.isNone_iff_eq_none.mp h
  rw [Queue.pop_of_empty w q hh]
  refine ⟨rfl, rfl, rfl, rfl, ?_, ?_⟩
  · simp [Queue.front, hh]
  · simp [Queue.back, hh]

/-- Witness of C5: the queue of `emptiedProgram`, emptied by `pop` and bound to a
`BlockMemoryResource` that has one free block. -/
theorem C5_empty_queue_errors_witness :
    (emptyQueue.pop (Machine.after emptiedProgram).world).error = some Error.EmptyQueue ∧
    (emptyQueue.pop (Machine.after emptiedProgram).world).queue = emptyQueue ∧
    (emptyQueue.pop (Machine.after emptiedProgram).world).world
      = (Machine.after emptiedProgram).world ∧
    (emptyQueue.pop (Machine.after emptiedProgram).world).world.calls
      = (Machine.after emptiedProgram).world.calls ∧
    emptyQueue.front (Machine.after emptiedProgram).world = .error Error.EmptyQueue ∧
    emptyQueue.back (Machine.after emptiedProgram).world = .error Error.EmptyQueue :=
  C5_empty_queue_errors (Machine.after emptiedProgram).world emptyQueue (by rfl)

theorem Queue.pop_error_eq {T : Type} [NodeLayout T] (w : World T) (q : Queue) {h : Addr}
    {n : QueueNode T} (hh : q.head = some h) (hn : w.nodes h = some n) :
    (q.pop w).error =
      (World.deallocate { w with nodes := Function.update w.nodes h none } q.allocator h
        (NodeLayout.nodeBytes T)).1 := by
  simp only [Queue.pop, hh, hn]
  cases (World.deallocate { w with nodes := Function.update w.nodes h none } q.allocator h
    (NodeLayout.nodeBytes T)).1 <;> rfl

/-- C6. In every reachable program state (queues bound to `BlockMemoryResource` instances,
possibly shared by several queues, or to the default resource), `pop()` raises an exception
if and only if the queue is empty. On a non-empty queue the `deallocate` call that `pop()`
makes on the former head does not raise `UnknownBlock`, `pop()` returns normally, `head` is
the former second node and `size()` is one less. -/
theorem C6_pop_fails_iff_empty {T : Type} [NodeLayout T] (s : Machine T) (hs : Reachable s)
    (j : Nat) (q : Queue) (hq : s.queues j = some q) :
    ((q.pop s.world).error ≠ none ↔ q.empty = true) ∧
    (q.empty = false →
      ∃ h n, q.head = some h ∧ s.world.nodes h = some n ∧
        (World.deallocate { s.world with nodes := Function.update s.world.nodes h none }
          q.allocator h (NodeLayout.nodeBytes T)).1 = none ∧
        (q.pop s.world).error = none ∧
        (q.pop s.world).queue.head = n.next ∧
        (q.pop s.world).queue.size + 1 = q.size) := by
  obtain ⟨cells, hi⟩ := hs.inv
  have hr := hi.repr j q hq
  cases hc : cells j with
  | nil =>
    rw [hc] at hr
    have hh : q.head = none := hr.linked
    have he : q.empty = true := by simp [Queue.empty, hh]
    refine ⟨?_, ?_⟩
    · rw [Queue.pop_of_empty _ _ hh]
      simp [he]
    · intro h
      rw [he] at h
      cases h
  | cons c cs =>
    rw [hc] at hr
    have hh : q.head = some c.1 := hr.linked.1
    have he : q.empty = false := by simp [Queue.empty, hh]
    obtain ⟨hpe, _, _, _, ⟨n, hn, hnx⟩, hsz, _⟩ := Queue.pop_spec hi.sound hr
    refine ⟨?_, ?_⟩
    · rw [hpe, he]
      simp
    · intro _
      refine ⟨c.1, n, hh, hn, ?_, hpe, hnx, hsz⟩
      rw [← Queue.pop_error_eq s.world q hh hn]
      exact hpe

/-- Witness of C6: popping the copy (queue 1) of `copyProgram` while the original is bound
to the same `BlockMemoryResource`. -/
theorem C6_pop_fails_iff_empty_witness :
    ∃ h n, copiedQueue.head = some h ∧ (Machine.after copyProgram).world.nodes h = some n ∧
      (World.deallocate
        { (Machine.after copyProgram).world with
          nodes := Function.update (Machine.after copyProgram).world.nodes h none }
        copiedQueue.allocator h (NodeLayout.nodeBytes Int)).1 = none ∧
      (copiedQueue.pop (Machine.after copyProgram).world).error = none ∧
      (copiedQueue.pop (Machine.after copyProgram).world).queue.head = n.next ∧
      (copiedQueue.pop (Machine.after copyProgram).world).queue.size + 1 = copiedQueue.size :=
  (C6_pop_fails_iff_empty (Machine.after copyProgram) (Reachable.after _) 1 copiedQueue
    (by rfl)).2 (by rfl)

/-! ## C7: copy construction -/

/-- C7. For every queue `q` of a reachable program state, copy construction (given at least
`size()` distinct fresh answers of the system allocator) returns normally; the new queue has
the same size and the same elements in the same head-to-tail order as `q`, it is bound to
the same memory resource as `q`, and the elements of `q` and their order are the same after
the copy as before (the object `q` itself is passed by const reference). -/
theorem C7_copy_same_elements {T : Type} [NodeLayout T] (s : Machine T) (hs : Reachable s)
    (j : Nat) (q : Queue) (hq : s.queues j = some q) (answers : List Addr)
    (hnd : answers.Nodup) (hfresh : ∀ a ∈ answers, s.world.freshAnswer a)
    (hlen : q.size ≤ answers.length) :
    ∃ r xs, Queue.copy answers s.world q = some r ∧ r.error = none ∧
      q.toList s.world = some (.ok xs) ∧
      r.queue.size = q.size ∧
      r.queue.toList r.world = some (.ok xs) ∧
      r.queue.get_allocator = q.get_allocator ∧
      q.toList r.world = some (.ok xs) := by
  obtain ⟨cells, hi⟩ := hs.inv
  have hr := hi.repr j q hq
  obtain ⟨htot, hpart⟩ := Queue.copy_spec hi.sound hr answers hnd hfresh
  have hlen' : (cells j).length ≤ answers.length := by
    rw [← hr.size_eq]; exact hlen
  obtain ⟨r, hcopy⟩ := htot hlen'
  obtain ⟨cells1, he, hr1, hdat, heff, hal, _⟩ := hpart r hcopy
  have hrq : q.Repr r.world (cells j) := hr.frame heff.frame (fun a _ => by simp)
  refine ⟨r, (cells j).map Prod.snd, hcopy, he, hr.toList_eq, ?_, ?_, hal, hrq.toList_eq⟩
  · unfold Queue.size
    rw [hr1.size_eq, hr.size_eq]
    have := congrArg List.length hdat
    simpa using this
  · rw [hr1.toList_eq, hdat]

/-- Witness of C7: copying the two-element queue of `twoPushes`. -/
theorem C7_copy_same_elements_witness :
    ∃ r xs, Queue.copy [4160, 4192] (Machine.after twoPushes).world originalQueue = some r ∧
      r.error = none ∧
      originalQueue.toList (Machine.after twoPushes).world = some (.ok xs) ∧
      r.queue.size = originalQueue.size ∧
      r.queue.toList r.world = some (.ok xs) ∧
      r.queue.get_allocator = originalQueue.get_allocator ∧
      originalQueue.toList r.world = some (.ok xs) :=
  C7_copy_same_elements (Machine.after twoPushes) (Reachable.after _) 0 originalQueue
    (by rfl) [4160, 4192] (by decide) (by decide) (by decide)

/-! ## C8: independence of a copy -/

theorem Machine.step_queues_frame {T : Type} [NodeLayout T] {s s1 : Machine T} {op : Op T}
    {e : Option Error} (hstep : s.step op = some (s1, e)) {k : Nat} (hk : k ∉ op.targets) :
    s1.queues k = s.queues k := by
  cases op with
  | construct j mr =>
    simp only [Machine.step] at hstep
    cases hq : s.queues j with
    | some q => simp [hq] at hstep
    | none =>
      simp only [hq, Option.some.injEq, Prod.mk.injEq] at hstep
      obtain ⟨rfl, _⟩ := hstep
      exact update_eq_of_not_mem (List.mem_singleton.mpr rfl) k hk
  | push j built answer =>
    simp only [Machine.step] at hstep
    cases hq : s.queues j with
    | none => simp [hq] at hstep
    | some q =>
      simp only [hq] at hstep
      obtain ⟨rfl, _⟩ := Machine.settle_eq hstep
      exact update_eq_of_not_mem (List.mem_singleton.mpr rfl) k hk
  | pop j =>
    simp only [Machine.step] at hstep
    cases hq : s.queues j with
    | none => simp [hq] at hstep
    | some q =>
      simp only [hq] at hstep
      obtain ⟨rfl, _⟩ := Machine.settle_eq hstep
      exact update_eq_of_not_mem (List.mem_singleton.mpr rfl) k hk
  | clear j fuel =>
    simp only [Machine.step] at hstep
    cases hq : s.queues j with
    | none => simp [hq] at hstep
    | some q =>
      simp only [hq] at hstep
      cases hcl : Queue.clear fuel s.world q with
      | none => simp [hcl] at hstep
      | some r =>
        simp only [hcl] at hstep
        obtain ⟨rfl, _⟩ := Machine.settle_eq hstep
        exact update_eq_of_not_mem (List.mem_singleton.mpr rfl) k hk
  | copy j src answers =>
    simp only [Machine.step] at hstep
    cases hq : s.queues j with
    | some q => simp [hq] at hstep
    | none =>
      cases hsrc : s.queues src with
      | none => simp [hq, hsrc] at hstep
      | some other =>
        simp only [hq, hsrc] at hstep
        cases hcp : Queue.copy answers s.world other with
        | none => simp [hcp] at hstep
        | some r =>
          simp only [hcp] at hstep
          cases hre : r.error with
          | none =>
            simp only [hre, Option.some.injEq, Prod.mk.injEq] at hstep
            obtain ⟨rfl, _⟩ := hstep
            exact update_eq_of_not_mem (List.mem_singleton.mpr rfl) k hk
          | some err =>
            cases err <;> simp only [hre, Option.some.injEq, Prod.mk.injEq] at hstep
            all_goals first
              | (obtain ⟨rfl, _⟩ := hstep; rfl)
              | cases hstep
  | move j src =>
    simp only [Machine.step] at hstep
    cases hq : s.queues j with
    | some q => simp [hq] at hstep
    | none =>
      cases hsrc : s.queues src with
      | none => simp [hq, hsrc] at hstep
      | some other =>
        simp only [hq, hsrc, Option.some.injEq, Prod.mk.injEq] at hstep
        obtain ⟨rfl, _⟩ := hstep
        simp only [Op.targets, List.mem_cons, List.mem_singleton, List.not_mem_nil, or_false,
          not_or] at hk
        dsimp only
        rw [Function.update_noteq hk.1, Function.update_noteq hk.2]
  | destroy j fuel =>
    simp only [Machine.step] at hstep
    cases hq : s.queues j with
    | none => simp [hq] at hstep
    | some q =>
      simp only [hq] at hstep
      cases hcl : Queue.clear fuel s.world q with
      | none => simp [hcl] at hstep
      | some r =>
        simp only [hcl] at hstep
        by_cases hre : r.error = none
        · simp only [hre, if_true, Option.some.injEq, Prod.mk.injEq] at hstep
          obtain ⟨rfl, _⟩ := hstep
          exact update_eq_of_not_mem (List.mem_singleton.mpr rfl) k hk
        · simp [hre] at hstep

/-- Statements that do not write to queue `k` leave its object and its cells as they are. -/
theorem Machine.Inv.exec_frame {T : Type} [NodeLayout T] {ops : List (Op T)} {k : Nat} :
    ∀ {s s2 : Machine T} {cells : Nat → List (Addr × T)}, s.Inv cells →
      (∀ op ∈ ops, k ∉ op.targets) → s.exec ops = some s2 →
      s2.queues k = s.queues k ∧ ∃ cells2, s2.Inv cells2 ∧ cells2 k = cells k := by
  induction ops with
  | nil =>
    intro s s2 cells hi _ h
    simp only [Machine.exec, Option.some.injEq] at h
    subst h
    exact ⟨rfl, cells, hi, rfl⟩
  | cons op ops ih =>
    intro s s2 cells hi hops h
    rw [Machine.exec] at h
    by_cases ha : op.admissible s
    · simp only [ha, if_true] at h
      cases hstep : s.step op with
      | none => simp [hstep] at h
      | some r =>
        obtain ⟨s1, e⟩ := r
        simp only [hstep] at h
        have hk : k ∉ op.targets := hops op (by simp)
        obtain ⟨cells1, hi1, hc1⟩ := hi.step ha hstep
        obtain ⟨hq2, cells2, hi2, hc2⟩ :=
          ih hi1 (fun o ho => hops o (List.mem_cons_of_mem _ ho)) h
        exact ⟨hq2.trans (Machine.step_queues_frame hstep hk), cells2, hi2,
          hc2.trans (hc1 k hk)⟩
    · simp [ha] at h

/-- In a reachable state every `push`, `pop` and `clear` on an existing queue has a defined
successor state: `push` whenever the answer of the system allocator is fresh, `clear` whenever
it is given fuel for `size()` pops. -/
theorem Reachable.step_defined {T : Type} [NodeLayout T] {s : Machine T} (hs : Reachable s)
    {k : Nat} {q : Queue} (hq : s.queues k = some q) :
    (∀ built answer, s.world.freshAnswer answer →
      ∃ r, s.step (.push k built answer) = some r) ∧
    (∃ r, s.step (.pop k) = some r) ∧
    (∀ fuel, q.size ≤ fuel → ∃ r, s.step (.clear k fuel) = some r) := by
  obtain ⟨cells, hi⟩ := hs.inv
  have hr := hi.repr k q hq
  refine ⟨?_, ?_, ?_⟩
  · intro built answer hf
    cases built with
    | none =>
      obtain ⟨he, _⟩ := Queue.push_fail_spec hi.sound hr answer hf
      simp [Machine.step, hq, Machine.settle, he]
    | some v =>
      obtain ⟨p, he, _⟩ := Queue.push_spec hi.sound hr v answer hf
      simp [Machine.step, hq, Machine.settle, he]
  · cases hc : cells k with
    | nil =>
      rw [hc] at hr
      have hh : q.head = none := hr.linked
      simp [Machine.step, hq, Machine.settle, Queue.pop_of_empty _ _ hh]
    | cons c cs =>
      rw [hc] at hr
      obtain ⟨he, _⟩ := Queue.pop_spec hi.sound hr
      simp [Machine.step, hq, Machine.settle, he]
  · intro fuel hfuel
    have hfuel' : (cells k).length ≤ fuel := by
      rw [← hr.size_eq]; exact hfuel
    obtain ⟨r, hcl, he, _⟩ := Queue.clear_spec hi.sound hr fuel hfuel'
    simp [Machine.step, hq, Machine.settle, hcl, he]

/-- C8. Copy independence. Let queue `j` be copy-constructed from queue `src` in a reachable
program state. Then no node address of the copy is a node address of the original, and any
further statements that are applied to one of the two (or to any queue but the other one,
written `watched`) leave the other one as it is: the same object, hence the same size, and the
same elements in the same order. (Each push, pop or clear on an existing queue has a
successor state, see `Reachable.step_defined`.) -/
theorem C8_copy_independent {T : Type} [NodeLayout T] (s : Machine T) (hs : Reachable s)
    (j src : Nat) (answers : List Addr) (hadm : (Op.copy j src answers).admissible s)
    (s1 : Machine T) (e : Option Error) (hcopy : s.step (.copy j src answers) = some (s1, e))
    (watched : Nat) (hw : watched = j ∨ watched = src)
    (ops : List (Op T)) (hops : ∀ op ∈ ops, watched ∉ op.targets)
    (s2 : Machine T) (hrun : s1.exec ops = some s2) :
    (∃ q c nq nc, s1.queues src = some q ∧ s1.queues j = some c ∧
      q.nodeAddrs s1.world = some nq ∧ c.nodeAddrs s1.world = some nc ∧
      ∀ a ∈ nc, a ∉ nq) ∧
    (∃ q xs, s1.queues watched = some q ∧ s2.queues watched = some q ∧
      q.size = xs.length ∧
      q.toList s1.world = some (.ok xs) ∧ q.toList s2.world = some (.ok xs)) := by
  obtain ⟨cells, hi⟩ := hs.inv
  obtain ⟨cells1, hi1, _⟩ := hi.step hadm hcopy
  -- the two queues exist after the copy
  have hex : ∃ q c, s1.queues src = some q ∧ s1.queues j = some c ∧ j ≠ src := by
    simp only [Machine.step] at hcopy
    cases hq : s.queues j with
    | some q => simp [hq] at hcopy
    | none =>
      cases hsrc : s.queues src with
      | none => simp [hq, hsrc] at hcopy
      | some other =>
        simp only [hq, hsrc] at hcopy
        cases hcp : Queue.copy answers s.world other with
        | none => simp [hcp] at hcopy
        | some r =>
          obtain ⟨_, h2⟩ :=
            Queue.copy_spec hi.sound (hi.repr src other hsrc) answers hadm.1 hadm.2
          obtain ⟨_, hre, _⟩ := h2 r hcp
          simp only [hcp, hre, Option.some.injEq, Prod.mk.injEq] at hcopy
          obtain ⟨rfl, _⟩ := hcopy
          have hjs : j ≠ src := by
            intro h
            rw [h, hsrc] at hq
            cases hq
          refine ⟨other, r.queue, ?_, ?_, hjs⟩
          · dsimp only
            rw [Function.update_noteq (Ne.symm hjs)]
            exact hsrc
          · dsimp only
            rw [Function.update_same]
  obtain ⟨q, c, hq1, hc1, hjs⟩ := hex
  have hrq := hi1.repr src q hq1
  have hrc := hi1.repr j c hc1
  refine ⟨⟨q, c, _, _, hq1, hc1, hrq.nodeAddrs_eq, hrc.nodeAddrs_eq, ?_⟩, ?_⟩
  · intro a ha
    exact hi1.apart j src hjs a ha
  · obtain ⟨hq2, cells2, hi2, hc2⟩ := hi1.exec_frame hops hrun
    have hexw : ∃ qw, s1.queues watched = some qw := by
      rcases hw with h | h
      · exact ⟨c, h ▸ hc1⟩
      · exact ⟨q, h ▸ hq1⟩
    obtain ⟨qw, hqw⟩ := hexw
    have hr1 := hi1.repr watched qw hqw
    have hr2 := hi2.repr watched qw (hq2.trans hqw)
    rw [hc2] at hr2
    refine ⟨qw, (cells1 watched).map Prod.snd, hqw, hq2.trans hqw, ?_, hr1.toList_eq,
      hr2.toList_eq⟩
    unfold Queue.size
    rw [hr1.size_eq, List.length_map]

/-- Witness of C8: the copy of `copyProgram` is pushed to, popped and cleared while the
original (queue 0) is watched. -/
theorem C8_copy_independent_witness :
    (∃ q c nq nc, (Machine.after copyProgram).queues 0 = some q ∧
      (Machine.after copyProgram).queues 1 = some c ∧
      q.nodeAddrs (Machine.after copyProgram).world = some nq ∧
      c.nodeAddrs (Machine.after copyProgram).world = some nc ∧
      ∀ a ∈ nc, a ∉ nq) ∧
    (∃ q xs, (Machine.after copyProgram).queues 0 = some q ∧
      (Machine.after (copyProgram ++ [.push 1 (some 7) 4224, .pop 1, .clear 1 5])).queues 0
        = some q ∧
      q.size = xs.length ∧
      q.toList (Machine.after copyProgram).world = some (.ok xs) ∧
      q.toList (Machine.after (copyProgram ++ [.push 1 (some 7) 4224, .pop 1, .clear 1 5])).world
        = some (.ok xs)) :=
  C8_copy_independent (Machine.after twoPushes) (Reachable.after _) 1 0 [4160, 4192]
    (by decide) (Machine.after copyProgram) none (by rfl) 0 (Or.inr rfl)
    [.push 1 (some 7) 4224, .pop 1, .clear 1 5] (by decide)
    (Machine.after (copyProgram ++ [.push 1 (some 7) 4224, .pop 1, .clear 1 5])) (by rfl)

/-! ## C9: move construction -/

/-- C9. For every queue `q` (named `src`) of a reachable program state, move construction
of a new queue `j` returns normally and yields a destination whose `head`, `tail`, `size_`
and memory resource are exactly the former ones of `q`, so that it holds the former elements
of `q` in their original order; it leaves the source with `head = tail = null` and size 0;
it leaves the whole memory as it was, so that no call is made on a memory resource, the
in-use and free collections are unchanged and no node is written; and every other queue
object is unchanged. -/
theorem C9_move_transfers {T : Type} [NodeLayout T] (s : Machine T) (hs : Reachable s)
    (j src : Nat) (q : Queue) (hq : s.queues src = some q) (hj : s.queues j = none) :
    ∃ s1, s.step (.move j src) = some (s1, none) ∧
      s1.queues j = some (Queue.mk q.head q.tail q.size_ q.allocator) ∧
      s1.queues src = some (Queue.mk none none 0 q.allocator) ∧
      s1.world = s.world ∧
      s1.world.calls = s.world.calls ∧
      s1.world.resources = s.world.resources ∧
      s1.world.nodes = s.world.nodes ∧
      (∃ xs, q.toList s.world = some (.ok xs) ∧
        (Queue.mk q.head q.tail q.size_ q.allocator).toList s1.world = some (.ok xs)) ∧
      (∀ k, k ≠ j → k ≠ src → s1.queues k = s.queues k) := by
  obtain ⟨cells, hi⟩ := hs.inv
  have hr := hi.repr src q hq
  have hjs : j ≠ src := by
    intro h
    rw [h, hq] at hj
    cases hj
  refine ⟨{ world := s.world,
             queues := Function.update (Function.update s.queues src (some (Queue.move q).2))
               j (some (Queue.move q).1) },
    ?_, ?_, ?_, rfl, rfl, rfl, rfl, ⟨(cells src).map Prod.snd, hr.toList_eq, ?_⟩, ?_⟩
  · simp only [Machine.step, hq, hj]
  · dsimp only
    rw [Function.update_same]
    rfl
  · dsimp only
    rw [Function.update_noteq (Ne.symm hjs), Function.update_same]
    rfl
  · exact hr.toList_eq
  · intro k hkj hks
    dsimp only
    rw [Function.update_noteq hkj, Function.update_noteq hks]

/-- Witness of C9: in `copyProgram`, queue 2 is move-constructed from queue 0 while its copy,
queue 1, exists. -/
theorem C9_move_transfers_witness :
    ∃ s1, (Machine.after copyProgram).step (.move 2 0) = some (s1, none) ∧
      s1.queues 2 = some originalQueue ∧
      s1.queues 0 = some emptyQueue ∧
      s1.world = (Machine.after copyProgram).world ∧
      s1.world.calls = (Machine.after copyProgram).world.calls ∧
      s1.world.resources = (Machine.after copyProgram).world.resources ∧
      s1.world.nodes = (Machine.after copyProgram).world.nodes ∧
      (∃ xs, originalQueue.toList
          (Machine.after copyProgram).world = some (.ok xs) ∧
        originalQueue.toList s1.world = some (.ok xs)) ∧
      (∀ k, k ≠ 2 → k ≠ 0 → s1.queues k = (Machine.after copyProgram).queues k) :=
  C9_move_transfers (Machine.after copyProgram) (Reachable.after _) 2 0
    originalQueue (by rfl) (by rfl)

/-! ## C10: forward iteration -/

/-- C10. For every queue of a reachable program state, the loop from `begin()` with
`operator++` until the iterator equals `end()` terminates after exactly `size()` steps (it
finishes within any bound of at least `size()` iterations and within no smaller one), and
the values dereferenced are the elements of the queue in head-to-tail order, that is, the
values that `front()` gives when the queue is popped `size()` times. In particular, after
push 10, 20, 30, 40, 50, pop, pop, push 60, push 70 the iteration yields
`[30, 40, 50, 60, 70]`. -/
theorem C10_iteration_order :
    (∀ {T : Type} [NodeLayout T] (s : Machine T), Reachable s →
      ∀ (j : Nat) (q : Queue), s.queues j = some q →
        ∃ xs : List T,
          (∀ fuel, q.size ≤ fuel → iterate s.world q.end fuel q.begin = some (.ok xs)) ∧
          (∀ fuel, fuel < q.size → iterate s.world q.end fuel q.begin = none) ∧
          xs.length = q.size ∧
          (drain s.world q q.size).1 = xs.map Except.ok) ∧
    (∃ q, (Machine.after demoProgram).queues 0 = some q ∧
      iterate (Machine.after demoProgram).world q.end q.size q.begin
        = some (.ok [30, 40, 50, 60, 70])) := by
  constructor
  · intro T _ s hs j q hq
    obtain ⟨cells, hi⟩ := hs.inv
    have hr := hi.repr j q hq
    have hsz : q.size = (cells j).length := hr.size_eq
    refine ⟨(cells j).map Prod.snd, ?_, ?_, ?_, ?_⟩
    · intro fuel hfuel
      unfold Queue.end Queue.begin
      rw [iterate_of_linked hr.linked, if_pos (hsz ▸ hfuel)]
    · intro fuel hfuel
      unfold Queue.end Queue.begin
      rw [iterate_of_linked hr.linked, if_neg (by omega)]
    · rw [List.length_map, hsz]
    · obtain ⟨h1, _⟩ := drain_spec q.size hi.sound hr (le_of_eq hsz)
      rw [h1, hsz, List.take_length]
      simp
  · exact ⟨demoQueue, by decide!, by decide!⟩

/-- Witness of C10: the general part at the queue of `demoProgram`. -/
theorem C10_iteration_order_witness :
    ∃ xs : List Int,
      (∀ fuel, demoQueue.size ≤ fuel →
        iterate (Machine.after demoProgram).world
          demoQueue.end fuel
          demoQueue.begin = some (.ok xs)) ∧
      (∀ fuel, fuel < demoQueue.size →
        iterate (Machine.after demoProgram).world
          demoQueue.end fuel
          demoQueue.begin = none) ∧
      xs.length = demoQueue.size ∧
      (drain (Machine.after demoProgram).world
        demoQueue
        demoQueue.size).1 = xs.map Except.ok :=
  C10_iteration_order.1 (Machine.after demoProgram) (Reachable.after _) 0
    demoQueue (by rfl)

/-! ## C11: front and back -/

/-- C11. After any interleaving of pushes and pops on a newly constructed queue (no pop on an
empty queue) that leaves it non-empty, `front()` returns the oldest value pushed and not yet
popped and `back()` the most recently pushed one. For every non-empty queue of a reachable
program state, `front()` returns the first and `back()` the last element in head-to-tail
order; a push leaves `front()` unchanged and makes `back()` the pushed value; and on a
one-element queue `front()` and `back()` are the same element, `head` and `tail` being the
same node. -/
theorem C11_front_back :
    (∀ {T : Type} [NodeLayout T] (s : Machine T), Reachable s →
      ∀ (mr : MemoryResourceRef) (ops : List (QueueOp T)),
        Queue.answersFresh s.world (Queue.new mr) ops →
        (∀ i, i ≤ ops.length → countPop (ops.take i) ≤ countPush (ops.take i)) →
        ∀ x y, (pendingFrom [] ops).head? = some x → (pendingFrom [] ops).getLast? = some y →
          (Queue.runOps s.world (Queue.new mr) ops).queue.front
              (Queue.runOps s.world (Queue.new mr) ops).world = .ok x ∧
          (Queue.runOps s.world (Queue.new mr) ops).queue.back
              (Queue.runOps s.world (Queue.new mr) ops).world = .ok y) ∧
    (∀ {T : Type} [NodeLayout T] (s : Machine T), Reachable s →
      ∀ (j : Nat) (q : Queue), s.queues j = some q → q.empty = false →
        (∃ x xs y, q.toList s.world = some (.ok (x :: xs)) ∧ (x :: xs).getLast? = some y ∧
          q.front s.world = .ok x ∧ q.back s.world = .ok y) ∧
        (∀ (v : T) (answer : Addr), s.world.freshAnswer answer →
          (q.push s.world (some v) answer).error = none ∧
          (q.push s.world (some v) answer).queue.front (q.push s.world (some v) answer).world
            = q.front s.world ∧
          (q.push s.world (some v) answer).queue.back (q.push s.world (some v) answer).world
            = .ok v) ∧
        (q.size = 1 → q.head = q.tail ∧ q.front s.world = q.back s.world)) := by
  constructor
  · intro T _ s hs mr ops hfresh hpre x y hx hy
    obtain ⟨cells, hi⟩ := hs.inv
    obtain ⟨_, cells1, hr, hdat⟩ :=
      Queue.runOps_pending hi.sound (Queue.Repr.new s.world mr) hfresh
        (fun i hi' => by simpa using hpre i hi')
    simp only [List.map_nil] at hdat
    rw [← hdat] at hx hy
    constructor
    · cases cells1 with
      | nil => simp at hx
      | cons c cs =>
        simp only [List.map_cons, List.head?_cons, Option.some.injEq] at hx
        rw [hr.front_eq, hx]
    · rw [List.getLast?_map] at hy
      obtain ⟨c, hc, hcy⟩ := Option.map_eq_some'.mp hy
      rw [hr.back_eq hc, hcy]
  · intro T _ s hs j q hq hne
    obtain ⟨cells, hi⟩ := hs.inv
    have hr := hi.repr j q hq
    have hhead : q.head ≠ none := by
      intro h
      simp [Queue.empty, h] at hne
    cases hc : cells j with
    | nil => exact absurd (hr.head_none_iff.mpr hc) hhead
    | cons c cs =>
      rw [hc] at hr
      have hfront : q.front s.world = .ok c.2 := hr.front_eq
      obtain ⟨d, hd⟩ : ∃ d, (c :: cs).getLast? = some d :=
        ⟨_, List.getLast?_eq_getLast _ (by simp)⟩
      have hback : q.back s.world = .ok d.2 := hr.back_eq hd
      refine ⟨⟨c.2, cs.map Prod.snd, d.2, ?_, ?_, hfront, hback⟩, ?_, ?_⟩
      · rw [hr.toList_eq]
        rfl
      · have : c.2 :: cs.map Prod.snd = (c :: cs).map Prod.snd := rfl
        rw [this, List.getLast?_map, hd]
        rfl
      · intro v answer hf
        obtain ⟨p, he, hr1, _⟩ := Queue.push_spec hi.sound hr v answer hf
        refine ⟨he, ?_, ?_⟩
        · have hr1' : (q.push s.world (some v) answer).queue.Repr
              (q.push s.world (some v) answer).world (c :: (cs ++ [(p, v)])) := hr1
          rw [hr1'.front_eq, hfront]
        · exact hr1.back_eq (List.getLast?_concat _)
      · intro hsize
        have hlen : (c :: cs).length = 1 := by
          rw [← hr.size_eq]; exact hsize
        have hcs : cs = [] := by
          cases cs with
          | nil => rfl
          | cons e es => simp at hlen
        subst hcs
        have hh : q.head = some c.1 := hr.linked.1
        have ht : q.tail = some c.1 := hr.tail_eq
        simp only [List.getLast?_singleton, Option.some.injEq] at hd
        subst hd
        exact ⟨hh.trans ht.symm, hfront.trans hback.symm⟩

/-- Witness of C11: after push 10, 20, 30 and one pop on a new queue, `front()` is 20 and
`back()` is 30; the queue of `demoProgram`, with one more push; and the one-element queue 1
of `sharedProgram`. -/
theorem C11_front_back_witness :
    ((Queue.runOps (Machine.initial Int).world (Queue.new (.block 0)) frontBackOps).queue.front
        (Queue.runOps (Machine.initial Int).world (Queue.new (.block 0)) frontBackOps).world
        = .ok 20 ∧
      (Queue.runOps (Machine.initial Int).world (Queue.new (.block 0)) frontBackOps).queue.back
        (Queue.runOps (Machine.initial Int).world (Queue.new (.block 0)) frontBackOps).world
        = .ok 30) ∧
    ((demoQueue.push (Machine.after demoProgram).world (some 80) 4320).error = none ∧
      (demoQueue.push (Machine.after demoProgram).world (some 80) 4320).queue.front
          (demoQueue.push (Machine.after demoProgram).world (some 80) 4320).world
        = demoQueue.front (Machine.after demoProgram).world ∧
      (demoQueue.push (Machine.after demoProgram).world (some 80) 4320).queue.back
          (demoQueue.push (Machine.after demoProgram).world (some 80) 4320).world
        = .ok 80) ∧
    (poppedCopy.head = poppedCopy.tail ∧
      poppedCopy.front (Machine.after sharedProgram).world
        = poppedCopy.back (Machine.after sharedProgram).world) :=
  ⟨C11_front_back.1 (Machine.initial Int) Reachable.initial (.block 0) frontBackOps
      (by decide) (by decide) 20 30 (by decide) (by decide),
   (C11_front_back.2 (Machine.after demoProgram) (Reachable.after _) 0 demoQueue
      (by decide!) (by decide)).2.1 80 4320 (by decide!),
   (C11_front_back.2 (Machine.after sharedProgram) (Reachable.after _) 1 poppedCopy
      (by rfl) (by decide)).2.2 (by rfl)⟩

/-! ## C12: clear -/

/-- C12. For every queue of a reachable program state (bound to a `BlockMemoryResource` or
to the default resource), `clear()` terminates after exactly `size()` pops: it returns within
any bound of at least `size()` pops and within no smaller one, and the calls it makes on the
memory resource are exactly one `deallocate` for each node, head first. It raises no error
and leaves the queue in the Empty state (`head = tail = null`, `size() = 0`), where another
`clear()` changes nothing. Applied to an already-empty queue it changes nothing. -/
theorem C12_clear_empties {T : Type} [NodeLayout T] (s : Machine T) (hs : Reachable s)
    (j : Nat) (q : Queue) (hq : s.queues j = some q) :
    (∀ fuel, q.size ≤ fuel →
      ∃ r ns, Queue.clear fuel s.world q = some r ∧ r.error = none ∧
        r.queue.head = none ∧ r.queue.tail = none ∧ r.queue.size = 0 ∧
        q.nodeAddrs s.world = some ns ∧ ns.length = q.size ∧
        r.world.calls = s.world.calls ++
          ns.map (fun a => Call.deallocate q.allocator a (NodeLayout.nodeBytes T)) ∧
        (∀ fuel2, Queue.clear fuel2 r.world r.queue =
          some { error := none, world := r.world, queue := r.queue })) ∧
    (∀ fuel, fuel < q.size → Queue.clear fuel s.world q = none) ∧
    (q.empty = true → ∀ fuel, Queue.clear fuel s.world q =
      some { error := none, world := s.world, queue := q }) := by
  obtain ⟨cells, hi⟩ := hs.inv
  have hr := hi.repr j q hq
  have hsz : q.size = (cells j).length := hr.size_eq
  refine ⟨?_, ?_, ?_⟩
  · intro fuel hfuel
    obtain ⟨r, hcl, he, hr1, _, _, _, hcalls⟩ :=
      Queue.clear_spec hi.sound hr fuel (hsz ▸ hfuel)
    have hh : r.queue.head = none := hr1.head_none_iff.mpr rfl
    refine ⟨r, (cells j).map Prod.fst, hcl, he, hh, hr1.tail_none_iff.mpr rfl,
      hr1.size_zero_iff.mpr rfl, hr.nodeAddrs_eq, ?_, ?_, ?_⟩
    · rw [List.length_map, hsz]
    · rw [hcalls, List.map_map]
      rfl
    · intro fuel2
      exact Queue.clear_of_empty r.world r.queue (by simp [Queue.empty, hh]) fuel2
  · intro fuel hfuel
    exact Queue.clear_none_of_lt fuel hi.sound hr (hsz ▸ hfuel)
  · intro he fuel
    exact Queue.clear_of_empty s.world q he fuel

/-- Witness of C12: clearing the two-element copy of `copyProgram`, which shares its
`BlockMemoryResource` with the original, and clearing the empty queue of `emptiedProgram`. -/
theorem C12_clear_empties_witness :
    (∀ fuel, copiedQueue.size ≤ fuel →
      ∃ r ns, Queue.clear fuel (Machine.after copyProgram).world copiedQueue = some r ∧
        r.error = none ∧
        r.queue.head = none ∧ r.queue.tail = none ∧ r.queue.size = 0 ∧
        copiedQueue.nodeAddrs (Machine.after copyProgram).world = some ns ∧
        ns.length = copiedQueue.size ∧
        r.world.calls = (Machine.after copyProgram).world.calls ++
          ns.map (fun a => Call.deallocate copiedQueue.allocator a (NodeLayout.nodeBytes Int)) ∧
        (∀ fuel2, Queue.clear fuel2 r.world r.queue =
          some { error := none, world := r.world, queue := r.queue })) ∧
    (∀ fuel, fuel < copiedQueue.size →
      Queue.clear fuel (Machine.after copyProgram).world copiedQueue = none) ∧
    (∀ fuel, Queue.clear fuel (Machine.after emptiedProgram).world emptyQueue =
      some { error := none, world := (Machine.after emptiedProgram).world,
             queue := emptyQueue }) :=
  ⟨(C12_clear_empties (Machine.after copyProgram) (Reachable.after _) 1 copiedQueue
      (by rfl)).1,
   (C12_clear_empties (Machine.after copyProgram) (Reachable.after _) 1 copiedQueue
      (by rfl)).2.1,
   (C12_clear_empties (Machine.after emptiedProgram) (Reachable.after _) 0 emptyQueue
      (by rfl)).2.2 (by rfl)⟩

/-! ## C13: a push whose element constructor throws -/

/-- C13. For every queue of a reachable program state and every push whose element
construction fails, the failure propagates to the caller; the queue object (`head`, `tail`,
`size_`), every node and the element sequence are unchanged; and the node storage just
acquired is returned to the memory resource before the failure propagates: the calls made
are one `allocate` and one `deallocate` of the address acquired, and for a queue bound to a
`BlockMemoryResource` the in-use collection is the same as before the push while the block
acquired is the last one of the free collection; for a queue bound to the default resource
the live system allocations are the same as before. -/
theorem C13_failed_construction {T : Type} [NodeLayout T] (s : Machine T) (hs : Reachable s)
    (j : Nat) (q : Queue) (hq : s.queues j = some q) (answer : Addr)
    (hf : s.world.freshAnswer answer) :
    (q.push s.world none answer).error = some Error.ConstructFailure ∧
    (q.push s.world none answer).queue = q ∧
    (q.push s.world none answer).world.nodes = s.world.nodes ∧
    q.toList (q.push s.world none answer).world = q.toList s.world ∧
    (q.push s.world none answer).world.calls = s.world.calls ++
      [Call.allocate q.allocator (NodeLayout.nodeBytes T),
       Call.deallocate q.allocator
         (s.world.allocate q.allocator (NodeLayout.nodeBytes T) answer).1
         (NodeLayout.nodeBytes T)] ∧
    (∀ id, q.allocator = .block id →
      ((q.push s.world none answer).world.resources id).allocated_blocks =
        (s.world.resources id).allocated_blocks ∧
      ((q.push s.world none answer).world.resources id).free_blocks.getLast? =
        some (Block.mk (s.world.allocate q.allocator (NodeLayout.nodeBytes T) answer).1
          (NodeLayout.nodeBytes T))) ∧
    (q.allocator = .newDelete →
      (q.push s.world none answer).world.live = s.world.live ∧
      (q.push s.world none answer).world.resources = s.world.resources) := by
  obtain ⟨cells, hi⟩ := hs.inv
  have hr := hi.repr j q hq
  obtain ⟨he, hqe, hn, _, hr1, _⟩ := Queue.push_fail_spec hi.sound hr answer hf
  have hr1' : q.Repr (q.push s.world none answer).world (cells j) := hqe ▸ hr1
  refine ⟨he, hqe, hn, ?_, ?_, ?_, ?_⟩
  · rw [hr1'.toList_eq, hr.toList_eq]
  · cases hal : q.allocator with
    | newDelete =>
      simp [Queue.push, hal, World.allocate, World.deallocate, operator_new]
    | block id =>
      have hun := (World.allocate_spec s.world hi.sound (.block id)
        (NodeLayout.nodeBytes T) answer hf).2.2.1 (.block id)
      have hA : ((s.world.resources id).do_allocate s.world.live (NodeLayout.nodeBytes T)
          answer).1 ∉ (s.world.resources id).inUse := hun
      have hdd := do_allocate_do_deallocate (s.world.resources id) s.world.live
        (NodeLayout.nodeBytes T) answer (NodeLayout.nodeBytes T) hA
      simp [Queue.push, hal, World.allocate, World.deallocate, hdd]
  · intro id hal
    have hun := (World.allocate_spec s.world hi.sound (.block id)
      (NodeLayout.nodeBytes T) answer hf).2.2.1 (.block id)
    have hA : ((s.world.resources id).do_allocate s.world.live (NodeLayout.nodeBytes T)
        answer).1 ∉ (s.world.resources id).inUse := hun
    have hdd := do_allocate_do_deallocate (s.world.resources id) s.world.live
      (NodeLayout.nodeBytes T) answer (NodeLayout.nodeBytes T) hA
    simp [Queue.push, hal, World.allocate, World.deallocate, hdd]
  · intro hal
    simp [Queue.push, hal, World.allocate, World.deallocate, operator_new, operator_delete]

/-- Witness of C13: a failing push on the copy of `copyProgram`. -/
theorem C13_failed_construction_witness :
    (copiedQueue.push (Machine.after copyProgram).world none 4224).error
      = some Error.ConstructFailure ∧
    (copiedQueue.push (Machine.after copyProgram).world none 4224).queue = copiedQueue ∧
    (copiedQueue.push (Machine.after copyProgram).world none 4224).world.nodes
      = (Machine.after copyProgram).world.nodes ∧
    copiedQueue.toList (copiedQueue.push (Machine.after copyProgram).world none 4224).world
      = copiedQueue.toList (Machine.after copyProgram).world ∧
    (copiedQueue.push (Machine.after copyProgram).world none 4224).world.calls
      = (Machine.after copyProgram).world.calls ++
        [Call.allocate copiedQueue.allocator (NodeLayout.nodeBytes Int),
         Call.deallocate copiedQueue.allocator
           ((Machine.after copyProgram).world.allocate copiedQueue.allocator
             (NodeLayout.nodeBytes Int) 4224).1
           (NodeLayout.nodeBytes Int)] ∧
    (∀ id, copiedQueue.allocator = .block id →
      ((copiedQueue.push (Machine.after copyProgram).world none 4224).world.resources
          id).allocated_blocks
        = ((Machine.after copyProgram).world.resources id).allocated_blocks ∧
      ((copiedQueue.push (Machine.after copyProgram).world none 4224).world.resources
          id).free_blocks.getLast?
        = some (Block.mk ((Machine.after copyProgram).world.allocate copiedQueue.allocator
            (NodeLayout.nodeBytes Int) 4224).1 (NodeLayout.nodeBytes Int))) ∧
    (copiedQueue.allocator = .newDelete →
      (copiedQueue.push (Machine.after copyProgram).world none 4224).world.live
        = (Machine.after copyProgram).world.live ∧
      (copiedQueue.push (Machine.after copyProgram).world none 4224).world.resources
        = (Machine.after copyProgram).world.resources) :=
  C13_failed_construction (Machine.after copyProgram) (Reachable.after _) 1 copiedQueue
    (by rfl) 4224 (by decide)

/-! ## C14: assignment through a reference -/

/-- C14. For every non-empty queue of a reachable program state, assigning a new value
through the reference returned by `front()`, by `back()`, or by a dereferenced iterator that
was advanced `i < size()` times from `begin()`, succeeds and changes only that one element:
the elements are as before with the first (respectively the last, the `i`-th) replaced; the
queue object, hence `size()`, is not written to; the nodes of the queue and every `next`
pointer in memory are the same, as are the memory resources and the call trace; and the
elements of every other queue are unchanged. -/
theorem C14_assignment_frame {T : Type} [NodeLayout T] (s : Machine T) (hs : Reachable s)
    (j : Nat) (q : Queue) (hq : s.queues j = some q) (hne : q.empty = false) (value : T) :
    ∃ x xs, q.toList s.world = some (.ok (x :: xs)) ∧
      (∃ w1, q.assignFront s.world value = .ok w1 ∧
        q.toList w1 = some (.ok (value :: xs)) ∧
        q.nodeAddrs w1 = q.nodeAddrs s.world ∧ s.world.sameLinks w1 ∧
        (∀ k q1, k ≠ j → s.queues k = some q1 → q1.toList w1 = q1.toList s.world)) ∧
      (∃ w1, q.assignBack s.world value = .ok w1 ∧
        q.toList w1 = some (.ok ((x :: xs).dropLast ++ [value])) ∧
        q.nodeAddrs w1 = q.nodeAddrs s.world ∧ s.world.sameLinks w1 ∧
        (∀ k q1, k ≠ j → s.queues k = some q1 → q1.toList w1 = q1.toList s.world)) ∧
      (∀ i, i < q.size →
        ∃ it w1, QueueIterator.advance s.world i q.begin = .ok it ∧
          it.assign s.world value = .ok w1 ∧
          q.toList w1 = some (.ok ((x :: xs).set i value)) ∧
          q.nodeAddrs w1 = q.nodeAddrs s.world ∧ s.world.sameLinks w1 ∧
          (∀ k q1, k ≠ j → s.queues k = some q1 → q1.toList w1 = q1.toList s.world)) := by
  obtain ⟨cells, hi⟩ := hs.inv
  have hr := hi.repr j q hq
  have hhead : q.head ≠ none := by
    intro h
    simp [Queue.empty, h] at hne
  -- what a write at position `i`, address `a`, gives
  have key : ∀ (i : Nat) (a : Addr), ((cells j).map Prod.fst)[i]? = some a →
      ∃ w1, s.world.setData a value = some w1 ∧
        q.toList w1 = some (.ok (((cells j).map Prod.snd).set i value)) ∧
        q.nodeAddrs w1 = q.nodeAddrs s.world ∧ s.world.sameLinks w1 ∧
        (∀ k q1, k ≠ j → s.queues k = some q1 → q1.toList w1 = q1.toList s.world) := by
    intro i a ha
    obtain ⟨w1, hset, hr1, hsame, hothers⟩ := hi.setData hq i a value ha
    refine ⟨w1, hset, ?_, ?_, hsame, ?_⟩
    · rw [hr1.toList_eq, List.map_set]
    · rw [hr1.nodeAddrs_eq, hr.nodeAddrs_eq, map_fst_set_self i a value ha]
    · intro k q1 hk hq1
      rw [(hothers k q1 hk hq1).toList_eq, (hi.repr k q1 hq1).toList_eq]
  cases hc : cells j with
  | nil => exact absurd (hr.head_none_iff.mpr hc) hhead
  | cons c cs =>
    rw [hc] at hr key
    have hh : q.head = some c.1 := hr.linked.1
    refine ⟨c.2, cs.map Prod.snd, ?_, ?_, ?_, ?_⟩
    · rw [hr.toList_eq]
      rfl
    · obtain ⟨w1, hset, h1, h2, h3, h4⟩ := key 0 c.1 (by simp)
      refine ⟨w1, ?_, ?_, h2, h3, h4⟩
      · simp [Queue.assignFront, hh, hset]
      · rw [h1]
        rfl
    · have hne' : (c :: cs).map Prod.fst ≠ [] := by simp
      obtain ⟨t, htl⟩ : ∃ t, ((c :: cs).map Prod.fst).getLast? = some t :=
        ⟨_, List.getLast?_eq_getLast _ hne'⟩
      have ht : q.tail = some t := hr.tail_eq.trans htl
      have hidx : ((c :: cs).map Prod.fst)[(c :: cs).length - 1]? = some t := by
        rw [← htl, List.getLast?_eq_getElem?, List.length_map]
      obtain ⟨w1, hset, h1, h2, h3, h4⟩ := key ((c :: cs).length - 1) t hidx
      refine ⟨w1, ?_, ?_, h2, h3, h4⟩
      · simp [Queue.assignBack, hh, ht, hset]
      · rw [h1]
        have hlen : (c :: cs).length - 1 = ((c :: cs).map Prod.snd).length - 1 := by
          rw [List.length_map]
        rw [hlen, set_last_eq _ _ (by simp)]
        rfl
    · intro i hilt
      have hlt : i < ((c :: cs).map Prod.fst).length := by
        rw [List.length_map, ← hr.size_eq]
        exact hilt
      obtain ⟨a, hidx⟩ : ∃ a, ((c :: cs).map Prod.fst)[i]? = some a :=
        ⟨_, List.getElem?_eq_getElem hlt⟩
      obtain ⟨w1, hset, h1, h2, h3, h4⟩ := key i a hidx
      have hadv := QueueIterator.advance_of_linked i a hr.linked hidx
      refine ⟨_, w1, hadv, ?_, ?_, h2, h3, h4⟩
      · simp [QueueIterator.assign, hset]
      · rw [h1]
        rfl

/-- Witness of C14: the test `ModifyElements` on the five-element queue of `demoProgram`. -/
theorem C14_assignment_frame_witness :
    ∃ x xs, demoQueue.toList (Machine.after demoProgram).world = some (.ok (x :: xs)) ∧
      (∃ w1, demoQueue.assignFront (Machine.after demoProgram).world 100 = .ok w1 ∧
        demoQueue.toList w1 = some (.ok (100 :: xs)) ∧
        demoQueue.nodeAddrs w1 = demoQueue.nodeAddrs (Machine.after demoProgram).world ∧
        (Machine.after demoProgram).world.sameLinks w1 ∧
        (∀ k q1, k ≠ 0 → (Machine.after demoProgram).queues k = some q1 →
          q1.toList w1 = q1.toList (Machine.after demoProgram).world)) ∧
      (∃ w1, demoQueue.assignBack (Machine.after demoProgram).world 100 = .ok w1 ∧
        demoQueue.toList w1 = some (.ok ((x :: xs).dropLast ++ [100])) ∧
        demoQueue.nodeAddrs w1 = demoQueue.nodeAddrs (Machine.after demoProgram).world ∧
        (Machine.after demoProgram).world.sameLinks w1 ∧
        (∀ k q1, k ≠ 0 → (Machine.after demoProgram).queues k = some q1 →
          q1.toList w1 = q1.toList (Machine.after demoProgram).world)) ∧
      (∀ i, i < demoQueue.size →
        ∃ it w1, QueueIterator.advance (Machine.after demoProgram).world i demoQueue.begin
            = .ok it ∧
          it.assign (Machine.after demoProgram).world 100 = .ok w1 ∧
          demoQueue.toList w1 = some (.ok ((x :: xs).set i 100)) ∧
          demoQueue.nodeAddrs w1 = demoQueue.nodeAddrs (Machine.after demoProgram).world ∧
          (Machine.after demoProgram).world.sameLinks w1 ∧
          (∀ k q1, k ≠ 0 → (Machine.after demoProgram).queues k = some q1 →
            q1.toList w1 = q1.toList (Machine.after demoProgram).world)) :=
  C14_assignment_frame (Machine.after demoProgram) (Reachable.after _) 0 demoQueue
    (by decide!) (by decide) 100

/-! ## C15: block reuse -/

/-- C15, counterexample. With two fitting blocks in the free collection of a reachable
allocator, `allocate(100)` returns the first one, 4096; after `deallocate(4096)` that block
is the last one of the free collection, and `allocate(100)` returns the other block, 8192. -/
theorem C15_counterexample :
    ((Allocator.afterCalls twoFreeBlocks).calls
        [.allocate 100 12288, .deallocate 4096 100, .allocate 100 16384]).2
      = [.address 4096, .done, .address 8192] := by
  decide

/-- C15, amended. Block reuse: for every `BlockMemoryResource` state and every size `n`, if
`allocate(n)` returns an address `A` that was not in use before the call and afterwards the
free collection holds no block of stored size at least `n`, then deallocating `A`
immediately succeeds and allocating `n` bytes again returns the same address `A`, without a
call of the system allocator. -/
theorem C15_block_reuse (mr : BlockMemoryResource) (live : List Addr) (n : Nat)
    (answer answer2 : Addr) (bytes2 : Nat)
    (hA : (mr.do_allocate live n answer).1 ∉ mr.inUse)
    (hfree : ∀ b ∈ (mr.do_allocate live n answer).2.1.free_blocks, b.size < n) :
    ∃ mr2, (mr.do_allocate live n answer).2.1.do_deallocate (mr.do_allocate live n answer).1
        bytes2 = .ok mr2 ∧
      (mr2.do_allocate (mr.do_allocate live n answer).2.2 n answer2).1 =
        (mr.do_allocate live n answer).1 ∧
      (mr2.do_allocate (mr.do_allocate live n answer).2.2 n answer2).2.2 =
        (mr.do_allocate live n answer).2.2 := by
  refine ⟨_, do_allocate_do_deallocate mr live n answer bytes2 hA, ?_⟩
  generalize mr.do_allocate live n answer = r at hfree
  obtain ⟨p, mr1, live1⟩ := r
  simp only at hfree ⊢
  have hsplit := @takeFirst_of_split (fun b => decide (n ≤ b.size)) mr1.free_blocks []
    (Block.mk p n) (fun x hx => by simpa using hfree x hx) (by simp)
  simp only [BlockMemoryResource.do_allocate, hsplit, and_self]

/-- Witness of the amended C15: the test `ReuseFreedMemory`, on the empty resource. -/
theorem C15_block_reuse_witness :
    ∃ mr2, (BlockMemoryResource.new.do_allocate [] 256 4096).2.1.do_deallocate
        (BlockMemoryResource.new.do_allocate [] 256 4096).1 256 = .ok mr2 ∧
      (mr2.do_allocate (BlockMemoryResource.new.do_allocate [] 256 4096).2.2 256 8192).1 =
        (BlockMemoryResource.new.do_allocate [] 256 4096).1 ∧
      (mr2.do_allocate (BlockMemoryResource.new.do_allocate [] 256 4096).2.2 256 8192).2.2 =
        (BlockMemoryResource.new.do_allocate [] 256 4096).2.2 :=
  C15_block_reuse BlockMemoryResource.new [] 256 4096 8192 256 (by decide) (by decide)

/-! ## C16, C17, C18: unknown blocks, double free, disjoint collections -/

/-- C16. For every allocator state, `deallocate(p, size)` succeeds if and only if `p` is the
address of a block of the in-use collection. For an address that is not in the in-use
collection (never given out, or already returned to free) it fails with `UnknownBlock` and
leaves the in-use and the free collection unchanged; this holds for the resource on its own
and for the call a queue makes through `memory_resource::deallocate`. -/
theorem C16_deallocate_unknown_block {T : Type} (mr : BlockMemoryResource) (p : Addr)
    (bytes : Nat) :
    ((∃ mr1, mr.do_deallocate p bytes = .ok mr1) ↔ p ∈ mr.inUse) ∧
    (p ∉ mr.inUse →
      mr.do_deallocate p bytes = .error Error.UnknownBlock ∧
      (∀ live, Allocator.call { mr := mr, live := live } (.deallocate p bytes) =
        ({ mr := mr, live := live }, .failed Error.UnknownBlock)) ∧
      (∀ (w : World T) (id : Nat), w.resources id = mr →
        (w.deallocate (.block id) p bytes).1 = some Error.UnknownBlock ∧
        (w.deallocate (.block id) p bytes).2.resources = w.resources ∧
        (w.deallocate (.block id) p bytes).2.live = w.live)) := by
  constructor
  · constructor
    · rintro ⟨mr1, h⟩
      by_contra hp
      rw [do_deallocate_unknown mr p bytes hp] at h
      cases h
    · intro hp
      obtain ⟨mr1, h, _⟩ := do_deallocate_ok mr p bytes hp
      exact ⟨mr1, h⟩
  · intro hp
    have h := do_deallocate_unknown mr p bytes hp
    refine ⟨h, ?_, ?_⟩
    · intro live
      simp [Allocator.call, h]
    · intro w id hw
      subst hw
      simp [World.deallocate, h]

/-- Witness of C16: after `twoFreeBlocks` both blocks are in the free collection, and 4096,
already returned to free, is deallocated again. -/
theorem C16_deallocate_unknown_block_witness :
    (Allocator.afterCalls twoFreeBlocks).mr.do_deallocate 4096 100
      = .error Error.UnknownBlock :=
  ((@C16_deallocate_unknown_block Int (Allocator.afterCalls twoFreeBlocks).mr 4096 100).2
    (by decide)).1

theorem Allocator.call_deallocate_inUse (a : Allocator) {c : AllocCall}
    (hc : c.isDeallocate = true) : ∀ x ∈ (a.call c).1.mr.inUse, x ∈ a.mr.inUse := by
  cases c with
  | allocate bytes answer => simp [AllocCall.isDeallocate] at hc
  | deallocate p bytes =>
    intro x hx
    simp only [Allocator.call] at hx
    by_cases hp : p ∈ a.mr.inUse
    · obtain ⟨mr1, hd, hperm, _⟩ := do_deallocate_ok a.mr p bytes hp
      rw [hd] at hx
      exact hperm.mem_iff.mp (List.mem_cons_of_mem _ hx)
    · rw [do_deallocate_unknown a.mr p bytes hp] at hx
      exact hx

theorem Allocator.calls_deallocate_inUse {cs : List AllocCall} :
    ∀ (a : Allocator), (∀ c ∈ cs, c.isDeallocate = true) →
      ∀ x ∈ (a.calls cs).1.mr.inUse, x ∈ a.mr.inUse := by
  induction cs with
  | nil =>
    intro a _ x hx
    exact hx
  | cons c cs ih =>
    intro a hcs x hx
    simp only [Allocator.calls] at hx
    have h1 := ih (a.call c).1 (fun d hd => hcs d (List.mem_cons_of_mem _ hd)) x hx
    exact Allocator.call_deallocate_inUse a (hcs c (by simp)) x h1

/-- C17. No double free: in every allocator state reachable from the empty allocator by
allocate and deallocate (the system allocator never answering with a tracked address), after
a successful `deallocate(p)` a second `deallocate(p)` fails with `UnknownBlock` when no
`allocate` comes between them (other `deallocate` calls may). In particular allocate 100
gives A, allocate 200 gives B, deallocate A, allocate 100 gives A again, deallocate B, and
deallocate B again fails. -/
theorem C17_no_double_free :
    (∀ a : Allocator, Allocator.Reachable a → ∀ (p : Addr) (bytes : Nat),
      (a.call (.deallocate p bytes)).2 = .done →
      ∀ (between : List AllocCall), (∀ c ∈ between, c.isDeallocate = true) →
      ∀ bytes2 : Nat,
        ((((a.call (.deallocate p bytes)).1.calls between).1).call (.deallocate p bytes2)).2
          = .failed Error.UnknownBlock) ∧
    (Allocator.new.calls doubleFreeCalls).2
      = [.address 4096, .address 8192, .done, .address 4096, .done,
         .failed Error.UnknownBlock] := by
  constructor
  · intro a ha p bytes hdone between hbetween bytes2
    have hnd := ha.tracked_nodup
    have hin : p ∈ a.mr.inUse := by
      by_contra hp
      simp [Allocator.call, do_deallocate_unknown a.mr p bytes hp] at hdone
    obtain ⟨mr1, hd, hperm, _⟩ := do_deallocate_ok a.mr p bytes hin
    have hnd_in : a.mr.inUse.Nodup := by
      unfold BlockMemoryResource.tracked at hnd
      exact (List.nodup_append.mp hnd).1
    have hp1 : p ∉ mr1.inUse := (List.nodup_cons.mp (hperm.nodup_iff.mpr hnd_in)).1
    have hstate : (a.call (.deallocate p bytes)).1.mr = mr1 := by
      simp [Allocator.call, hd]
    have hp2 : p ∉ (((a.call (.deallocate p bytes)).1.calls between).1).mr.inUse := by
      intro h
      have := Allocator.calls_deallocate_inUse _ hbetween p h
      rw [hstate] at this
      exact hp1 this
    generalize ((a.call (.deallocate p bytes)).1.calls between).1 = a2 at hp2 ⊢
    simp [Allocator.call, do_deallocate_unknown a2.mr p bytes2 hp2]
  · decide

/-- Witness of C17: in the state after the first five calls of the scenario, where B = 8192
has just been deallocated, with one more failing `deallocate` between. -/
theorem C17_no_double_free_witness :
    ((((Allocator.afterCalls (doubleFreeCalls.take 4)).call (.deallocate 8192 200)).1.calls
        [.deallocate 4 1]).1.call (.deallocate 8192 200)).2
      = .failed Error.UnknownBlock :=
  C17_no_double_free.1 (Allocator.afterCalls (doubleFreeCalls.take 4))
    (Allocator.Reachable.afterCalls _) 8192 200 (by decide) [.deallocate 4 1] (by decide) 200

/-- C18. In every `BlockMemoryResource` state reachable from the empty allocator by allocate
and deallocate, the system allocator never answering with an address that is currently
tracked, no address appears in both the in-use collection and the free collection (and none
appears twice in either). -/
theorem C18_in_use_free_disjoint (a : Allocator) (h : Allocator.Reachable a) :
    (∀ p, p ∈ a.mr.inUse → p ∉ a.mr.freed) ∧ a.mr.inUse.Nodup ∧ a.mr.freed.Nodup := by
  have hnd := h.tracked_nodup
  unfold BlockMemoryResource.tracked at hnd
  obtain ⟨h1, h2, h3⟩ := List.nodup_append.mp hnd
  exact ⟨fun p hp hq => h3 hp hq, h1, h2⟩

/-- Witness of C18: the state after the scenario `doubleFreeCalls`. -/
theorem C18_in_use_free_disjoint_witness :
    (∀ p, p ∈ (Allocator.afterCalls doubleFreeCalls).mr.inUse →
      p ∉ (Allocator.afterCalls doubleFreeCalls).mr.freed) ∧
    (Allocator.afterCalls doubleFreeCalls).mr.inUse.Nodup ∧
    (Allocator.afterCalls doubleFreeCalls).mr.freed.Nodup :=
  C18_in_use_free_disjoint (Allocator.afterCalls doubleFreeCalls)
    (Allocator.Reachable.afterCalls _)

/-! ## C19: first fit -/

/-- C19. First fit, for every allocator state and request size `n`, in include/queue.hpp and
in include/block_memory_resource.hpp alike. If the free collection contains a block of stored
size at least `n`, and `b` is the first such block in free-collection order, `allocate(n)`
returns the address of `b`, removes exactly `b` from the free collection, adds that address
at the end of the in-use collection and obtains no system memory (queue.hpp records the
address with size `n`, block_memory_resource.hpp with the size of `b`). Otherwise it obtains
one new block of exactly `n` bytes from the system, adds it to the in-use collection and
leaves the free collection unchanged. -/
theorem C19_first_fit (mr : BlockMemoryResource) (live : List Addr) (n : Nat) (answer : Addr) :
    (∀ (before after : List Block) (b : Block),
      mr.free_blocks = before ++ b :: after → n ≤ b.size → (∀ x ∈ before, x.size < n) →
      mr.do_allocate live n answer =
        (b.ptr,
         { allocated_blocks := mr.allocated_blocks ++ [Block.mk b.ptr n],
           free_blocks := before ++ after },
         live) ∧
      block_memory_resource_hpp.do_allocate mr live n answer =
        (b.ptr,
         { allocated_blocks := mr.allocated_blocks ++ [b], free_blocks := before ++ after },
         live)) ∧
    ((∀ x ∈ mr.free_blocks, x.size < n) →
      mr.do_allocate live n answer =
        (answer,
         { allocated_blocks := mr.allocated_blocks ++ [Block.mk answer n],
           free_blocks := mr.free_blocks },
         answer :: live) ∧
      block_memory_resource_hpp.do_allocate mr live n answer =
        (answer,
         { allocated_blocks := mr.allocated_blocks ++ [Block.mk answer n],
           free_blocks := mr.free_blocks },
         answer :: live)) := by
  constructor
  · intro before after b hsplit hb hbefore
    have h := @takeFirst_of_split (fun b => decide (n ≤ b.size)) before after b
      (fun x hx => by simpa using hbefore x hx) (by simpa using hb)
    simp only [BlockMemoryResource.do_allocate, block_memory_resource_hpp.do_allocate, hsplit,
      h, and_self]
  · intro hall
    have h : takeFirst (fun b => decide (n ≤ b.size)) mr.free_blocks = none :=
      takeFirst_eq_none.mpr (fun x hx => by simpa using hall x hx)
    simp only [BlockMemoryResource.do_allocate, block_memory_resource_hpp.do_allocate, h,
      operator_new, and_self]

/-- Witness of C19: a request of 150 bytes skips the free block of 100 bytes and takes the
block of 200 bytes behind it; a request of 400 bytes finds no block and is served by the
system. -/
theorem C19_first_fit_witness :
    (BlockMemoryResource.do_allocate
        { allocated_blocks := [Block.mk 4096 50],
          free_blocks := [Block.mk 8192 100, Block.mk 12288 200, Block.mk 16384 300] }
        [4096, 8192, 12288, 16384] 150 20480 =
      (12288,
       { allocated_blocks := [Block.mk 4096 50] ++ [Block.mk 12288 150],
         free_blocks := [Block.mk 8192 100] ++ [Block.mk 16384 300] },
       [4096, 8192, 12288, 16384]) ∧
    block_memory_resource_hpp.do_allocate
        { allocated_blocks := [Block.mk 4096 50],
          free_blocks := [Block.mk 8192 100, Block.mk 12288 200, Block.mk 16384 300] }
        [4096, 8192, 12288, 16384] 150 20480 =
      (12288,
       { allocated_blocks := [Block.mk 4096 50] ++ [Block.mk 12288 200],
         free_blocks := [Block.mk 8192 100] ++ [Block.mk 16384 300] },
       [4096, 8192, 12288, 16384])) ∧
    (BlockMemoryResource.do_allocate
        { allocated_blocks := [Block.mk 4096 50],
          free_blocks := [Block.mk 8192 100, Block.mk 12288 200, Block.mk 16384 300] }
        [4096, 8192, 12288, 16384] 400 20480 =
      (20480,
       { allocated_blocks := [Block.mk 4096 50] ++ [Block.mk 20480 400],
         free_blocks := [Block.mk 8192 100, Block.mk 12288 200, Block.mk 16384 300] },
       20480 :: [4096, 8192, 12288, 16384]) ∧
    block_memory_resource_hpp.do_allocate
        { allocated_blocks := [Block.mk 4096 50],
          free_blocks := [Block.mk 8192 100, Block.mk 12288 200, Block.mk 16384 300] }
        [4096, 8192, 12288, 16384] 400 20480 =
      (20480,
       { allocated_blocks := [Block.mk 4096 50] ++ [Block.mk 20480 400],
         free_blocks := [Block.mk 8192 100, Block.mk 12288 200, Block.mk 16384 300] },
       20480 :: [4096, 8192, 12288, 16384])) :=
  ⟨(C19_first_fit
      { allocated_blocks := [Block.mk 4096 50],
        free_blocks := [Block.mk 8192 100, Block.mk 12288 200, Block.mk 16384 300] }
      [4096, 8192, 12288, 16384] 150 20480).1
      [Block.mk 8192 100] [Block.mk 16384 300] (Block.mk 12288 200) (by rfl) (by decide)
      (by decide),
   (C19_first_fit
      { allocated_blocks := [Block.mk 4096 50],
        free_blocks := [Block.mk 8192 100, Block.mk 12288 200, Block.mk 16384 300] }
      [4096, 8192, 12288, 16384] 400 20480).2 (by decide)⟩

/-! ## C20: the size recorded for a block -/

/-- C20, evaluated on the code. On the resource of include/queue.hpp, allocate(200) gives
A = 4096 from the system; after deallocate(A) and allocate(100), which reuses A, the in-use
collection records A with size 100; after deallocate(A) the free collection records
`(A, 100)`, and allocate(200) does not find A and returns a new block, 12288, of the system.
The variant of include/block_memory_resource.hpp keeps the size 200 and returns A again. -/
theorem C20_recorded_size_shrinks :
    (Allocator.new.calls shrinkCalls).2
      = [.address 4096, .done, .address 4096, .done, .address 12288] ∧
    (Allocator.new.calls (shrinkCalls.take 1)).1.mr.allocated_blocks = [Block.mk 4096 200] ∧
    (Allocator.new.calls (shrinkCalls.take 3)).1.mr.allocated_blocks = [Block.mk 4096 100] ∧
    (Allocator.new.calls (shrinkCalls.take 4)).1.mr.free_blocks = [Block.mk 4096 100] ∧
    (block_memory_resource_hpp.calls Allocator.new shrinkCalls).2
      = [.address 4096, .done, .address 4096, .done, .address 4096] ∧
    (block_memory_resource_hpp.calls Allocator.new (shrinkCalls.take 4)).1.mr.free_blocks
      = [Block.mk 4096 200] := by
  decide


/-! ## C21: conservation of blocks -/

/-- C21. In every `BlockMemoryResource` state reachable from the empty allocator (the system
allocator never answering with an address that is currently tracked), the in-use collection
followed by the free collection lists the addresses obtained from the system, each exactly
once; the destructor, which passes every entry of both collections to `::operator delete`,
releases a live block each time and leaves no system allocation behind. -/
theorem C21_block_conservation (a : Allocator) (h : Allocator.Reachable a) :
    (a.mr.inUse ++ a.mr.freed).Perm a.live ∧ (a.mr.inUse ++ a.mr.freed).Nodup ∧
    a.live.Nodup ∧ a.mr.destructor a.live = some [] := by
  have hp := h.tracked_perm
  have hn := h.tracked_nodup
  exact ⟨hp, hn, hp.nodup_iff.mp hn, destructor_of_perm a.mr a.live hp⟩

/-- Witness of C21: the state after the scenario `doubleFreeCalls`, which holds one block in
use and one free block. -/
theorem C21_block_conservation_witness :
    (Allocator.afterCalls doubleFreeCalls).mr.inUse = [4096] ∧
    (Allocator.afterCalls doubleFreeCalls).mr.freed = [8192] ∧
    (Allocator.afterCalls doubleFreeCalls).live = [8192, 4096] ∧
    (Allocator.afterCalls doubleFreeCalls).mr.destructor
      (Allocator.afterCalls doubleFreeCalls).live = some [] :=
  ⟨by decide, by decide, by decide,
   (C21_block_conservation (Allocator.afterCalls doubleFreeCalls)
      (Allocator.Reachable.afterCalls _)).2.2.2⟩

/-! ## C22: the moved-from queue -/

/-- C22. For every queue `q` (named `src`) of a reachable program state, after move
construction of a new queue `j` from it the source is bound to the same memory resource, and
a following `push(v)` on the source returns normally (the system allocator answering with a
fresh address): the source is then a queue of size 1 whose only node `p` is both head and
tail, `front()` and `back()` give `v`, and `p` is an address that no `BlockMemoryResource` had
in use before, obtained by the one `allocate` call the push makes, and different from every
node of the destination. The destination keeps the former `head`, `tail` and `size_` of `q`,
the same nodes and the same elements in the same order. -/
theorem C22_moved_from_usable {T : Type} [NodeLayout T] (s : Machine T) (hs : Reachable s)
    (j src : Nat) (q : Queue) (hq : s.queues src = some q) (hj : s.queues j = none)
    (v : T) (answer : Addr) (hf : s.world.freshAnswer answer) :
    ∃ s1 s2 p, s.step (.move j src) = some (s1, none) ∧
      s1.queues src = some (Queue.mk none none 0 q.allocator) ∧
      s1.step (.push src (some v) answer) = some (s2, none) ∧
      s2.queues src = some (Queue.mk (some p) (some p) 1 q.allocator) ∧
      (Queue.mk (some p) (some p) 1 q.allocator).front s2.world = .ok v ∧
      (Queue.mk (some p) (some p) 1 q.allocator).back s2.world = .ok v ∧
      (Queue.mk (some p) (some p) 1 q.allocator).toList s2.world = some (.ok [v]) ∧
      (∀ id, p ∉ (s.world.resources id).inUse) ∧
      (∀ id, q.allocator = .block id → p ∈ (s2.world.resources id).inUse) ∧
      s2.world.calls = s.world.calls ++ [Call.allocate q.allocator (NodeLayout.nodeBytes T)] ∧
      s2.queues j = some (Queue.mk q.head q.tail q.size_ q.allocator) ∧
      (∃ ns, q.nodeAddrs s.world = some ns ∧ p ∉ ns ∧
        (Queue.mk q.head q.tail q.size_ q.allocator).nodeAddrs s2.world = some ns) ∧
      (∃ xs, q.toList s.world = some (.ok xs) ∧
        (Queue.mk q.head q.tail q.size_ q.allocator).toList s2.world = some (.ok xs)) := by
  obtain ⟨cells, hi⟩ := hs.inv
  have hr := hi.repr src q hq
  have hjs : j ≠ src := by
    intro h
    rw [h, hq] at hj
    cases hj
  have hm : (Queue.mk none none 0 q.allocator).Repr s.world ([] : List (Addr × T)) :=
    ⟨rfl, rfl, rfl, List.nodup_nil, fun a h => by simp at h⟩
  obtain ⟨p, he, hr1, heff, hal, hun, _, hcalls⟩ := Queue.push_spec hi.sound hm v answer hf
  have hhead : ((Queue.mk none none 0 q.allocator).push s.world (some v) answer).queue.head
      = some p := hr1.linked.1
  have htail : ((Queue.mk none none 0 q.allocator).push s.world (some v) answer).queue.tail
      = some p := by rw [hr1.tail_eq]; rfl
  have hsize : ((Queue.mk none none 0 q.allocator).push s.world (some v) answer).queue.size_
      = 1 := by rw [hr1.size_eq]; rfl
  have hqe : ((Queue.mk none none 0 q.allocator).push s.world (some v) answer).queue
      = Queue.mk (some p) (some p) 1 q.allocator := by
    generalize ((Queue.mk none none 0 q.allocator).push s.world (some v) answer).queue = q1
      at hhead htail hsize hal
    cases q1
    simp only at hhead htail hsize hal
    rw [hhead, htail, hsize, hal]
  rw [hqe] at hr1
  have hdest : q.Repr ((Queue.mk none none 0 q.allocator).push s.world (some v) answer).world
      (cells src) :=
    hr.frame heff.frame (fun a _ h => by simp at h)
  have hpn : p ∉ (cells src).map Prod.fst := fun h => hun _ (hr.owned p h)
  obtain ⟨s1, hs1⟩ : ∃ s1 : Machine T, s1 =
      { world := s.world,
        queues := Function.update (Function.update s.queues src (some (Queue.move q).2))
          j (some (Queue.move q).1) } := ⟨_, rfl⟩
  have hs1w : s1.world = s.world := by rw [hs1]
  have hs1src : s1.queues src = some (Queue.mk none none 0 q.allocator) := by
    rw [hs1]
    dsimp only
    rw [Function.update_noteq (Ne.symm hjs), Function.update_same]
    rfl
  have hs1j : s1.queues j = some (Queue.mk q.head q.tail q.size_ q.allocator) := by
    rw [hs1]
    dsimp only
    rw [Function.update_same]
    rfl
  refine ⟨s1,
    { world := ((Queue.mk none none 0 q.allocator).push s.world (some v) answer).world,
      queues := Function.update s1.queues src (some (Queue.mk (some p) (some p) 1 q.allocator)) },
    p, ?_, hs1src, ?_, ?_, ?_, ?_, ?_, ?_, ?_, hcalls, ?_, ?_, ?_⟩
  · rw [hs1]
    simp only [Machine.step, hq, hj]
  · simp only [Machine.step, hs1src, Machine.settle, hs1w]
    rw [he, hqe]
    simp
  · dsimp only
    rw [Function.update_same]
  · exact hr1.front_eq
  · exact hr1.back_eq (c := (p, v)) rfl
  · exact hr1.toList_eq
  · intro id h
    exact hun (.block id) h
  · intro id hid
    have hown := hr1.owned p (by simp)
    have h2 : ∀ m, m = q.allocator →
        ((Queue.mk none none 0 q.allocator).push s.world (some v) answer).world.owns m p := by
      intro m e
      rw [e]
      exact hown
    exact h2 (.block id) hid.symm
  · dsimp only
    rw [Function.update_noteq hjs]
    exact hs1j
  · exact ⟨_, hr.nodeAddrs_eq, hpn, hdest.nodeAddrs_eq⟩
  · exact ⟨_, hr.toList_eq, hdest.toList_eq⟩

/-- Witness of C22: after `twoPushes`, queue 1 is move-constructed from queue 0, and 7 is
pushed on queue 0. -/
theorem C22_moved_from_usable_witness :
    ∃ s1 s2 p, (Machine.after twoPushes).step (.move 1 0) = some (s1, none) ∧
      s1.queues 0 = some (Queue.mk none none 0 (.block 0)) ∧
      s1.step (.push 0 (some 7) 4160) = some (s2, none) ∧
      s2.queues 0 = some (Queue.mk (some p) (some p) 1 (.block 0)) ∧
      (Queue.mk (some p) (some p) 1 (.block 0)).front s2.world = .ok 7 ∧
      (Queue.mk (some p) (some p) 1 (.block 0)).back s2.world = .ok 7 ∧
      (Queue.mk (some p) (some p) 1 (.block 0)).toList s2.world = some (.ok [7]) ∧
      (∀ id, p ∉ ((Machine.after twoPushes).world.resources id).inUse) ∧
      (∀ id, MemoryResourceRef.block 0 = .block id → p ∈ (s2.world.resources id).inUse) ∧
      s2.world.calls = (Machine.after twoPushes).world.calls ++
        [Call.allocate (.block 0) (NodeLayout.nodeBytes Int)] ∧
      s2.queues 1 = some (Queue.mk (some 4096) (some 4128) 2 (.block 0)) ∧
      (∃ ns, originalQueue.nodeAddrs (Machine.after twoPushes).world = some ns ∧ p ∉ ns ∧
        (Queue.mk (some 4096) (some 4128) 2 (.block 0)).nodeAddrs s2.world = some ns) ∧
      (∃ xs, originalQueue.toList (Machine.after twoPushes).world = some (.ok xs) ∧
        (Queue.mk (some 4096) (some 4128) 2 (.block 0)).toList s2.world = some (.ok xs)) :=
  C22_moved_from_usable (Machine.after twoPushes) (Reachable.after _) 1 0 originalQueue
    (by rfl) (by rfl) 7 4160 (by decide)

/-! ## C23: the duplicated definitions of the memory resource -/

/-- C23, evaluated on the code. The calls allocate(200), deallocate(A), allocate(100),
deallocate(A), allocate(200) on an empty resource separate the two headers: the resource of
include/queue.hpp answers the last call with a new block of the system, 12288, the resource
of include/block_memory_resource.hpp with A = 4096 again; a following deallocate(4096) raises
`UnknownBlock` on the first and returns normally on the second. The resource of
src/iterator.cpp is, call by call, the one of include/queue.hpp. -/
theorem C23_variants_differ :
    (Allocator.new.calls shrinkCalls).2
      ≠ (block_memory_resource_hpp.calls Allocator.new shrinkCalls).2 ∧
    (Allocator.new.calls shrinkCalls).2.getLast? = some (.address 12288) ∧
    (block_memory_resource_hpp.calls Allocator.new shrinkCalls).2.getLast?
      = some (.address 4096) ∧
    (Allocator.new.calls (shrinkCalls ++ [.deallocate 4096 200])).2.getLast?
      = some (.failed Error.UnknownBlock) ∧
    (block_memory_resource_hpp.calls Allocator.new
        (shrinkCalls ++ [.deallocate 4096 200])).2.getLast? = some .done ∧
    iterator_cpp.do_allocate = BlockMemoryResource.do_allocate ∧
    iterator_cpp.do_deallocate = BlockMemoryResource.do_deallocate := by
  refine ⟨by decide, by decide, by decide, by decide, by decide, ?_, ?_⟩
  · funext mr live bytes answer
    rfl
  · funext mr p bytes
    rfl

/-! ## C24: requests of one size -/

/-- C24. For every sequence of allocate and deallocate calls on an initially empty
`BlockMemoryResource` in which every allocate asks for the same number of bytes `n`, a further
allocate(n) returns the address of the block at the front of the free collection whenever
that collection is not empty (removing that block and recording the address in use), and
asks the system for memory exactly when the free collection is empty. -/
theorem C24_fixed_size_reuse (n : Nat) (cs : List AllocCall)
    (hcs : ∀ bytes answer, AllocCall.allocate bytes answer ∈ cs → bytes = n) (answer : Addr) :
    (∀ b rest, (Allocator.new.calls cs).1.mr.free_blocks = b :: rest →
      (Allocator.new.calls cs).1.mr.do_allocate (Allocator.new.calls cs).1.live n answer =
        (b.ptr,
         { allocated_blocks :=
             (Allocator.new.calls cs).1.mr.allocated_blocks ++ [Block.mk b.ptr n],
           free_blocks := rest },
         (Allocator.new.calls cs).1.live)) ∧
    ((Allocator.new.calls cs).1.mr.free_blocks = [] →
      (Allocator.new.calls cs).1.mr.do_allocate (Allocator.new.calls cs).1.live n answer =
        (answer,
         { allocated_blocks :=
             (Allocator.new.calls cs).1.mr.allocated_blocks ++ [Block.mk answer n],
           free_blocks := [] },
         answer :: (Allocator.new.calls cs).1.live)) ∧
    ((Allocator.new.calls cs).1.mr.asksSystem n = true ↔
      (Allocator.new.calls cs).1.mr.free_blocks = []) := by
  have hsz := Allocator.calls_sizes Allocator.new
    (by simp [Allocator.new, BlockMemoryResource.new]) hcs
  generalize (Allocator.new.calls cs).1 = a at hsz
  refine ⟨?_, ?_, ?_⟩
  · intro b rest hfree
    have hb : b.size = n := hsz b (by rw [hfree]; simp)
    simp [BlockMemoryResource.do_allocate, hfree, takeFirst, hb]
  · intro hfree
    simp [BlockMemoryResource.do_allocate, hfree, takeFirst, operator_new]
  · cases hfree : a.mr.free_blocks with
    | nil => simp [BlockMemoryResource.asksSystem, hfree, takeFirst]
    | cons b rest =>
      have hb : b.size = n := hsz b (by rw [hfree]; simp)
      simp [BlockMemoryResource.asksSystem, hfree, takeFirst, hb]

/-- Witness of C24: after `twoFreeBlocks`, whose requests all ask for 100 bytes, the free
collection is `[(4096, 100), (8192, 100)]` and allocate(100) returns 4096. -/
theorem C24_fixed_size_reuse_witness :
    (Allocator.new.calls twoFreeBlocks).1.mr.free_blocks =
      [Block.mk 4096 100, Block.mk 8192 100] ∧
    (Allocator.new.calls twoFreeBlocks).1.mr.do_allocate
        (Allocator.new.calls twoFreeBlocks).1.live 100 12288 =
      (4096,
       { allocated_blocks :=
           (Allocator.new.calls twoFreeBlocks).1.mr.allocated_blocks ++ [Block.mk 4096 100],
         free_blocks := [Block.mk 8192 100] },
       (Allocator.new.calls twoFreeBlocks).1.live) :=
  ⟨by decide,
   (C24_fixed_size_reuse 100 twoFreeBlocks
      (by intro bytes answer h; simp [twoFreeBlocks] at h; omega) 12288).1
      (Block.mk 4096 100) [Block.mk 8192 100] (by decide)⟩

/-! ## C25: no node is leaked -/

/-- C25. A queue is constructed on `BlockMemoryResource` `id` in the initial memory (nothing
allocated, no other user of the resource or of the system heap) and any sequence of `push`
and `pop` calls is run on it, none of which raises an exception, the system allocator
answering each push with a fresh address. Then `clear()` returns normally (within any bound
of at least `size()` calls of `pop`), and afterwards the in-use collection of the resource is
empty and its free collection holds exactly the live system allocations, which are the ones
that were live before `clear()`. The destructor of the queue, which runs `clear()`, ends in
the same memory. -/
theorem C25_no_node_leaked {T : Type} [NodeLayout T] (id : Nat) (ops : List (QueueOp T))
    (fuel : Nat)
    (hfresh : Queue.answersFresh (World.initial T) (Queue.new (.block id)) ops)
    (hok : (Queue.runOps (World.initial T) (Queue.new (.block id)) ops).error = none)
    (hfuel : (Queue.runOps (World.initial T) (Queue.new (.block id)) ops).queue.size ≤ fuel) :
    ∃ r, Queue.clear fuel (Queue.runOps (World.initial T) (Queue.new (.block id)) ops).world
        (Queue.runOps (World.initial T) (Queue.new (.block id)) ops).queue = some r ∧
      r.error = none ∧
      (r.world.resources id).allocated_blocks = [] ∧
      (r.world.resources id).freed.Perm r.world.live ∧
      r.world.live.Perm (Queue.runOps (World.initial T) (Queue.new (.block id)) ops).world.live ∧
      ∀ (s : Machine T) (j : Nat),
        s.world = (Queue.runOps (World.initial T) (Queue.new (.block id)) ops).world →
        s.queues j = some (Queue.runOps (World.initial T) (Queue.new (.block id)) ops).queue →
        ∃ s1, s.step (.destroy j fuel) = some (s1, none) ∧ s1.world = r.world ∧
          s1.queues j = none := by
  have h0 : SoleUser (World.initial T) id (Queue.new (.block id)) [] :=
    ⟨(Machine.Inv.initial T).sound, Queue.Repr.new _ _, rfl,
      fun a => by simp [World.initial, BlockMemoryResource.new, BlockMemoryResource.inUse],
      by simp [World.initial, BlockMemoryResource.new, BlockMemoryResource.tracked,
        BlockMemoryResource.inUse, BlockMemoryResource.freed]⟩
  obtain ⟨cells1, h1⟩ := SoleUser.runOps h0 hfresh hok
  have hlen : cells1.length ≤ fuel := by
    have := h1.repr.size_eq
    unfold Queue.size at hfuel
    omega
  obtain ⟨r, hc, hre, hr, hl⟩ := SoleUser.clear fuel h1 hlen
  have hin : (r.world.resources id).inUse = [] :=
    List.eq_nil_iff_forall_not_mem.mpr (fun a ha => by simpa using (hr.inUse_iff a).mp ha)
  have hal : (r.world.resources id).allocated_blocks = [] := by
    simpa [BlockMemoryResource.inUse] using hin
  refine ⟨r, hc, hre, hal, ?_, hl, ?_⟩
  · have := hr.tracked_live
    simpa [BlockMemoryResource.tracked, hin] using this
  · intro s j hw hq
    refine ⟨{ world := r.world, queues := Function.update s.queues j none }, ?_, rfl, ?_⟩
    · simp only [Machine.step, hq, hw, hc, hre, if_true]
    · simp

/-- Witness of C25: push 10, 20, 30 and one pop on a queue bound to `BlockMemoryResource` 0,
then `clear()`: the three blocks obtained from the system are in the free collection. -/
theorem C25_no_node_leaked_witness :
    ∃ r, Queue.clear 5
        (Queue.runOps (World.initial Int) (Queue.new (.block 0)) frontBackOps).world
        (Queue.runOps (World.initial Int) (Queue.new (.block 0)) frontBackOps).queue = some r ∧
      r.error = none ∧
      (r.world.resources 0).allocated_blocks = [] ∧
      (r.world.resources 0).freed.Perm r.world.live ∧
      r.world.live.Perm
        (Queue.runOps (World.initial Int) (Queue.new (.block 0)) frontBackOps).world.live ∧
      ∀ (s : Machine Int) (j : Nat),
        s.world = (Queue.runOps (World.initial Int) (Queue.new (.block 0)) frontBackOps).world →
        s.queues j =
          some (Queue.runOps (World.initial Int) (Queue.new (.block 0)) frontBackOps).queue →
        ∃ s1, s.step (.destroy j 5) = some (s1, none) ∧ s1.world = r.world ∧
          s1.queues j = none :=
  C25_no_node_leaked 0 frontBackOps 5 (by decide) (by decide) (by decide)

/-! ## C26: capacity safety -/

/-- C26. In every state of the `BlockMemoryResource` of include/queue.hpp reached from the
empty allocator by a sequence of calls (the system allocator never answering with a tracked
address), each tracked block has exactly one system allocation at its address, and the size
stored for the block is at most the number of bytes obtained from the system by that
allocation. Hence the address a further allocate(n) returns refers to a system allocation of
at least `n` bytes. -/
theorem C26_capacity_safety (cs : List AllocCall) (a : Allocator)
    (h : Allocator.new.exec cs = some a) :
    (∀ b ∈ a.mr.allocated_blocks ++ a.mr.free_blocks,
      ∃ x ∈ Allocator.new.obtained cs, x.ptr = b.ptr ∧ b.size ≤ x.size ∧
        ∀ y ∈ Allocator.new.obtained cs, y.ptr = b.ptr → y = x) ∧
    (∀ n answer, answer ∉ a.mr.tracked →
      ∃ x ∈ Allocator.new.obtained (cs ++ [.allocate n answer]),
        x.ptr = (a.mr.do_allocate a.live n answer).1 ∧ n ≤ x.size) := by
  have key : ∀ (cs : List AllocCall) (a : Allocator), Allocator.new.exec cs = some a →
      ∀ b ∈ a.mr.allocated_blocks ++ a.mr.free_blocks,
        ∃ x ∈ Allocator.new.obtained cs, x.ptr = b.ptr ∧ b.size ≤ x.size ∧
          ∀ y ∈ Allocator.new.obtained cs, y.ptr = b.ptr → y = x := by
    intro cs a h b hb
    have hreach : Allocator.Reachable a := Allocator.Reachable.of_exec Allocator.Reachable.new h
    obtain ⟨k1, k3⟩ := Allocator.exec_capacity Allocator.new [] a
      (by simp [Allocator.new, BlockMemoryResource.new, BlockMemoryResource.tracked,
        BlockMemoryResource.inUse, BlockMemoryResource.freed])
      (by simp) h
    simp only [List.nil_append] at k1 k3
    have hnd : ((Allocator.new.obtained cs).map Block.ptr).Nodup :=
      k1.nodup_iff.mpr hreach.tracked_nodup
    have hbt : b.ptr ∈ a.mr.tracked := by
      simp only [BlockMemoryResource.tracked, BlockMemoryResource.inUse,
        BlockMemoryResource.freed, ← List.map_append]
      exact List.mem_map_of_mem _ hb
    obtain ⟨x, hx, hxp⟩ := List.mem_map.mp (k1.symm.subset hbt)
    refine ⟨x, hx, hxp, k3 b hb x hx hxp, ?_⟩
    intro y hy hyp
    exact List.inj_on_of_nodup_map hnd hy hx (hyp.trans hxp.symm)
  refine ⟨key cs a h, ?_⟩
  intro n answer hfresh
  have hex : Allocator.new.exec (cs ++ [.allocate n answer]) =
      some (a.call (.allocate n answer)).1 := by
    rw [Allocator.exec_append, h]
    simp [Allocator.exec, AllocCall.admissible, hfresh]
  have hmem : Block.mk (a.mr.do_allocate a.live n answer).1 n ∈
      (a.call (.allocate n answer)).1.mr.allocated_blocks ++
        (a.call (.allocate n answer)).1.mr.free_blocks := by
    apply List.mem_append_left
    simp only [Allocator.call]
    rw [do_allocate_allocated]
    simp
  obtain ⟨x, hx, hxp, hle, _⟩ := key _ _ hex _ hmem
  exact ⟨x, hx, hxp, hle⟩

/-- Witness of C26: after `shrinkCalls` the block at 4096 is stored with size 100, the system
allocation at 4096 has 200 bytes. -/
theorem C26_capacity_safety_witness :
    (Allocator.afterCalls shrinkCalls).mr.free_blocks = [Block.mk 4096 100] ∧
    Allocator.new.obtained shrinkCalls = [Block.mk 4096 200, Block.mk 12288 200] ∧
    ∃ x ∈ Allocator.new.obtained shrinkCalls, x.ptr = (Block.mk 4096 100).ptr ∧
      (Block.mk 4096 100).size ≤ x.size ∧
      ∀ y ∈ Allocator.new.obtained shrinkCalls, y.ptr = (Block.mk 4096 100).ptr → y = x :=
  ⟨by decide, by decide,
   (C26_capacity_safety shrinkCalls (Allocator.afterCalls shrinkCalls) (by decide)).1
     (Block.mk 4096 100) (by decide)⟩

/-! ## C27: live allocations never alias -/

/-- C27. (1) In every `BlockMemoryResource` state reachable from the empty allocator, the
system allocator never answering with a tracked address, allocate does not return an address
that is in the in-use collection at the time of the call. (2) In every reachable program
state the same holds for `allocate` on any memory resource; the node addresses of every queue
are pairwise distinct and, for a queue bound to a `BlockMemoryResource`, all lie in the in-use
collection of that resource; and two different queues, whether or not they share the
resource, have no node address in common. -/
theorem C27_no_aliasing {T : Type} [NodeLayout T] (a : Allocator)
    (ha : Allocator.Reachable a) (s : Machine T) (hs : Reachable s) :
    (∀ n answer, answer ∉ a.mr.tracked →
      (a.mr.do_allocate a.live n answer).1 ∉ a.mr.inUse) ∧
    (∀ mr n answer, s.world.freshAnswer answer →
      ∀ id, (s.world.allocate mr n answer).1 ∉ (s.world.resources id).inUse) ∧
    (∀ j q, s.queues j = some q →
      ∃ ns, q.nodeAddrs s.world = some ns ∧ ns.Nodup ∧
        ∀ id, q.allocator = .block id → ∀ p ∈ ns, p ∈ (s.world.resources id).inUse) ∧
    (∀ i j qi qj, i ≠ j → s.queues i = some qi → s.queues j = some qj →
      ∃ ni nj, qi.nodeAddrs s.world = some ni ∧ qj.nodeAddrs s.world = some nj ∧
        ∀ p ∈ ni, p ∉ nj) := by
  obtain ⟨cells, hi⟩ := hs.inv
  refine ⟨?_, ?_, ?_, ?_⟩
  · intro n answer hfresh hin
    have hnd := ha.tracked_nodup
    unfold BlockMemoryResource.tracked at hnd
    obtain ⟨_, _, hdis⟩ := List.nodup_append.mp hnd
    rcases do_allocate_cases a.mr a.live n answer with ⟨hfr, _⟩ | ⟨he, _⟩
    · exact hdis hin hfr
    · rw [he] at hin
      exact hfresh (List.mem_append_left _ hin)
  · intro mr n answer hf id hin
    exact (World.allocate_spec s.world hi.sound mr n answer hf).2.2.1 (.block id) hin
  · intro j q hq
    have hr := hi.repr j q hq
    refine ⟨_, hr.nodeAddrs_eq, hr.nodup, ?_⟩
    intro id hid p hp
    have := hr.owned p hp
    rw [hid] at this
    exact this
  · intro i j qi qj hij hqi hqj
    exact ⟨_, _, (hi.repr i qi hqi).nodeAddrs_eq, (hi.repr j qj hqj).nodeAddrs_eq,
      hi.apart i j hij⟩

/-- Witness of C27: the allocator after `doubleFreeCalls`, and the state after `copyProgram`,
in which queue 0 and its copy, queue 1, share `BlockMemoryResource` 0. -/
theorem C27_no_aliasing_witness :
    (Allocator.afterCalls doubleFreeCalls).mr.inUse = [4096] ∧
    ((Allocator.afterCalls doubleFreeCalls).mr.do_allocate
        (Allocator.afterCalls doubleFreeCalls).live 100 16384).1 ∉
      (Allocator.afterCalls doubleFreeCalls).mr.inUse ∧
    ∃ ni nj, originalQueue.nodeAddrs (Machine.after copyProgram).world = some ni ∧
      copiedQueue.nodeAddrs (Machine.after copyProgram).world = some nj ∧
      ∀ p ∈ ni, p ∉ nj :=
  ⟨by decide,
   (C27_no_aliasing (Allocator.afterCalls doubleFreeCalls) (Allocator.Reachable.afterCalls _)
      (Machine.after copyProgram) (Reachable.after _)).1 100 16384 (by decide),
   (C27_no_aliasing (Allocator.afterCalls doubleFreeCalls) (Allocator.Reachable.afterCalls _)
      (Machine.after copyProgram) (Reachable.after _)).2.2.2 0 1 originalQueue copiedQueue
      (by decide) (by rfl) (by rfl)⟩
end OOPLab5
